import Mathlib

/-!
# Serializer-cpp: a verification development of the binary codec

The header `src/Serializer.h` declares the low-level codec (`Serializer_Base`,
`Serializer_Variant32`, ...) and defines the type-directed `Serializer<T>`
specialisations inline.  The out-of-line bodies of the low-level codec are not
part of the header; they are modelled here from the specification and every such
definition says so in its doc comment.

Data model of the embedding

* a byte is a natural number below 256;
* `Mem` is the addressable byte memory (address to byte), so pointer reads and
  writes are explicit and "never reads at or past `limit`" is a statement about
  which addresses a result depends on;
* `std::string` is a list of bytes, `std::string_view` is a pointer and a size;
* a C++ function with reference/pointer out-parameters returns the new values of
  those parameters next to its result (explicit state passing);
* machine integers are naturals with an explicit `% 2 ^ w` where the width matters;
  signed values are integers, converted with `toUnsigned` and `toSigned`;
* `float` and `double` are carried as their bit patterns;
* `std::vector<T>` is a list, `std::unordered_map<K, V>` the list of its pairs in
  iteration order; generic containers take the element specialisation `Serializer<T>`
  as a record of its `PutValue`, `GetValue` and value-initialised element;
* a composite type is given by what it supplies to `Serializer_Class<T>`: its optional
  ancestor and its ordered field list, each entry an accessor into the object together
  with the specialisation its static type selects.
-/

namespace SerializerCpp

/-- Byte-addressable memory: the byte stored at every address. -/
abbrev Mem := Nat → Nat

/-- Store one byte at an address (`*ptr = byte`). -/
def Mem.write (mem : Mem) (addr byte : Nat) : Mem :=
  fun a => if a = addr then byte else mem a

/-- The `n` bytes stored at `addr, addr + 1, ..., addr + n - 1`. -/
def Mem.read (mem : Mem) (addr n : Nat) : List Nat :=
  (List.range n).map (fun i => mem (addr + i))

/-- Memory holding the byte string `bytes` from address `0` on (zero elsewhere). -/
def Mem.ofBytes (bytes : List Nat) : Mem :=
  fun a => bytes.getD a 0

/-- The type `std::string_view`: a pointer to the first byte and a byte count. -/
structure string_view where
  data : Nat
  size : Nat
deriving DecidableEq, Repr

/-- The member `std::string_view::remove_prefix(n)`: advance the start by `n`, shrink the
size by `n`. -/
def string_view.remove_prefix (sv : string_view) (n : Nat) : string_view :=
  { data := sv.data + n, size := sv.size - n }

/-- The bytes a view denotes in a given memory. -/
def string_view.bytes (mem : Mem) (sv : string_view) : List Nat :=
  mem.read sv.data sv.size

/-- The view over a whole byte string placed at address `0` by `Mem.ofBytes`. -/
def string_view.ofBytes (bytes : List Nat) : string_view :=
  { data := 0, size := bytes.length }

/-! ## Varint codec (`Serializer_Base`, bodies modelled from the specification) -/

/-- Modelled from the spec: the body of `Serializer_Base::VariantLength` (declared at
`Serializer.h:20`, defined outside the header).  Spec 4.1: "returns the exact number of bytes
the varint encoding of `v` will occupy, found by counting how many groups of 7 bits are
needed (1 if v < 2^7, 2 if v < 2^14, ... up to 10 for the full 64-bit range)". -/
def VariantLength (v : Nat) : Nat :=
  if _h : 0x80 ≤ v then 1 + VariantLength (v >>> 7) else 1
termination_by v
decreasing_by
  rw [Nat.shiftRight_eq_div_pow]
  exact Nat.div_lt_self (by omega) (by norm_num)

/-- Modelled from the spec: the common body of `Serializer_Base::EncodeVariant32` and
`EncodeVariant64` (declared at `Serializer.h:24,27`, defined outside the header).  Spec 4.1:
"while `v >= 0x80`, emit `(v & 0x7F) | 0x80` and right-shift `v` by 7; finally emit the
remaining low bits with no continuation flag.  Returns a pointer/marker to the position
immediately after the written bytes".  The result is the memory after the writes and the
returned pointer. -/
def EncodeVariant (mem : Mem) (buf v : Nat) : Mem × Nat :=
  if _h : 0x80 ≤ v then
    EncodeVariant (mem.write buf ((v &&& 0x7F) ||| 0x80)) (buf + 1) (v >>> 7)
  else
    (mem.write buf v, buf + 1)
termination_by v
decreasing_by
  rw [Nat.shiftRight_eq_div_pow]
  exact Nat.div_lt_self (by omega) (by norm_num)

/-- Modelled from the spec: `Serializer_Base::EncodeVariant32(char* buf, uint32_t v)`; the
argument `v` is a 32-bit unsigned value. -/
def EncodeVariant32 (mem : Mem) (buf v : Nat) : Mem × Nat :=
  EncodeVariant mem buf v

/-- Modelled from the spec: `Serializer_Base::EncodeVariant64(char* dst, uint64_t v)`; the
argument `v` is a 64-bit unsigned value. -/
def EncodeVariant64 (mem : Mem) (dst v : Nat) : Mem × Nat :=
  EncodeVariant mem dst v

/-- Modelled from the spec: the byte-at-a-time decode loop shared by the 32- and the 64-bit
decoders (their bodies are outside the header).  Spec 4.1: "a plain byte-at-a-time loop
bounded by `limit`", "each step ORs 7 new bits into the accumulator and checks the
continuation bit", failing when "the continuation bit is set on every byte up to `limit`
without terminating" or (spec 7) when it is "set through the maximum possible byte count (5
for 32-bit, 10 for 64-bit) without terminating"; "on success, returns a pointer to the first
unread byte".  `w` is the width of the accumulator, the first numeric argument is the number
of bytes that may still be read, and the result is `none` for the null pointer and
`some (q, value)` for the returned pointer `q` and the value stored through `*v`. -/
def GetVariantLoop (w : Nat) (mem : Mem) (limit : Nat) :
    Nat → Nat → Nat → Nat → Option (Nat × Nat)
  | 0, _, _, _ => none
  | n + 1, shift, p, result =>
    if p < limit then
      let byte := mem p
      let result := (result ||| ((byte &&& 0x7F) <<< shift)) % 2 ^ w
      if byte &&& 0x80 = 0 then
        some (p + 1, result)
      else
        GetVariantLoop w mem limit n (shift + 7) (p + 1) result
    else
      none

/-- Modelled from the spec: `Serializer_Base::GetVariant32PtrFallback` (declared at
`Serializer.h:26`), the boundary-checked fallback path: the byte-at-a-time loop over at most
5 bytes with a 32-bit accumulator. -/
def GetVariant32PtrFallback (mem : Mem) (p limit : Nat) : Option (Nat × Nat) :=
  GetVariantLoop 32 mem limit 5 0 p 0

/-- Modelled from the spec: the fast path of the pointer decoders.  Spec 4.1: "when at least
one byte is guaranteed available, attempt to decode the first 1-4 (32-bit) or 1-5/more
(64-bit) bytes with unrolled, branch-light logic assuming the varint terminates quickly; each
step ORs 7 new bits into the accumulator and checks the continuation bit"; the fallback is
"used when the fast path's assumptions don't hold or more bytes remain".  The first numeric
argument is the number of unrolled steps left; `fallback` is the result of the fallback path
on the original region. -/
def GetVariantFast (w : Nat) (mem : Mem) (limit : Nat) (fallback : Option (Nat × Nat)) :
    Nat → Nat → Nat → Nat → Option (Nat × Nat)
  | 0, _, _, _ => fallback
  | k + 1, shift, p, result =>
    if p < limit then
      let byte := mem p
      let result := (result ||| ((byte &&& 0x7F) <<< shift)) % 2 ^ w
      if byte &&& 0x80 = 0 then
        some (p + 1, result)
      else
        GetVariantFast w mem limit fallback k (shift + 7) (p + 1) result
    else
      fallback

/-- Modelled from the spec: `Serializer_Base::GetVariant32Ptr` (declared at
`Serializer.h:25`): the fast path over the first 4 bytes, delegating to
`GetVariant32PtrFallback` on the same region when it does not terminate there. -/
def GetVariant32Ptr (mem : Mem) (p limit : Nat) : Option (Nat × Nat) :=
  GetVariantFast 32 mem limit (GetVariant32PtrFallback mem p limit) 4 0 p 0

/-- Modelled from the spec: `Serializer_Base::GetVariant64Ptr` (declared at
`Serializer.h:29`): the fast path over the first 5 bytes, then the byte-at-a-time loop over
at most 10 bytes with a 64-bit accumulator. -/
def GetVariant64Ptr (mem : Mem) (p limit : Nat) : Option (Nat × Nat) :=
  GetVariantFast 64 mem limit (GetVariantLoop 64 mem limit 10 0 p 0) 5 0 p 0

/-- Modelled from the spec: `Serializer_Variant32::PutVariant32` (declared at
`Serializer.h:75`, defined outside the header).  Spec 2: "encode walks a value and appends
bytes to a caller-owned growable buffer"; spec 4.4: a 32-bit value travels as "varint32".
The varint is produced by `EncodeVariant32` in a scratch buffer and the bytes up to the
returned position are appended to `dst`. -/
def PutVariant32 (dst : List Nat) (v : Nat) : List Nat :=
  let r := EncodeVariant32 (fun _ => 0) 0 v
  dst ++ r.1.read 0 r.2

/-- Modelled from the spec: `Serializer_Variant64::PutVariant64` (declared at
`Serializer.h:89`, defined outside the header), the 64-bit counterpart of `PutVariant32`
(spec 4.4: a 64-bit value travels as "varint64"). -/
def PutVariant64 (dst : List Nat) (v : Nat) : List Nat :=
  let r := EncodeVariant64 (fun _ => 0) 0 v
  dst ++ r.1.read 0 r.2

/-- Modelled from the spec: `Serializer_Variant32::GetVariant32` (declared at
`Serializer.h:76`).  Spec 4.1: "wraps the pointer-based decode over a cursor-like view; on
success, shrinks the view by the bytes consumed".  The result is the returned flag, the view
and the value behind `*v` after the call; on failure (where the spec leaves the view
unspecified) both are returned as they were. -/
def GetVariant32 (mem : Mem) (input : string_view) (v : Nat) : Bool × string_view × Nat :=
  let p := input.data
  let limit := p + input.size
  match GetVariant32Ptr mem p limit with
  | none => (false, input, v)
  | some (q, value) => (true, { data := q, size := limit - q }, value)

/-- Modelled from the spec: `Serializer_Variant64::GetVariant64` (declared at
`Serializer.h:90`), the 64-bit counterpart of `GetVariant32`. -/
def GetVariant64 (mem : Mem) (input : string_view) (v : Nat) : Bool × string_view × Nat :=
  let p := input.data
  let limit := p + input.size
  match GetVariant64Ptr mem p limit with
  | none => (false, input, v)
  | some (q, value) => (true, { data := q, size := limit - q }, value)

/-! ## Fixed-width codec -/

namespace port

/-- The constant `port::kLittleEndian` (`Serializer.h:14`). -/
def kLittleEndian : Bool := true

end port

/-- The value of an `n`-byte unsigned integer object whose bytes lie at `addr, addr + 1, ...`
on a little-endian target: what `memcpy(&result, ptr, sizeof(result))` leaves in `result`
there (least significant byte at the lowest address). -/
def loadLittleEndian (mem : Mem) (addr : Nat) : Nat → Nat
  | 0 => 0
  | n + 1 => mem addr % 256 + 256 * loadLittleEndian mem (addr + 1) n

/-- The function `Serializer_Base::DecodeFixed32` (`Serializer.h:31-45`).  The compile-time
constant `port::kLittleEndian` selects the branch; it is a parameter here so that both
branches can be stated, and callers pass `port.kLittleEndian`.  `static_cast<unsigned char>`
is `% 256`, and the shifts are 32-bit. -/
def DecodeFixed32 (kLittleEndian : Bool) (mem : Mem) (ptr : Nat) : Nat :=
  if kLittleEndian then
    loadLittleEndian mem ptr 4
  else
    (mem ptr % 256) |||
    (((mem (ptr + 1) % 256) <<< 8) % 2 ^ 32) |||
    (((mem (ptr + 2) % 256) <<< 16) % 2 ^ 32) |||
    (((mem (ptr + 3) % 256) <<< 24) % 2 ^ 32)

/-- The function `Serializer_Base::DecodeFixed64` (`Serializer.h:47-62`), with the constant
`port::kLittleEndian` as a parameter as in `DecodeFixed32`.  The shift is 64-bit. -/
def DecodeFixed64 (kLittleEndian : Bool) (mem : Mem) (ptr : Nat) : Nat :=
  if kLittleEndian then
    loadLittleEndian mem ptr 8
  else
    let lo := DecodeFixed32 kLittleEndian mem ptr
    let hi := DecodeFixed32 kLittleEndian mem (ptr + 4)
    ((hi <<< 32) % 2 ^ 64) ||| lo

/-- Modelled from the spec: the common body of `Serializer_Base::EncodeFixed32` and
`EncodeFixed64` (declared at `Serializer.h:23,28`, defined outside the header).  Spec 4.2:
"writes `v`'s bytes in little-endian order, 4 or 8 bytes, unconditionally".  The numeric
argument after `mem` is the number of bytes still to write. -/
def EncodeFixed (mem : Mem) : Nat → Nat → Nat → Mem
  | 0, _, _ => mem
  | n + 1, buf, v => EncodeFixed (mem.write buf (v % 256)) n (buf + 1) (v >>> 8)

/-- Modelled from the spec: `Serializer_Base::EncodeFixed32(char* buf, uint32_t v)`. -/
def EncodeFixed32 (mem : Mem) (buf v : Nat) : Mem :=
  EncodeFixed mem 4 buf v

/-- Modelled from the spec: `Serializer_Base::EncodeFixed64(char* buf, uint64_t v)`. -/
def EncodeFixed64 (mem : Mem) (buf v : Nat) : Mem :=
  EncodeFixed mem 8 buf v

/-- Modelled from the spec: `Serializer_Fixed32::PutFixed32` (declared at `Serializer.h:82`,
defined outside the header).  Spec 4.4: a `float` travels as "4-byte fixed"; spec 6:
"Fixed32/Fixed64: raw little-endian byte sequence of the unsigned bit pattern".  The 4 bytes
written by `EncodeFixed32` in a scratch buffer are appended to `dst`. -/
def PutFixed32 (dst : List Nat) (v : Nat) : List Nat :=
  dst ++ (EncodeFixed32 (fun _ => 0) 0 v).read 0 4

/-- Modelled from the spec: `Serializer_Fixed64::PutFixed64` (declared at `Serializer.h:96`,
defined outside the header), the 8-byte counterpart of `PutFixed32`. -/
def PutFixed64 (dst : List Nat) (v : Nat) : List Nat :=
  dst ++ (EncodeFixed64 (fun _ => 0) 0 v).read 0 8

/-- Modelled from the spec: `Serializer_Fixed32::GetFixed32` (declared at `Serializer.h:83`).
Spec 4.2: "fails if fewer than 4/8 bytes remain in `view`; on success does NOT itself advance
the view"; the value is `DecodeFixed32` of the first 4 bytes. -/
def GetFixed32 (mem : Mem) (input : string_view) (v : Nat) : Bool × string_view × Nat :=
  if input.size < 4 then (false, input, v)
  else (true, input, DecodeFixed32 port.kLittleEndian mem input.data)

/-- Modelled from the spec: `Serializer_Fixed64::GetFixed64` (declared at `Serializer.h:97`),
the 8-byte counterpart of `GetFixed32`. -/
def GetFixed64 (mem : Mem) (input : string_view) (v : Nat) : Bool × string_view × Nat :=
  if input.size < 8 then (false, input, v)
  else (true, input, DecodeFixed64 port.kLittleEndian mem input.data)

/-! ## The type dispatcher `Serializer<T>` -/

/-- The interface every specialisation `Serializer<T>` offers: `PutValue(dst, v)` returns the
buffer after the call; `GetValue(src, v)` returns the flag, the view and the output argument
after the call.  `init` is the value-initialised `T` that `emplace_back()` constructs. -/
structure Serializer (T : Type) where
  PutValue : List Nat → T → List Nat
  GetValue : Mem → string_view → T → Bool × string_view × T
  init : T

/-- The element type of `S` round-trips on the values satisfying `P`: `PutValue` only
appends bytes that do not depend on the buffer, and `GetValue` into a value-initialised
output, on a view over these bytes followed by anything, returns true, yields the value and
advances the view by exactly these bytes. -/
def Serializer.RoundTrips {T : Type} (S : Serializer T) (P : T → Prop) : Prop :=
  ∀ x, P x →
    (∀ dst, S.PutValue dst x = dst ++ S.PutValue [] x) ∧
    ∀ (rest : List Nat) (mem : Mem) (src : string_view),
      src.bytes mem = S.PutValue [] x ++ rest →
      S.GetValue mem src S.init = (true, src.remove_prefix (S.PutValue [] x).length, x)

namespace Serializer_float

/-- The function `Serializer<float>::PutValue` (`Serializer.h:285-295`).  A `float` is
carried as its 32-bit pattern: the anonymous union makes `u` the bits of `f`. -/
def PutValue (dst : List Nat) (v : Nat) : List Nat :=
  let u := v
  PutFixed32 dst u

/-- The function `Serializer<float>::GetValue` (`Serializer.h:297-314`). -/
def GetValue (mem : Mem) (src : string_view) (v : Nat) : Bool × string_view × Nat :=
  match GetFixed32 mem src 0 with
  | (true, src, u) => (true, src.remove_prefix 4, u)
  | (false, src, _) => (false, src, v)

end Serializer_float

namespace Serializer_double

/-- The function `Serializer<double>::PutValue` (`Serializer.h:321-331`).  A `double` is
carried as its 64-bit pattern. -/
def PutValue (dst : List Nat) (v : Nat) : List Nat :=
  let l := v
  PutFixed64 dst l

/-- The function `Serializer<double>::GetValue` (`Serializer.h:333-350`). -/
def GetValue (mem : Mem) (src : string_view) (v : Nat) : Bool × string_view × Nat :=
  match GetFixed64 mem src 0 with
  | (true, src, l) => (true, src.remove_prefix 8, l)
  | (false, src, _) => (false, src, v)

end Serializer_double

namespace Serializer_string

/-- The function `Serializer<std::string>::PutValue` (`Serializer.h:357-361`);
`static_cast<uint32_t>(v.size())` is `v.length % 2 ^ 32`. -/
def PutValue (dst : List Nat) (v : List Nat) : List Nat :=
  let dst := PutVariant32 dst (v.length % 2 ^ 32)
  dst ++ v

/-- The function `Serializer<std::string>::GetValue` (`Serializer.h:363-376`).  `len` is
only read when `GetVariant32` succeeded (short-circuit `&&`); `v.assign(src.data(), len)`
copies the `len` bytes at `src.data()`. -/
def GetValue (mem : Mem) (src : string_view) (v : List Nat) : Bool × string_view × List Nat :=
  match GetVariant32 mem src 0 with
  | (true, src, len) =>
    if src.size ≥ len then
      (true, src.remove_prefix len, mem.read src.data len)
    else
      (false, src, v)
  | (false, src, _) => (false, src, v)

/-- The specialisation `Serializer<std::string>`; a value-initialised string is empty. -/
def serializer : Serializer (List Nat) :=
  { PutValue := PutValue, GetValue := GetValue, init := [] }

end Serializer_string

namespace Serializer_vector

/-- The range-for loop of `Serializer<std::vector<T>>::PutValue` (`Serializer.h:387-390`). -/
def PutElements {T : Type} (S : Serializer T) : List Nat → List T → List Nat
  | dst, [] => dst
  | dst, e :: es => PutElements S (S.PutValue dst e) es

/-- The function `Serializer<std::vector<T>>::PutValue` (`Serializer.h:383-391`). -/
def PutValue {T : Type} (S : Serializer T) (dst : List Nat) (v : List T) : List Nat :=
  let dst := PutVariant32 dst (v.length % 2 ^ 32)
  PutElements S dst v

/-- The loop `for (uint32_t i = 0; i < vSize; i++)` of
`Serializer<std::vector<T>>::GetValue` (`Serializer.h:400-404`); the first argument is the
number of iterations left, `vSize - i`.  `v.emplace_back()` appends a value-initialised
element and the element decoder writes into that slot. -/
def GetElements {T : Type} (S : Serializer T) (mem : Mem) :
    Nat → string_view → List T → Bool × string_view × List T
  | 0, src, v => (true, src, v)
  | n + 1, src, v =>
    match S.GetValue mem src S.init with
    | (false, src, e) => (false, src, v ++ [e])
    | (true, src, e) => GetElements S mem n src (v ++ [e])

/-- The function `Serializer<std::vector<T>>::GetValue` (`Serializer.h:393-407`). -/
def GetValue {T : Type} (S : Serializer T) (mem : Mem) (src : string_view) (v : List T) :
    Bool × string_view × List T :=
  match GetVariant32 mem src 0 with
  | (false, src, _) => (false, src, v)
  | (true, src, vSize) => GetElements S mem vSize src v

/-- The specialisation `Serializer<std::vector<T>>`; a value-initialised vector is empty. -/
def serializer {T : Type} (S : Serializer T) : Serializer (List T) :=
  { PutValue := PutValue S, GetValue := GetValue S, init := [] }

end Serializer_vector

/-! ## Byte codec and integer conversions -/

/-- The function `Serializer_Byte::PutByte` (`Serializer.h:68`): append the one byte `v`. -/
def PutByte (dst : List Nat) (v : Nat) : List Nat :=
  dst ++ [v]

/-- Modelled from the spec: `Serializer_Byte::GetByte` (declared at `Serializer.h:69`, defined
outside the header).  Spec 4.3: "fails if the view is empty; otherwise reads one byte and
advances the view by one". -/
def GetByte (mem : Mem) (input : string_view) (v : Nat) : Bool × string_view × Nat :=
  if input.size = 0 then (false, input, v)
  else (true, input.remove_prefix 1, mem input.data)

/-- Conversion of a signed value to the unsigned type of width `w`
(`static_cast<uint32_t>(v)`, or the implicit conversion at a call): `v` modulo `2^w`. -/
def toUnsigned (w : Nat) (v : Int) : Nat :=
  (v % 2 ^ w).toNat

/-- The signed value of width `w` with the low `w` bits of `u` (`static_cast<int16_t>(u)`, or
reading back storage written through a `reinterpret_cast<uint32_t*>`): two's complement. -/
def toSigned (w : Nat) (u : Nat) : Int :=
  if u % 2 ^ w < 2 ^ (w - 1) then ((u % 2 ^ w : Nat) : Int) else ((u % 2 ^ w : Nat) : Int) - 2 ^ w

/-! ## Integer specialisations of `Serializer<T>` -/

namespace Serializer_int64_t

/-- The function `Serializer<int64_t>::PutValue` (`Serializer.h:132-135`); the argument is
converted to `uint64_t` at the call. -/
def PutValue (dst : List Nat) (v : Int) : List Nat :=
  PutVariant64 dst (toUnsigned 64 v)

/-- The function `Serializer<int64_t>::GetValue` (`Serializer.h:137-140`): the decoder writes
through `reinterpret_cast<uint64_t*>(&v)`. -/
def GetValue (mem : Mem) (src : string_view) (v : Int) : Bool × string_view × Int :=
  let r := GetVariant64 mem src (toUnsigned 64 v)
  (r.1, r.2.1, toSigned 64 r.2.2)

/-- The specialisation `Serializer<int64_t>`. -/
def serializer : Serializer Int :=
  { PutValue := PutValue, GetValue := GetValue, init := 0 }

end Serializer_int64_t

namespace Serializer_uint64_t

/-- The function `Serializer<uint64_t>::PutValue` (`Serializer.h:147-150`). -/
def PutValue (dst : List Nat) (v : Nat) : List Nat :=
  PutVariant64 dst v

/-- The function `Serializer<uint64_t>::GetValue` (`Serializer.h:152-155`). -/
def GetValue (mem : Mem) (src : string_view) (v : Nat) : Bool × string_view × Nat :=
  GetVariant64 mem src v

/-- The specialisation `Serializer<uint64_t>`. -/
def serializer : Serializer Nat :=
  { PutValue := PutValue, GetValue := GetValue, init := 0 }

end Serializer_uint64_t

namespace Serializer_int

/-- The function `Serializer<int>::PutValue` (`Serializer.h:162-165`); the argument is
converted to `uint32_t` at the call. -/
def PutValue (dst : List Nat) (v : Int) : List Nat :=
  PutVariant32 dst (toUnsigned 32 v)

/-- The function `Serializer<int>::GetValue` (`Serializer.h:167-170`): the decoder writes
through `reinterpret_cast<uint32_t*>(&v)`. -/
def GetValue (mem : Mem) (src : string_view) (v : Int) : Bool × string_view × Int :=
  let r := GetVariant32 mem src (toUnsigned 32 v)
  (r.1, r.2.1, toSigned 32 r.2.2)

/-- The specialisation `Serializer<int>`. -/
def serializer : Serializer Int :=
  { PutValue := PutValue, GetValue := GetValue, init := 0 }

end Serializer_int

namespace Serializer_uint32_t

/-- The function `Serializer<uint32_t>::PutValue` (`Serializer.h:177-180`). -/
def PutValue (dst : List Nat) (v : Nat) : List Nat :=
  PutVariant32 dst v

/-- The function `Serializer<uint32_t>::GetValue` (`Serializer.h:182-185`). -/
def GetValue (mem : Mem) (src : string_view) (v : Nat) : Bool × string_view × Nat :=
  GetVariant32 mem src v

/-- The specialisation `Serializer<uint32_t>`. -/
def serializer : Serializer Nat :=
  { PutValue := PutValue, GetValue := GetValue, init := 0 }

end Serializer_uint32_t

namespace Serializer_int16_t

/-- The function `Serializer<int16_t>::PutValue` (`Serializer.h:192-195`). -/
def PutValue (dst : List Nat) (v : Int) : List Nat :=
  PutVariant32 dst (toUnsigned 32 v)

/-- The function `Serializer<int16_t>::GetValue` (`Serializer.h:197-209`). -/
def GetValue (mem : Mem) (src : string_view) (v : Int) : Bool × string_view × Int :=
  match GetVariant32 mem src 0 with
  | (true, src, u) => (true, src, toSigned 16 u)
  | (false, src, _) => (false, src, v)

/-- The specialisation `Serializer<int16_t>`. -/
def serializer : Serializer Int :=
  { PutValue := PutValue, GetValue := GetValue, init := 0 }

end Serializer_int16_t

namespace Serializer_uint16_t

/-- The function `Serializer<uint16_t>::PutValue` (`Serializer.h:216-219`);
`static_cast<uint32_t>(v)` of a 16-bit unsigned value. -/
def PutValue (dst : List Nat) (v : Nat) : List Nat :=
  PutVariant32 dst (v % 2 ^ 32)

/-- The function `Serializer<uint16_t>::GetValue` (`Serializer.h:221-233`);
`static_cast<uint16_t>(u)` is `u % 2 ^ 16`. -/
def GetValue (mem : Mem) (src : string_view) (v : Nat) : Bool × string_view × Nat :=
  match GetVariant32 mem src 0 with
  | (true, src, u) => (true, src, u % 2 ^ 16)
  | (false, src, _) => (false, src, v)

/-- The specialisation `Serializer<uint16_t>`. -/
def serializer : Serializer Nat :=
  { PutValue := PutValue, GetValue := GetValue, init := 0 }

end Serializer_uint16_t

namespace Serializer_char

/-- The function `Serializer<char>::PutValue` (`Serializer.h:240-243`); a `char` is carried
as its byte, the conversion to `uint8_t` at the call is `% 256`. -/
def PutValue (dst : List Nat) (v : Nat) : List Nat :=
  PutByte dst (v % 256)

/-- The function `Serializer<char>::GetValue` (`Serializer.h:245-248`). -/
def GetValue (mem : Mem) (src : string_view) (v : Nat) : Bool × string_view × Nat :=
  GetByte mem src v

/-- The specialisation `Serializer<char>`. -/
def serializer : Serializer Nat :=
  { PutValue := PutValue, GetValue := GetValue, init := 0 }

end Serializer_char

namespace Serializer_int8_t

/-- The function `Serializer<int8_t>::PutValue` (`Serializer.h:255-258`); the argument is
converted to `uint8_t` at the call. -/
def PutValue (dst : List Nat) (v : Int) : List Nat :=
  PutByte dst (toUnsigned 8 v)

/-- The function `Serializer<int8_t>::GetValue` (`Serializer.h:260-263`): the decoder writes
through `reinterpret_cast<uint8_t*>(&v)`. -/
def GetValue (mem : Mem) (src : string_view) (v : Int) : Bool × string_view × Int :=
  let r := GetByte mem src (toUnsigned 8 v)
  (r.1, r.2.1, toSigned 8 r.2.2)

/-- The specialisation `Serializer<int8_t>`. -/
def serializer : Serializer Int :=
  { PutValue := PutValue, GetValue := GetValue, init := 0 }

end Serializer_int8_t

namespace Serializer_uint8_t

/-- The function `Serializer<uint8_t>::PutValue` (`Serializer.h:270-273`). -/
def PutValue (dst : List Nat) (v : Nat) : List Nat :=
  PutByte dst v

/-- The function `Serializer<uint8_t>::GetValue` (`Serializer.h:275-278`). -/
def GetValue (mem : Mem) (src : string_view) (v : Nat) : Bool × string_view × Nat :=
  GetByte mem src v

/-- The specialisation `Serializer<uint8_t>`. -/
def serializer : Serializer Nat :=
  { PutValue := PutValue, GetValue := GetValue, init := 0 }

end Serializer_uint8_t

namespace Serializer_Enum

/-- The function `Serializer_Enum<T>::PutValue` (`Serializer.h:104-107`); `toUInt32` is
`static_cast<uint32_t>` on the enumeration `T`. -/
def PutValue {T : Type} (toUInt32 : T → Nat) (dst : List Nat) (v : T) : List Nat :=
  PutVariant32 dst (toUInt32 v)

/-- The function `Serializer_Enum<T>::GetValue` (`Serializer.h:109-121`); `ofUInt32` is
`static_cast<T>` on a `uint32_t`. -/
def GetValue {T : Type} (ofUInt32 : Nat → T) (mem : Mem) (src : string_view) (v : T) :
    Bool × string_view × T :=
  match GetVariant32 mem src 0 with
  | (true, src, u) => (true, src, ofUInt32 u)
  | (false, src, _) => (false, src, v)

/-- A specialisation `Serializer<T>` that derives from `Serializer_Enum<T>`; the
value-initialised enumeration is `static_cast<T>(0)`. -/
def serializer {T : Type} (toUInt32 : T → Nat) (ofUInt32 : Nat → T) : Serializer T :=
  { PutValue := PutValue toUInt32, GetValue := GetValue ofUInt32, init := ofUInt32 0 }

end Serializer_Enum

/-! ## Mappings -/

/-- The type `std::unordered_map<K, V>`: its key/value pairs, listed in the iteration order
of the container.  That order is unspecified in C++; statements about a mapping speak about
lookups and the number of entries only. -/
abbrev unordered_map (K V : Type) := List (K × V)

/-- The member `std::unordered_map::insert(kv)`: the pair is added unless an entry with an
equal key exists, in which case the container is left unchanged.  Where the new entry lands
in the iteration order is unspecified; the model puts it last. -/
def unordered_map.insert {K V : Type} [DecidableEq K] (m : unordered_map K V) (kv : K × V) :
    unordered_map K V :=
  if m.any (fun e => decide (e.1 = kv.1)) then m else m ++ [kv]

/-- The value a key maps to (`find`), if any. -/
def unordered_map.find {K V : Type} [DecidableEq K] (m : unordered_map K V) (k : K) :
    Option V :=
  match m with
  | [] => none
  | e :: es => if e.1 = k then some e.2 else unordered_map.find es k

namespace Serializer_unordered_map

/-- The range-for loop of `Serializer<std::unordered_map<K, V>>::PutValue`
(`Serializer.h:418-422`). -/
def PutPairs {K V : Type} (SK : Serializer K) (SV : Serializer V) :
    List Nat → unordered_map K V → List Nat
  | dst, [] => dst
  | dst, kv :: kvs => PutPairs SK SV (SV.PutValue (SK.PutValue dst kv.1) kv.2) kvs

/-- The function `Serializer<std::unordered_map<K, V>>::PutValue` (`Serializer.h:414-423`). -/
def PutValue {K V : Type} (SK : Serializer K) (SV : Serializer V) (dst : List Nat)
    (v : unordered_map K V) : List Nat :=
  let dst := PutVariant32 dst (v.length % 2 ^ 32)
  PutPairs SK SV dst v

/-- The loop `for (uint32_t i = 0; i < vSize; i++)` of
`Serializer<std::unordered_map<K, V>>::GetValue` (`Serializer.h:432-443`); the first argument
is the number of iterations left.  `std::pair<K, V> kv;` is value-initialised. -/
def GetPairs {K V : Type} [DecidableEq K] (SK : Serializer K) (SV : Serializer V) (mem : Mem) :
    Nat → string_view → unordered_map K V → Bool × string_view × unordered_map K V
  | 0, src, v => (true, src, v)
  | n + 1, src, v =>
    match SK.GetValue mem src SK.init with
    | (false, src, _) => (false, src, v)
    | (true, src, k) =>
      match SV.GetValue mem src SV.init with
      | (false, src, _) => (false, src, v)
      | (true, src, x) => GetPairs SK SV mem n src (v.insert (k, x))

/-- The function `Serializer<std::unordered_map<K, V>>::GetValue` (`Serializer.h:425-446`). -/
def GetValue {K V : Type} [DecidableEq K] (SK : Serializer K) (SV : Serializer V) (mem : Mem)
    (src : string_view) (v : unordered_map K V) : Bool × string_view × unordered_map K V :=
  match GetVariant32 mem src 0 with
  | (false, src, _) => (false, src, v)
  | (true, src, vSize) => GetPairs SK SV mem vSize src v

/-- The specialisation `Serializer<std::unordered_map<K, V>>`; a value-initialised mapping is
empty. -/
def serializer {K V : Type} [DecidableEq K] (SK : Serializer K) (SV : Serializer V) :
    Serializer (unordered_map K V) :=
  { PutValue := PutValue SK SV, GetValue := GetValue SK SV, init := [] }

end Serializer_unordered_map

/-! ## Composite types (`Serializer_Class<T>`) -/

/-- One entry of a field list `T::kMetaClassMember`: a pointer to member of type `F` of the
object type `O`, read with `get` (`o->*p`) and written with `set`, together with the
specialisation `Serializer<F>` the member's static type selects.  The ancestor designated by
`T::SuperClass` has the same shape: the base-class subobject of `O` and `Serializer` of the
ancestor type. -/
structure Member (O : Type) where
  F : Type
  get : O → F
  set : O → F → O
  ser : Serializer F

/-- What a composite type `T` supplies: `T::SuperClass` (`none` for `void`) and the ordered
field list `T::kMetaClassMember`. -/
structure MetaClass (O : Type) where
  SuperClass : Option (Member O)
  kMetaClassMember : List (Member O)

namespace Serializer_Class

/-- The function `Serializer_Class<T>::PutMember` (`Serializer.h:478-482`): the fold over the
comma operator encodes the members from left to right. -/
def PutMember {O : Type} : List Nat → O → List (Member O) → List Nat
  | dst, _, [] => dst
  | dst, o, m :: ms => PutMember (m.ser.PutValue dst (m.get o)) o ms

/-- The function `Serializer_Class<T>::PutValue` (`Serializer.h:453-462`). -/
def PutValue {O : Type} (M : MetaClass O) (dst : List Nat) (obj : O) : List Nat :=
  let dst :=
    match M.SuperClass with
    | some a => a.ser.PutValue dst (a.get obj)
    | none => dst
  PutMember dst obj M.kMetaClassMember

/-- The function `Serializer_Class<T>::GetMember` (`Serializer.h:484-488`): the fold over
`&&` decodes the members from left to right into the object and stops at the first failure;
over an empty field list it is `true`. -/
def GetMember {O : Type} (mem : Mem) :
    List (Member O) → string_view → O → Bool × string_view × O
  | [], src, o => (true, src, o)
  | m :: ms, src, o =>
    match m.ser.GetValue mem src (m.get o) with
    | (false, src, x) => (false, src, m.set o x)
    | (true, src, x) => GetMember mem ms src (m.set o x)

/-- The function `Serializer_Class<T>::GetValue` (`Serializer.h:464-475`). -/
def GetValue {O : Type} (M : MetaClass O) (mem : Mem) (src : string_view) (obj : O) :
    Bool × string_view × O :=
  let r : Bool × string_view × O :=
    match M.SuperClass with
    | some a =>
      match a.ser.GetValue mem src (a.get obj) with
      | (result, src, b) => (true && result, src, a.set obj b)
    | none => (true, src, obj)
  match r with
  | (true, src, obj) => GetMember mem M.kMetaClassMember src obj
  | (false, src, obj) => (false, src, obj)

/-- A specialisation `Serializer<T>` that derives from `Serializer_Class<T>`; `init` is the
value-initialised object. -/
def serializer {O : Type} (M : MetaClass O) (init : O) : Serializer O :=
  { PutValue := PutValue M, GetValue := GetValue M, init := init }

end Serializer_Class

namespace Serializer_float

/-- The specialisation `Serializer<float>`, on bit patterns. -/
def serializer : Serializer Nat :=
  { PutValue := PutValue, GetValue := GetValue, init := 0 }

end Serializer_float

namespace Serializer_double

/-- The specialisation `Serializer<double>`, on bit patterns. -/
def serializer : Serializer Nat :=
  { PutValue := PutValue, GetValue := GetValue, init := 0 }

end Serializer_double

/-! ## Properties of a specialisation -/

/-- The encoder of `S` only appends, and what it appends does not depend on the buffer. -/
def Serializer.AppendOnly {T : Type} (S : Serializer T) : Prop :=
  ∀ (dst : List Nat) (x : T), S.PutValue dst x = dst ++ S.PutValue [] x

/-- The value `x` round-trips through `S` into an output argument that holds `out`: the
encoder appends bytes that do not depend on the buffer, and the decoder, on a view over
these bytes followed by anything and with the output holding `out`, returns true, leaves
`x` in the output and advances the view by exactly these bytes. -/
def Serializer.RoundTripsInto {T : Type} (S : Serializer T) (x out : T) : Prop :=
  (∀ dst, S.PutValue dst x = dst ++ S.PutValue [] x) ∧
  ∀ (rest : List Nat) (mem : Mem) (src : string_view),
    src.bytes mem = S.PutValue [] x ++ rest →
    S.GetValue mem src out = (true, src.remove_prefix (S.PutValue [] x).length, x)

/-- The view `a` is a suffix of the view `b`: it starts inside `b` and ends where `b`
ends. -/
def string_view.Within (a b : string_view) : Prop :=
  b.data ≤ a.data ∧ a.data + a.size = b.data + b.size

/-- The decoder of `S` stays inside the view: a successful call leaves a suffix of the view
it was given, and the outcome of a call depends on no byte outside that view. -/
def Serializer.Local {T : Type} (S : Serializer T) : Prop :=
  ∀ (mem : Mem) (src : string_view) (v : T),
    ((S.GetValue mem src v).1 = true → (S.GetValue mem src v).2.1.Within src) ∧
    ∀ mem2 : Mem, (∀ a, src.data ≤ a → a < src.data + src.size → mem2 a = mem a) →
      S.GetValue mem2 src v = S.GetValue mem src v

/-- A successful call of the decoder of `S` consumes at least one byte of the view. -/
def Serializer.Consumes {T : Type} (S : Serializer T) : Prop :=
  ∀ (mem : Mem) (src : string_view) (v : T),
    (S.GetValue mem src v).1 = true → src.data < (S.GetValue mem src v).2.1.data

/-- Writing a member and reading it back yields what was written. -/
def Member.Lawful {O : Type} (m : Member O) : Prop :=
  ∀ (o : O) (x : m.F), m.get (m.set o x) = x

/-- Two members are distinct parts of the object: writing one leaves the other as it was. -/
def Member.Independent {O : Type} (m1 m2 : Member O) : Prop :=
  (∀ (o : O) (x : m1.F), m2.get (m1.set o x) = m2.get o) ∧
  (∀ (o : O) (y : m2.F), m1.get (m2.set o y) = m1.get o)

/-- The parts of a composite object in wire order: the ancestor subobject, if an ancestor is
designated, followed by the own fields. -/
def MetaClass.all {O : Type} (M : MetaClass O) : List (Member O) :=
  M.SuperClass.toList ++ M.kMetaClassMember

/-- The lens laws of a composite type: every part (ancestor subobject and own fields) reads
back what was written to it, and the parts are pairwise distinct parts of the object. -/
def MetaClass.Lawful {O : Type} (M : MetaClass O) : Prop :=
  (∀ m ∈ M.all, m.Lawful) ∧ M.all.Pairwise Member.Independent

/-! ## Example composite types -/

/-- A composite type without fields and without ancestor:
`struct Marker { using SuperClass = void;
static constexpr auto kMetaClassMember = std::make_tuple(); };`. -/
structure Marker where
deriving DecidableEq, Repr

/-- What `Marker` supplies to `Serializer_Class<Marker>`. -/
def Marker.metaClass : MetaClass Marker :=
  { SuperClass := none, kMetaClassMember := [] }

/-- The specialisation `Serializer<Marker>`, derived from `Serializer_Class<Marker>`. -/
def Marker.serializer : Serializer Marker :=
  Serializer_Class.serializer Marker.metaClass {}

/-- A composite type without ancestor and with one field: `struct Root { uint32_t id; };`. -/
structure Root where
  id : Nat
deriving DecidableEq, Repr

/-- A composite type with ancestor `Root` and one own field:
`struct Middle : Root { std::string name; };`. -/
structure Middle where
  toRoot : Root
  name : List Nat
deriving DecidableEq, Repr

/-- A composite type with ancestor `Middle` and two own fields:
`struct Leaf : Middle { uint32_t count; std::string tag; };`. -/
structure Leaf where
  toMiddle : Middle
  count : Nat
  tag : List Nat
deriving DecidableEq, Repr

/-- The field list of `Root`. -/
def Root.members : List (Member Root) :=
  [{ F := Nat, get := fun o => o.id, set := fun o x => { o with id := x },
     ser := Serializer_uint32_t.serializer }]

/-- What `Root` supplies: no ancestor, the field `id`. -/
def Root.metaClass : MetaClass Root :=
  { SuperClass := none, kMetaClassMember := Root.members }

/-- The specialisation `Serializer<Root>`, derived from `Serializer_Class<Root>`. -/
def Root.serializer : Serializer Root :=
  Serializer_Class.serializer Root.metaClass { id := 0 }

/-- The ancestor of `Middle`: its `Root` subobject, handled by `Serializer<Root>`. -/
def Middle.super : Member Middle :=
  { F := Root, get := fun o => o.toRoot, set := fun o b => { o with toRoot := b },
    ser := Root.serializer }

/-- The field list of `Middle`. -/
def Middle.members : List (Member Middle) :=
  [{ F := List Nat, get := fun o => o.name, set := fun o x => { o with name := x },
     ser := Serializer_string.serializer }]

/-- What `Middle` supplies: the ancestor `Root`, the field `name`. -/
def Middle.metaClass : MetaClass Middle :=
  { SuperClass := some Middle.super, kMetaClassMember := Middle.members }

/-- The specialisation `Serializer<Middle>`, derived from `Serializer_Class<Middle>`. -/
def Middle.serializer : Serializer Middle :=
  Serializer_Class.serializer Middle.metaClass { toRoot := { id := 0 }, name := [] }

/-- The ancestor of `Leaf`: its `Middle` subobject, handled by `Serializer<Middle>`. -/
def Leaf.super : Member Leaf :=
  { F := Middle, get := fun o => o.toMiddle, set := fun o b => { o with toMiddle := b },
    ser := Middle.serializer }

/-- The field list of `Leaf`, in declaration order. -/
def Leaf.members : List (Member Leaf) :=
  [{ F := Nat, get := fun o => o.count, set := fun o x => { o with count := x },
     ser := Serializer_uint32_t.serializer },
   { F := List Nat, get := fun o => o.tag, set := fun o x => { o with tag := x },
     ser := Serializer_string.serializer }]

/-- What `Leaf` supplies: the ancestor `Middle`, the fields `count` and `tag`. -/
def Leaf.metaClass : MetaClass Leaf :=
  { SuperClass := some Leaf.super, kMetaClassMember := Leaf.members }

/-- The specialisation `Serializer<Leaf>`, derived from `Serializer_Class<Leaf>`. -/
def Leaf.serializer : Serializer Leaf :=
  Serializer_Class.serializer Leaf.metaClass
    { toMiddle := { toRoot := { id := 0 }, name := [] }, count := 0, tag := [] }

/-! ## Proof-level descriptions -/

/-- The varint byte string of `v` in arithmetic form: groups of 7 bits, least significant
first, every byte but the last carrying the continuation flag `128`.  It is the reference
against which the memory-writing encoder and the decoders are proved. -/
def varintBytes (v : Nat) : List Nat :=
  if _h : 128 ≤ v then (v % 128 + 128) :: varintBytes (v / 128) else [v]
termination_by v
decreasing_by exact Nat.div_lt_self (by omega) (by norm_num)

/-! ## Bit-level facts -/

theorem and_0x7F (b : Nat) : b &&& 0x7F = b % 128 :=
  Nat.and_pow_two_sub_one_eq_mod b 7

theorem and_0x80_eq_zero_iff (b : Nat) : b &&& 0x80 = 0 ↔ b / 128 % 2 = 0 := by
  have h := Nat.and_two_pow b 7
  have ht : b.testBit 7 = decide (b / 2 ^ 7 % 2 = 1) := Nat.testBit_to_div_mod
  norm_num at h ht
  rw [h]
  cases hb : b.testBit 7 <;> simp [hb] at ht ⊢ <;> omega

theorem or_shiftLeft_of_lt (r x s : Nat) (h : r < 2 ^ s) : r ||| (x <<< s) = r + x * 2 ^ s := by
  rw [Nat.shiftLeft_eq, Nat.or_comm, Nat.mul_comm x, ← Nat.mul_add_lt_is_or h, Nat.add_comm]

theorem or_0x80_of_lt (a : Nat) (h : a < 128) : a ||| 0x80 = a + 128 := by
  have := or_shiftLeft_of_lt a 1 7 (by simpa using h)
  simpa using this

theorem shiftRight_seven (v : Nat) : v >>> 7 = v / 128 := by
  rw [Nat.shiftRight_eq_div_pow]

/-! ## Memory facts -/

theorem Mem.read_zero (mem : Mem) (a : Nat) : mem.read a 0 = [] := rfl

theorem Mem.read_succ (mem : Mem) (a n : Nat) :
    mem.read a (n + 1) = mem a :: mem.read (a + 1) n := by
  simp only [Mem.read, List.range_succ_eq_map, List.map_cons, List.map_map, Nat.add_zero]
  congr 1
  apply List.map_congr_left
  intro i _
  simp only [Function.comp, Nat.succ_eq_add_one]
  congr 1
  omega

theorem Mem.read_length (mem : Mem) (a n : Nat) : (mem.read a n).length = n := by
  simp [Mem.read]

theorem Mem.read_add (mem : Mem) (a m n : Nat) :
    mem.read a (m + n) = mem.read a m ++ mem.read (a + m) n := by
  induction m generalizing a with
  | zero => simp [Mem.read_zero]
  | succ m ih =>
    rw [show m + 1 + n = (m + n) + 1 by omega, Mem.read_succ, Mem.read_succ, ih]
    simp [Nat.add_assoc, Nat.add_comm 1 m]

theorem Mem.read_congr (mem mem2 : Mem) (a n : Nat)
    (h : ∀ x, a ≤ x → x < a + n → mem2 x = mem x) : mem2.read a n = mem.read a n := by
  induction n generalizing a with
  | zero => rfl
  | succ n ih =>
    rw [Mem.read_succ, Mem.read_succ, h a (by omega) (by omega),
      ih (a + 1) (fun x h1 h2 => h x (by omega) (by omega))]

theorem Mem.read_eq_append (mem : Mem) (a n : Nat) (xs ys : List Nat)
    (h : mem.read a n = xs ++ ys) :
    n = xs.length + ys.length ∧ mem.read a xs.length = xs ∧
      mem.read (a + xs.length) ys.length = ys := by
  have hn : n = xs.length + ys.length := by
    have := congrArg List.length h
    simpa [Mem.read_length] using this
  subst hn
  rw [Mem.read_add] at h
  have h1 := List.append_inj h (by simp [Mem.read_length])
  exact ⟨rfl, h1.1, h1.2⟩

theorem Mem.ofBytes_read (bytes : List Nat) :
    (Mem.ofBytes bytes).read 0 bytes.length = bytes := by
  apply List.ext_getElem
  · simp [Mem.read_length]
  · intro i h1 h2
    simp [Mem.read, Mem.ofBytes, List.getD_eq_getElem?_getD, List.getElem?_eq_getElem h2]

theorem string_view.ofBytes_bytes (bytes : List Nat) :
    (string_view.ofBytes bytes).bytes (Mem.ofBytes bytes) = bytes :=
  Mem.ofBytes_read bytes

theorem string_view.bytes_remove_prefix (mem : Mem) (sv : string_view) (xs ys : List Nat)
    (h : sv.bytes mem = xs ++ ys) : (sv.remove_prefix xs.length).bytes mem = ys := by
  obtain ⟨hn, _, h2⟩ := Mem.read_eq_append mem sv.data sv.size xs ys h
  simp only [string_view.bytes, string_view.remove_prefix]
  rw [show sv.size - xs.length = ys.length by omega]
  exact h2

/-! ## The encoder against the arithmetic description -/

theorem varintBytes_of_lt (v : Nat) (h : v < 128) : varintBytes v = [v] := by
  rw [varintBytes, dif_neg (by omega)]

theorem varintBytes_of_ge (v : Nat) (h : 128 ≤ v) :
    varintBytes v = (v % 128 + 128) :: varintBytes (v / 128) := by
  rw [varintBytes, dif_pos h]

theorem varintBytes_length_pos (v : Nat) : 1 ≤ (varintBytes v).length := by
  by_cases h : 128 ≤ v
  · rw [varintBytes_of_ge v h]; simp
  · rw [varintBytes_of_lt v (by omega)]; simp

theorem varintBytes_length_le (k : Nat) : ∀ v, v < 2 ^ (7 * (k + 1)) →
    (varintBytes v).length ≤ k + 1 := by
  induction k with
  | zero =>
    intro v hv
    rw [varintBytes_of_lt v (by simpa using hv)]; simp
  | succ k ih =>
    intro v hv
    by_cases h : 128 ≤ v
    · rw [varintBytes_of_ge v h]
      have : v / 128 < 2 ^ (7 * (k + 1)) := by
        rw [Nat.div_lt_iff_lt_mul (by norm_num)]
        calc v < 2 ^ (7 * (k + 1 + 1)) := hv
          _ = 2 ^ (7 * (k + 1)) * 128 := by rw [show 7 * (k + 1 + 1) = 7 * (k + 1) + 7 by ring, pow_add]; norm_num
      have := ih (v / 128) this
      simp only [List.length_cons]; omega
    · rw [varintBytes_of_lt v (by omega)]; simp

theorem varintBytes_length_ge (k : Nat) : ∀ v, 2 ^ (7 * k) ≤ v →
    k + 1 ≤ (varintBytes v).length := by
  induction k with
  | zero => intro v _; exact varintBytes_length_pos v
  | succ k ih =>
    intro v hv
    have h128 : 128 ≤ v := by
      calc 128 = 2 ^ 7 := by norm_num
        _ ≤ 2 ^ (7 * (k + 1)) := Nat.pow_le_pow_right (by norm_num) (by omega)
        _ ≤ v := hv
    rw [varintBytes_of_ge v h128]
    have : 2 ^ (7 * k) ≤ v / 128 := by
      rw [Nat.le_div_iff_mul_le (by norm_num)]
      calc 2 ^ (7 * k) * 128 = 2 ^ (7 * (k + 1)) := by rw [show 7 * (k + 1) = 7 * k + 7 by ring, pow_add]; norm_num
        _ ≤ v := hv
    have := ih (v / 128) this
    simp only [List.length_cons]; omega

theorem VariantLength_eq (v : Nat) : VariantLength v = (varintBytes v).length := by
  induction v using Nat.strong_induction_on with
  | _ v ih =>
    by_cases h : 128 ≤ v
    · rw [VariantLength, dif_pos h, varintBytes_of_ge v h, shiftRight_seven,
        ih (v / 128) (Nat.div_lt_self (by omega) (by norm_num))]
      simp only [List.length_cons]; omega
    · rw [VariantLength, dif_neg h, varintBytes_of_lt v (by omega)]; simp

/-- The memory-writing encoder writes exactly `varintBytes v` at `buf`, returns the position
right after it and touches no other address. -/
theorem EncodeVariant_eq (v : Nat) : ∀ (mem : Mem) (buf : Nat),
    (EncodeVariant mem buf v).2 = buf + (varintBytes v).length ∧
    (EncodeVariant mem buf v).1.read buf (varintBytes v).length = varintBytes v ∧
    ∀ a, (a < buf ∨ buf + (varintBytes v).length ≤ a) → (EncodeVariant mem buf v).1 a = mem a := by
  induction v using Nat.strong_induction_on with
  | _ v ih =>
    intro mem buf
    by_cases h : 128 ≤ v
    · have hlt : v / 128 < v := Nat.div_lt_self (by omega) (by norm_num)
      obtain ⟨h1, h2, h3⟩ := ih (v / 128) hlt
        (mem.write buf ((v &&& 0x7F) ||| 0x80)) (buf + 1)
      rw [EncodeVariant, dif_pos h, shiftRight_seven, varintBytes_of_ge v h]
      refine ⟨?_, ?_, ?_⟩
      · rw [h1]; simp only [List.length_cons]; omega
      · simp only [List.length_cons]
        rw [Mem.read_succ, h2, h3 buf (Or.inl (by omega))]
        simp only [Mem.write, if_true]
        rw [and_0x7F, or_0x80_of_lt _ (Nat.mod_lt _ (by norm_num))]
      · intro a ha
        simp only [List.length_cons] at ha
        rw [h3 a (by omega)]
        simp only [Mem.write]
        rw [if_neg (by omega)]
    · rw [EncodeVariant, dif_neg h, varintBytes_of_lt v (by omega)]
      refine ⟨by simp, ?_, ?_⟩
      · simp [Mem.read_succ, Mem.read_zero, Mem.write]
      · intro a ha
        simp only [List.length_singleton] at ha
        simp only [Mem.write]
        rw [if_neg (by omega)]

theorem PutVariant32_eq (dst : List Nat) (v : Nat) : PutVariant32 dst v = dst ++ varintBytes v := by
  obtain ⟨h1, h2, _⟩ := EncodeVariant_eq v (fun _ => 0) 0
  simp only [PutVariant32, EncodeVariant32]
  rw [h1, Nat.zero_add, h2]

theorem PutVariant64_eq (dst : List Nat) (v : Nat) : PutVariant64 dst v = dst ++ varintBytes v := by
  obtain ⟨h1, h2, _⟩ := EncodeVariant_eq v (fun _ => 0) 0
  simp only [PutVariant64, EncodeVariant64]
  rw [h1, Nat.zero_add, h2]

/-! ## The decoders -/

/-- The fast path returns what the byte-at-a-time loop returns: whenever the loop, continued
from the current state with at least as many steps, yields `fb`, so does the fast path that
falls back to `fb`. -/
theorem GetVariantFast_eq (w : Nat) (mem : Mem) (limit : Nat) (fb : Option (Nat × Nat)) :
    ∀ (k m shift p result : Nat),
      GetVariantLoop w mem limit (k + m) shift p result = fb →
      GetVariantFast w mem limit fb k shift p result = fb := by
  intro k
  induction k with
  | zero => intro m shift p result _; rfl
  | succ k ih =>
    intro m shift p result h
    rw [show k + 1 + m = (k + m) + 1 by omega] at h
    simp only [GetVariantLoop] at h
    simp only [GetVariantFast]
    by_cases hp : p < limit
    · rw [if_pos hp] at h ⊢
      by_cases hb : mem p &&& 0x80 = 0
      · rw [if_pos hb] at h ⊢; exact h
      · rw [if_neg hb] at h ⊢; exact ih m _ _ _ h
    · rw [if_neg hp]

theorem GetVariant32Ptr_eq_fallback (mem : Mem) (p limit : Nat) :
    GetVariant32Ptr mem p limit = GetVariant32PtrFallback mem p limit :=
  GetVariantFast_eq 32 mem limit _ 4 1 0 p 0 rfl

theorem GetVariant64Ptr_eq_loop (mem : Mem) (p limit : Nat) :
    GetVariant64Ptr mem p limit = GetVariantLoop 64 mem limit 10 0 p 0 :=
  GetVariantFast_eq 64 mem limit _ 5 5 0 p 0 rfl

/-- The loop decodes `varintBytes v` found at `p`: it returns the position right after the
bytes and adds `v`, shifted, to the accumulator. -/
theorem GetVariantLoop_varintBytes (w : Nat) (v : Nat) :
    ∀ (mem : Mem) (limit n shift p result : Nat),
      mem.read p (varintBytes v).length = varintBytes v →
      p + (varintBytes v).length ≤ limit →
      (varintBytes v).length ≤ n →
      result < 2 ^ shift →
      result + v * 2 ^ shift < 2 ^ w →
      GetVariantLoop w mem limit n shift p result
        = some (p + (varintBytes v).length, result + v * 2 ^ shift) := by
  induction v using Nat.strong_induction_on with
  | _ v ih =>
    intro mem limit n shift p result hread hlim hn hres hfit
    by_cases h : 128 ≤ v
    · rw [varintBytes_of_ge v h] at hread hlim hn ⊢
      simp only [List.length_cons] at hread hlim hn ⊢
      rw [Mem.read_succ] at hread
      obtain ⟨hb, hrest⟩ := List.cons.inj hread
      obtain ⟨n, rfl⟩ : ∃ n', n = n' + 1 := ⟨n - 1, by omega⟩
      have hcont : ¬ (mem p &&& 0x80 = 0) := by
        rw [and_0x80_eq_zero_iff, hb]; omega
      have hlow : mem p &&& 0x7F = v % 128 := by
        rw [and_0x7F, hb]; omega
      have hsplit : (v % 128) * 2 ^ shift + (v / 128) * 2 ^ (shift + 7) = v * 2 ^ shift := by
        rw [pow_add]
        have := Nat.div_add_mod v 128
        calc (v % 128) * 2 ^ shift + (v / 128) * (2 ^ shift * 2 ^ 7)
            = (128 * (v / 128) + v % 128) * 2 ^ shift := by ring
          _ = v * 2 ^ shift := by rw [this]
      have hacc : (result ||| ((v % 128) <<< shift)) % 2 ^ w = result + (v % 128) * 2 ^ shift := by
        rw [or_shiftLeft_of_lt result _ shift hres]
        apply Nat.mod_eq_of_lt
        have : (v / 128) * 2 ^ (shift + 7) ≥ 0 := Nat.zero_le _
        omega
      simp only [GetVariantLoop]
      rw [if_pos (by omega), if_neg hcont, hlow, hacc]
      have hlt : v / 128 < v := Nat.div_lt_self (by omega) (by norm_num)
      have hres2 : result + (v % 128) * 2 ^ shift < 2 ^ (shift + 7) := by
        have h1 : (v % 128) * 2 ^ shift ≤ 127 * 2 ^ shift :=
          Nat.mul_le_mul_right _ (by omega)
        rw [pow_add]; omega
      rw [ih (v / 128) hlt mem limit n (shift + 7) (p + 1) _ hrest (by omega) (by omega) hres2
        (by omega)]
      congr 2
      · omega
      · omega
    · rw [varintBytes_of_lt v (by omega)] at hread hlim hn ⊢
      simp only [List.length_singleton] at hread hlim hn ⊢
      rw [Mem.read_succ] at hread
      obtain ⟨hb, _⟩ := List.cons.inj hread
      obtain ⟨n, rfl⟩ : ∃ n', n = n' + 1 := ⟨n - 1, by omega⟩
      have hstop : mem p &&& 0x80 = 0 := by
        rw [and_0x80_eq_zero_iff, hb]; omega
      have hlow : mem p &&& 0x7F = v := by
        rw [and_0x7F, hb]; omega
      simp only [GetVariantLoop]
      rw [if_pos (by omega), if_pos hstop, hlow, or_shiftLeft_of_lt result _ shift hres,
        Nat.mod_eq_of_lt hfit]

/-- A decode result depends only on the bytes inside `[p, limit)`. -/
theorem GetVariantLoop_congr (w : Nat) (mem mem2 : Mem) (limit : Nat) :
    ∀ (n shift p result : Nat), (∀ a, p ≤ a → a < limit → mem2 a = mem a) →
      GetVariantLoop w mem2 limit n shift p result = GetVariantLoop w mem limit n shift p result := by
  intro n
  induction n with
  | zero => intro _ _ _ _; rfl
  | succ n ih =>
    intro shift p result h
    simp only [GetVariantLoop]
    by_cases hp : p < limit
    · rw [if_pos hp, if_pos hp, h p (by omega) hp]
      by_cases hb : mem p &&& 0x80 = 0
      · rw [if_pos hb, if_pos hb]
      · rw [if_neg hb, if_neg hb]
        exact ih _ _ _ (fun a h1 h2 => h a (by omega) h2)
    · rw [if_neg hp, if_neg hp]

/-- When every byte the loop may look at carries the continuation flag, the loop fails. -/
theorem GetVariantLoop_none (w : Nat) (mem : Mem) (limit : Nat) :
    ∀ (n shift p result : Nat),
      (∀ i, i < min (limit - p) n → mem (p + i) &&& 0x80 ≠ 0) →
      GetVariantLoop w mem limit n shift p result = none := by
  intro n
  induction n with
  | zero => intro _ _ _ _; rfl
  | succ n ih =>
    intro shift p result h
    simp only [GetVariantLoop]
    by_cases hp : p < limit
    · have h0 := h 0 (by omega)
      rw [Nat.add_zero] at h0
      rw [if_pos hp, if_neg h0]
      apply ih
      intro i hi
      have := h (i + 1) (by omega)
      rwa [show p + (i + 1) = p + 1 + i by omega] at this
    · rw [if_neg hp]

theorem GetVariant32PtrFallback_congr (mem mem2 : Mem) (p limit : Nat)
    (h : ∀ a, p ≤ a → a < limit → mem2 a = mem a) :
    GetVariant32PtrFallback mem2 p limit = GetVariant32PtrFallback mem p limit :=
  GetVariantLoop_congr 32 mem mem2 limit 5 0 p 0 h

theorem GetVariant32Ptr_congr (mem mem2 : Mem) (p limit : Nat)
    (h : ∀ a, p ≤ a → a < limit → mem2 a = mem a) :
    GetVariant32Ptr mem2 p limit = GetVariant32Ptr mem p limit := by
  rw [GetVariant32Ptr_eq_fallback, GetVariant32Ptr_eq_fallback]
  exact GetVariant32PtrFallback_congr mem mem2 p limit h

theorem GetVariant64Ptr_congr (mem mem2 : Mem) (p limit : Nat)
    (h : ∀ a, p ≤ a → a < limit → mem2 a = mem a) :
    GetVariant64Ptr mem2 p limit = GetVariant64Ptr mem p limit := by
  rw [GetVariant64Ptr_eq_loop, GetVariant64Ptr_eq_loop]
  exact GetVariantLoop_congr 64 mem mem2 limit 10 0 p 0 h

theorem GetVariant32_congr (mem mem2 : Mem) (input : string_view) (out : Nat)
    (h : ∀ a, input.data ≤ a → a < input.data + input.size → mem2 a = mem a) :
    GetVariant32 mem2 input out = GetVariant32 mem input out := by
  simp only [GetVariant32]
  rw [GetVariant32Ptr_congr mem mem2 _ _ h]

theorem GetVariant64_congr (mem mem2 : Mem) (input : string_view) (out : Nat)
    (h : ∀ a, input.data ≤ a → a < input.data + input.size → mem2 a = mem a) :
    GetVariant64 mem2 input out = GetVariant64 mem input out := by
  simp only [GetVariant64]
  rw [GetVariant64Ptr_congr mem mem2 _ _ h]

/-- Decoding a view that starts with `varintBytes v` (32-bit). -/
theorem GetVariant32_varintBytes (v : Nat) (rest : List Nat) (mem : Mem) (input : string_view)
    (out : Nat) (hv : v < 2 ^ 32) (h : input.bytes mem = varintBytes v ++ rest) :
    GetVariant32 mem input out = (true, input.remove_prefix (varintBytes v).length, v) := by
  obtain ⟨hn, hread, _⟩ := Mem.read_eq_append mem input.data input.size _ _ h
  have hlen : (varintBytes v).length ≤ 5 :=
    varintBytes_length_le 4 v (lt_of_lt_of_le hv (by norm_num))
  have hloop := GetVariantLoop_varintBytes 32 v mem (input.data + input.size) 5 0 input.data 0
    hread (by omega) hlen (by norm_num) (by simpa using hv)
  simp only [GetVariant32]
  rw [GetVariant32Ptr_eq_fallback, GetVariant32PtrFallback, hloop]
  simp only [string_view.remove_prefix, pow_zero, Nat.mul_one, Nat.zero_add]
  congr 3
  omega

/-- Decoding a view that starts with `varintBytes v` (64-bit). -/
theorem GetVariant64_varintBytes (v : Nat) (rest : List Nat) (mem : Mem) (input : string_view)
    (out : Nat) (hv : v < 2 ^ 64) (h : input.bytes mem = varintBytes v ++ rest) :
    GetVariant64 mem input out = (true, input.remove_prefix (varintBytes v).length, v) := by
  obtain ⟨hn, hread, _⟩ := Mem.read_eq_append mem input.data input.size _ _ h
  have hlen : (varintBytes v).length ≤ 10 :=
    varintBytes_length_le 9 v (lt_of_lt_of_le hv (by norm_num))
  have hloop := GetVariantLoop_varintBytes 64 v mem (input.data + input.size) 10 0 input.data 0
    hread (by omega) hlen (by norm_num) (by simpa using hv)
  simp only [GetVariant64]
  rw [GetVariant64Ptr_eq_loop, hloop]
  simp only [string_view.remove_prefix, pow_zero, Nat.mul_one, Nat.zero_add]
  congr 3
  omega

theorem Mem.read_getElem? (mem : Mem) (a n i : Nat) (h : i < n) :
    (mem.read a n)[i]? = some (mem (a + i)) := by
  simp [Mem.read, List.getElem?_range h]

/-- The bytes of `varintBytes v` in the bit-level form of the wire format. -/
theorem varintBytes_getElem? (v : Nat) : ∀ i, i < (varintBytes v).length →
    (varintBytes v)[i]? = some (if i + 1 < (varintBytes v).length
      then ((v >>> (7 * i)) &&& 0x7F) ||| 0x80 else v >>> (7 * i)) ∧
    (i + 1 = (varintBytes v).length → v >>> (7 * i) < 0x80) := by
  induction v using Nat.strong_induction_on with
  | _ v ih =>
    intro i hi
    by_cases h : 128 ≤ v
    · have hpos := varintBytes_length_pos (v / 128)
      rw [varintBytes_of_ge v h] at hi ⊢
      simp only [List.length_cons] at hi ⊢
      cases i with
      | zero =>
        refine ⟨?_, fun h0 => by omega⟩
        rw [if_pos (by omega)]
        simp only [Nat.mul_zero, Nat.shiftRight_zero, List.getElem?_cons_zero]
        rw [and_0x7F, or_0x80_of_lt _ (Nat.mod_lt _ (by norm_num))]
      | succ j =>
        have hlt : v / 128 < v := Nat.div_lt_self (by omega) (by norm_num)
        obtain ⟨h1, h2⟩ := ih (v / 128) hlt j (by omega)
        have hsh : v >>> (7 * (j + 1)) = (v / 128) >>> (7 * j) := by
          rw [show 7 * (j + 1) = 7 + 7 * j by ring, Nat.shiftRight_add, shiftRight_seven]
        rw [hsh]
        refine ⟨?_, fun h0 => h2 (by omega)⟩
        rw [List.getElem?_cons_succ, h1]
        by_cases hj : j + 1 < (varintBytes (v / 128)).length
        · rw [if_pos hj, if_pos (by omega)]
        · rw [if_neg hj, if_neg (by omega)]
    · rw [varintBytes_of_lt v (by omega)] at hi ⊢
      simp only [List.length_singleton] at hi ⊢
      obtain rfl : i = 0 := by omega
      simp only [Nat.mul_zero, Nat.shiftRight_zero]
      refine ⟨by simp, fun _ => by omega⟩

/-- The wire format of the memory-writing encoder for a value whose varint has at most `m`
bytes. -/
theorem EncodeVariant_wire (m : Nat) (v : Nat) (mem : Mem) (buf : Nat)
    (hm : (varintBytes v).length ≤ m) :
    ∃ n, 1 ≤ n ∧ n ≤ m ∧ (EncodeVariant mem buf v).2 = buf + n ∧
      (∀ i, i < n - 1 →
        (EncodeVariant mem buf v).1 (buf + i) = ((v >>> (7 * i)) &&& 0x7F) ||| 0x80) ∧
      (EncodeVariant mem buf v).1 (buf + (n - 1)) = v >>> (7 * (n - 1)) ∧
      v >>> (7 * (n - 1)) < 0x80 ∧
      (∀ a, (a < buf ∨ buf + n ≤ a) → (EncodeVariant mem buf v).1 a = mem a) := by
  obtain ⟨h1, h2, h3⟩ := EncodeVariant_eq v mem buf
  have hpos := varintBytes_length_pos v
  have hget : ∀ i, i < (varintBytes v).length →
      some ((EncodeVariant mem buf v).1 (buf + i)) = (varintBytes v)[i]? := by
    intro i hi
    rw [← Mem.read_getElem? _ buf _ i hi, h2]
  refine ⟨(varintBytes v).length, hpos, hm, h1, ?_, ?_, ?_, h3⟩
  · intro i hi
    have := hget i (by omega)
    rw [(varintBytes_getElem? v i (by omega)).1, if_pos (by omega)] at this
    exact Option.some.inj this
  · have := hget ((varintBytes v).length - 1) (by omega)
    rw [(varintBytes_getElem? v _ (by omega)).1, if_neg (by omega)] at this
    exact Option.some.inj this
  · exact (varintBytes_getElem? v _ (by omega)).2 (by omega)

theorem GetVariant32_none (mem : Mem) (p limit out : Nat)
    (h : ∀ i, i < min (limit - p) 5 → mem (p + i) &&& 0x80 ≠ 0) :
    GetVariant32Ptr mem p limit = none ∧ GetVariant32PtrFallback mem p limit = none ∧
      (GetVariant32 mem { data := p, size := limit - p } out).1 = false := by
  have h1 : GetVariant32PtrFallback mem p limit = none :=
    GetVariantLoop_none 32 mem limit 5 0 p 0 h
  have h2 : GetVariant32PtrFallback mem p (p + (limit - p)) = none :=
    GetVariantLoop_none 32 mem _ 5 0 p 0 (by rwa [Nat.add_sub_cancel_left])
  refine ⟨by rw [GetVariant32Ptr_eq_fallback, h1], h1, ?_⟩
  simp only [GetVariant32]
  rw [GetVariant32Ptr_eq_fallback, h2]

theorem GetVariant64_none (mem : Mem) (p limit out : Nat)
    (h : ∀ i, i < min (limit - p) 10 → mem (p + i) &&& 0x80 ≠ 0) :
    GetVariant64Ptr mem p limit = none ∧
      (GetVariant64 mem { data := p, size := limit - p } out).1 = false := by
  have h1 : GetVariantLoop 64 mem limit 10 0 p 0 = none :=
    GetVariantLoop_none 64 mem limit 10 0 p 0 h
  have h2 : GetVariantLoop 64 mem (p + (limit - p)) 10 0 p 0 = none :=
    GetVariantLoop_none 64 mem _ 10 0 p 0 (by rwa [Nat.add_sub_cancel_left])
  refine ⟨by rw [GetVariant64Ptr_eq_loop, h1], ?_⟩
  simp only [GetVariant64]
  rw [GetVariant64Ptr_eq_loop, h2]

/-! ## Fixed-width codec facts -/

theorem loadLittleEndian_lt (mem : Mem) : ∀ (n a : Nat), loadLittleEndian mem a n < 256 ^ n := by
  intro n
  induction n with
  | zero => intro a; simp [loadLittleEndian]
  | succ n ih =>
    intro a
    have := ih (a + 1)
    have hb : mem a % 256 < 256 := Nat.mod_lt _ (by norm_num)
    simp only [loadLittleEndian, pow_succ]
    omega

theorem loadLittleEndian_add (mem : Mem) : ∀ (m n a : Nat),
    loadLittleEndian mem a (m + n)
      = loadLittleEndian mem a m + 256 ^ m * loadLittleEndian mem (a + m) n := by
  intro m
  induction m with
  | zero => intro n a; simp [loadLittleEndian]
  | succ m ih =>
    intro n a
    rw [show m + 1 + n = (m + n) + 1 by omega]
    simp only [loadLittleEndian]
    rw [ih n (a + 1), show a + 1 + m = a + (m + 1) by omega, pow_succ]
    ring

theorem loadLittleEndian_congr (mem mem2 : Mem) : ∀ (n a a2 : Nat),
    mem2.read a2 n = mem.read a n → loadLittleEndian mem2 a2 n = loadLittleEndian mem a n := by
  intro n
  induction n with
  | zero => intro _ _ _; rfl
  | succ n ih =>
    intro a a2 h
    rw [Mem.read_succ, Mem.read_succ] at h
    obtain ⟨h1, h2⟩ := List.cons.inj h
    simp only [loadLittleEndian]
    rw [h1, ih (a + 1) (a2 + 1) h2]

theorem or4_eq_sum (b0 b1 b2 b3 : Nat) (h0 : b0 < 256) (h1 : b1 < 256) (h2 : b2 < 256) :
    b0 ||| (b1 <<< 8) ||| (b2 <<< 16) ||| (b3 <<< 24)
      = b0 + 256 * (b1 + 256 * (b2 + 256 * (b3 + 0))) := by
  rw [or_shiftLeft_of_lt b0 b1 8 (by omega),
    or_shiftLeft_of_lt _ b2 16 (by omega),
    or_shiftLeft_of_lt _ b3 24 (by omega)]
  omega

/-- The byte-shift branch of `DecodeFixed32` computes the little-endian load. -/
theorem DecodeFixed32_shift_branch (mem : Mem) (ptr : Nat) :
    DecodeFixed32 false mem ptr = loadLittleEndian mem ptr 4 := by
  have h0 : mem ptr % 256 < 256 := Nat.mod_lt _ (by norm_num)
  have h1 : mem (ptr + 1) % 256 < 256 := Nat.mod_lt _ (by norm_num)
  have h2 : mem (ptr + 2) % 256 < 256 := Nat.mod_lt _ (by norm_num)
  have h3 : mem (ptr + 3) % 256 < 256 := Nat.mod_lt _ (by norm_num)
  have e1 : ((mem (ptr + 1) % 256) <<< 8) % 2 ^ 32 = (mem (ptr + 1) % 256) <<< 8 := by
    apply Nat.mod_eq_of_lt; rw [Nat.shiftLeft_eq]; omega
  have e2 : ((mem (ptr + 2) % 256) <<< 16) % 2 ^ 32 = (mem (ptr + 2) % 256) <<< 16 := by
    apply Nat.mod_eq_of_lt; rw [Nat.shiftLeft_eq]; omega
  have e3 : ((mem (ptr + 3) % 256) <<< 24) % 2 ^ 32 = (mem (ptr + 3) % 256) <<< 24 := by
    apply Nat.mod_eq_of_lt; rw [Nat.shiftLeft_eq]; omega
  simp only [DecodeFixed32, Bool.false_eq_true, if_false, loadLittleEndian]
  rw [e1, e2, e3, or4_eq_sum _ _ _ _ h0 h1 h2]

/-- The byte-shift branch of `DecodeFixed64` computes the little-endian load. -/
theorem DecodeFixed64_shift_branch (mem : Mem) (ptr : Nat) :
    DecodeFixed64 false mem ptr = loadLittleEndian mem ptr 8 := by
  have hlo := loadLittleEndian_lt mem 4 ptr
  have hhi := loadLittleEndian_lt mem 4 (ptr + 4)
  have e : ((loadLittleEndian mem (ptr + 4) 4) <<< 32) % 2 ^ 64
      = (loadLittleEndian mem (ptr + 4) 4) <<< 32 := by
    apply Nat.mod_eq_of_lt; rw [Nat.shiftLeft_eq]; omega
  simp only [DecodeFixed64, Bool.false_eq_true, if_false]
  rw [DecodeFixed32_shift_branch, DecodeFixed32_shift_branch, e, Nat.or_comm,
    or_shiftLeft_of_lt _ _ 32 (by omega), loadLittleEndian_add mem 4 4 ptr]
  ring

/-- The fixed-width encoder stores the low `n` bytes of `v` in little-endian order and
touches no other address. -/
theorem EncodeFixed_eq : ∀ (n : Nat) (mem : Mem) (buf v : Nat),
    loadLittleEndian (EncodeFixed mem n buf v) buf n = v % 256 ^ n ∧
    ∀ a, (a < buf ∨ buf + n ≤ a) → EncodeFixed mem n buf v a = mem a := by
  intro n
  induction n with
  | zero =>
    intro mem buf v
    simp [loadLittleEndian, EncodeFixed, Nat.mod_one]
  | succ n ih =>
    intro mem buf v
    obtain ⟨h1, h2⟩ := ih (mem.write buf (v % 256)) (buf + 1) (v >>> 8)
    simp only [EncodeFixed, loadLittleEndian]
    constructor
    · rw [h1, h2 buf (Or.inl (by omega))]
      simp only [Mem.write, if_true]
      rw [Nat.shiftRight_eq_div_pow, Nat.mod_mod, show (2 : Nat) ^ 8 = 256 by norm_num,
        pow_succ' 256 n, Nat.mod_mul]
    · intro a ha
      rw [h2 a (by omega)]
      simp only [Mem.write]
      rw [if_neg (by omega)]

theorem DecodeFixed32_eq_load (le : Bool) (mem : Mem) (ptr : Nat) :
    DecodeFixed32 le mem ptr = loadLittleEndian mem ptr 4 := by
  cases le
  · exact DecodeFixed32_shift_branch mem ptr
  · simp [DecodeFixed32]

theorem DecodeFixed64_eq_load (le : Bool) (mem : Mem) (ptr : Nat) :
    DecodeFixed64 le mem ptr = loadLittleEndian mem ptr 8 := by
  cases le
  · exact DecodeFixed64_shift_branch mem ptr
  · simp [DecodeFixed64]

theorem PutFixed32_length (dst : List Nat) (v : Nat) :
    (PutFixed32 dst v).length = dst.length + 4 := by
  simp [PutFixed32, Mem.read_length]

theorem PutFixed64_length (dst : List Nat) (v : Nat) :
    (PutFixed64 dst v).length = dst.length + 8 := by
  simp [PutFixed64, Mem.read_length]

/-- Decoding a view that starts with the `PutFixed32` bytes of `u`. -/
theorem DecodeFixed32_PutFixed32 (le : Bool) (u : Nat) (rest : List Nat) (mem : Mem)
    (src : string_view) (hu : u < 2 ^ 32) (h : src.bytes mem = PutFixed32 [] u ++ rest) :
    4 ≤ src.size ∧ DecodeFixed32 le mem src.data = u := by
  simp only [PutFixed32, List.nil_append] at h
  obtain ⟨hn, hread, _⟩ := Mem.read_eq_append mem src.data src.size _ _ h
  rw [Mem.read_length] at hn hread
  refine ⟨by omega, ?_⟩
  rw [DecodeFixed32_eq_load, loadLittleEndian_congr _ mem 4 0 src.data hread, EncodeFixed32,
    (EncodeFixed_eq 4 _ 0 u).1]
  exact Nat.mod_eq_of_lt (by simpa using hu)

/-- Decoding a view that starts with the `PutFixed64` bytes of `u`. -/
theorem DecodeFixed64_PutFixed64 (le : Bool) (u : Nat) (rest : List Nat) (mem : Mem)
    (src : string_view) (hu : u < 2 ^ 64) (h : src.bytes mem = PutFixed64 [] u ++ rest) :
    8 ≤ src.size ∧ DecodeFixed64 le mem src.data = u := by
  simp only [PutFixed64, List.nil_append] at h
  obtain ⟨hn, hread, _⟩ := Mem.read_eq_append mem src.data src.size _ _ h
  rw [Mem.read_length] at hn hread
  refine ⟨by omega, ?_⟩
  rw [DecodeFixed64_eq_load, loadLittleEndian_congr _ mem 8 0 src.data hread, EncodeFixed64,
    (EncodeFixed_eq 8 _ 0 u).1]
  exact Nat.mod_eq_of_lt (by simpa using hu)

/-! ## Strings -/

/-- A successful decode returns a position after `p` and not beyond `limit`. -/
theorem GetVariantLoop_bounds (w : Nat) (mem : Mem) (limit : Nat) :
    ∀ (n shift p result q val : Nat),
      GetVariantLoop w mem limit n shift p result = some (q, val) → p < q ∧ q ≤ limit := by
  intro n
  induction n with
  | zero => intro _ _ _ _ _ h; simp [GetVariantLoop] at h
  | succ n ih =>
    intro shift p result q val h
    simp only [GetVariantLoop] at h
    by_cases hp : p < limit
    · rw [if_pos hp] at h
      by_cases hb : mem p &&& 0x80 = 0
      · rw [if_pos hb] at h
        simp only [Option.some.injEq, Prod.mk.injEq] at h
        omega
      · rw [if_neg hb] at h
        have := ih _ _ _ _ _ h
        omega
    · rw [if_neg hp] at h
      exact absurd h (by simp)

theorem GetVariant32Ptr_bounds (mem : Mem) (p limit q val : Nat)
    (h : GetVariant32Ptr mem p limit = some (q, val)) : p < q ∧ q ≤ limit := by
  rw [GetVariant32Ptr_eq_fallback] at h
  exact GetVariantLoop_bounds 32 mem limit 5 0 p 0 q val h

theorem Serializer_string_PutValue_eq (dst s : List Nat) (hs : s.length < 2 ^ 32) :
    Serializer_string.PutValue dst s = dst ++ (varintBytes s.length ++ s) := by
  simp only [Serializer_string.PutValue]
  rw [Nat.mod_eq_of_lt hs, PutVariant32_eq, List.append_assoc]

theorem string_view.remove_prefix_add (sv : string_view) (a b : Nat) :
    string_view.remove_prefix (sv.remove_prefix a) b = sv.remove_prefix (a + b) := by
  simp only [string_view.remove_prefix, string_view.mk.injEq]
  omega

/-- Decoding a view that starts with the encoding of the string `s`. -/
theorem Serializer_string_GetValue_eq (s rest : List Nat) (mem : Mem) (src : string_view)
    (out : List Nat) (hs : s.length < 2 ^ 32)
    (h : src.bytes mem = (varintBytes s.length ++ s) ++ rest) :
    Serializer_string.GetValue mem src out
      = (true, src.remove_prefix (varintBytes s.length ++ s).length, s) := by
  rw [List.append_assoc] at h
  have hvar := GetVariant32_varintBytes s.length (s ++ rest) mem src 0 hs h
  have hrest := string_view.bytes_remove_prefix mem src _ _ h
  obtain ⟨hn, hread, _⟩ := Mem.read_eq_append mem _ _ _ _ hrest
  simp only [Serializer_string.GetValue]
  rw [hvar]
  simp only
  rw [if_pos (by omega), hread, string_view.remove_prefix_add, List.length_append]

/-- The string decoder depends only on the bytes inside the view. -/
theorem Serializer_string_GetValue_congr (mem mem2 : Mem) (src : string_view) (out : List Nat)
    (h : ∀ a, src.data ≤ a → a < src.data + src.size → mem2 a = mem a) :
    Serializer_string.GetValue mem2 src out = Serializer_string.GetValue mem src out := by
  simp only [Serializer_string.GetValue]
  rw [GetVariant32_congr mem mem2 src 0 h]
  simp only [GetVariant32]
  cases hq : GetVariant32Ptr mem src.data (src.data + src.size) with
  | none => rfl
  | some r =>
    obtain ⟨q, len⟩ := r
    obtain ⟨h1, h2⟩ := GetVariant32Ptr_bounds mem _ _ q len hq
    simp only
    by_cases hlen : src.data + src.size - q ≥ len
    · rw [if_pos hlen, if_pos hlen]
      rw [Mem.read_congr mem mem2 q len (fun x hx1 hx2 => h x (by omega) (by omega))]
    · rw [if_neg hlen, if_neg hlen]

/-! ## Sequences -/

theorem Serializer_string_roundTrips :
    Serializer_string.serializer.RoundTrips (fun s => s.length < 2 ^ 32) := by
  intro s hs
  simp only [Serializer_string.serializer]
  refine ⟨fun dst => ?_, fun rest mem src h => ?_⟩
  · rw [Serializer_string_PutValue_eq dst s hs, Serializer_string_PutValue_eq [] s hs,
      List.nil_append]
  · rw [Serializer_string_PutValue_eq [] s hs, List.nil_append] at h ⊢
    exact Serializer_string_GetValue_eq s rest mem src [] hs h

/-- The element loop of the sequence encoder appends the element encodings in order. -/
theorem Serializer_vector_PutElements_eq {T : Type} (S : Serializer T) (P : T → Prop)
    (hS : S.RoundTrips P) : ∀ (xs : List T) (dst : List Nat), (∀ x ∈ xs, P x) →
      Serializer_vector.PutElements S dst xs = dst ++ (xs.map (S.PutValue [])).flatten := by
  intro xs
  induction xs with
  | nil => intro dst _; simp [Serializer_vector.PutElements]
  | cons x xs ih =>
    intro dst hP
    simp only [Serializer_vector.PutElements, List.map_cons, List.flatten_cons]
    rw [ih _ (fun y hy => hP y (List.mem_cons_of_mem _ hy)),
      (hS x (hP x (List.mem_cons_self _ _))).1 dst, List.append_assoc]

theorem Serializer_vector_PutValue_eq {T : Type} (S : Serializer T) (P : T → Prop)
    (hS : S.RoundTrips P) (xs : List T) (dst : List Nat) (hlen : xs.length < 2 ^ 32)
    (hP : ∀ x ∈ xs, P x) :
    Serializer_vector.PutValue S dst xs
      = dst ++ (varintBytes xs.length ++ (xs.map (S.PutValue [])).flatten) := by
  simp only [Serializer_vector.PutValue]
  rw [Nat.mod_eq_of_lt hlen, Serializer_vector_PutElements_eq S P hS xs _ hP, PutVariant32_eq,
    List.append_assoc]

/-- The element loop of the sequence decoder, run on the element encodings, appends the
elements to the target in order. -/
theorem Serializer_vector_GetElements_eq {T : Type} (S : Serializer T) (P : T → Prop)
    (hS : S.RoundTrips P) (mem : Mem) (rest : List Nat) :
    ∀ (xs : List T) (src : string_view) (v : List T), (∀ x ∈ xs, P x) →
      src.bytes mem = (xs.map (S.PutValue [])).flatten ++ rest →
      Serializer_vector.GetElements S mem xs.length src v
        = (true, src.remove_prefix (xs.map (S.PutValue [])).flatten.length, v ++ xs) := by
  intro xs
  induction xs with
  | nil =>
    intro src v _ _
    simp [Serializer_vector.GetElements, string_view.remove_prefix]
  | cons x xs ih =>
    intro src v hP h
    simp only [List.map_cons, List.flatten_cons, List.append_assoc] at h
    have hx := (hS x (hP x (List.mem_cons_self _ _))).2 _ mem src h
    have hrest := string_view.bytes_remove_prefix mem src _ _ h
    simp only [Serializer_vector.GetElements, List.length_cons]
    rw [hx]
    simp only
    rw [ih _ (v ++ [x]) (fun y hy => hP y (List.mem_cons_of_mem _ hy)) hrest,
      string_view.remove_prefix_add]
    simp [List.append_assoc]

/-- Decoding a view that starts with the encoding of the sequence `xs`. -/
theorem Serializer_vector_GetValue_eq {T : Type} (S : Serializer T) (P : T → Prop)
    (hS : S.RoundTrips P) (xs : List T) (hlen : xs.length < 2 ^ 32) (hP : ∀ x ∈ xs, P x)
    (rest : List Nat) (mem : Mem) (src : string_view) (v : List T)
    (h : src.bytes mem = (varintBytes xs.length ++ (xs.map (S.PutValue [])).flatten) ++ rest) :
    Serializer_vector.GetValue S mem src v
      = (true,
          src.remove_prefix (varintBytes xs.length ++ (xs.map (S.PutValue [])).flatten).length,
          v ++ xs) := by
  rw [List.append_assoc] at h
  have hvar := GetVariant32_varintBytes xs.length _ mem src 0 hlen h
  have hrest := string_view.bytes_remove_prefix mem src _ _ h
  simp only [Serializer_vector.GetValue]
  rw [hvar]
  simp only
  rw [Serializer_vector_GetElements_eq S P hS mem rest xs _ v hP hrest,
    string_view.remove_prefix_add, List.length_append]

/-- A sequence of round-tripping elements round-trips, so sequences nest. -/
theorem Serializer_vector_roundTrips {T : Type} (S : Serializer T) (P : T → Prop)
    (hS : S.RoundTrips P) :
    (Serializer_vector.serializer S).RoundTrips
      (fun xs => xs.length < 2 ^ 32 ∧ ∀ x ∈ xs, P x) := by
  intro xs hxs
  obtain ⟨hlen, hP⟩ := hxs
  simp only [Serializer_vector.serializer]
  refine ⟨fun dst => ?_, fun rest mem src h => ?_⟩
  · rw [Serializer_vector_PutValue_eq S P hS xs dst hlen hP,
      Serializer_vector_PutValue_eq S P hS xs [] hlen hP, List.nil_append]
  · rw [Serializer_vector_PutValue_eq S P hS xs [] hlen hP, List.nil_append] at h ⊢
    rw [Serializer_vector_GetValue_eq S P hS xs hlen hP rest mem src [] h, List.nil_append]

/-! ## Integer conversion facts -/

theorem toUnsigned32_lt (v : Int) : toUnsigned 32 v < 2 ^ 32 := by
  simp only [toUnsigned]
  norm_num
  omega

theorem toUnsigned64_lt (v : Int) : toUnsigned 64 v < 2 ^ 64 := by
  simp only [toUnsigned]
  norm_num
  omega

theorem toSigned16_toUnsigned32 (v : Int) (h1 : -2 ^ 15 ≤ v) (h2 : v < 2 ^ 15) :
    toSigned 16 (toUnsigned 32 v) = v := by
  simp only [toSigned, toUnsigned]
  norm_num at h1 h2 ⊢
  split <;> omega

theorem toSigned32_toUnsigned32 (v : Int) (h1 : -2 ^ 31 ≤ v) (h2 : v < 2 ^ 31) :
    toSigned 32 (toUnsigned 32 v) = v := by
  simp only [toSigned, toUnsigned]
  norm_num at h1 h2 ⊢
  split <;> omega

theorem toSigned64_toUnsigned64 (v : Int) (h1 : -2 ^ 63 ≤ v) (h2 : v < 2 ^ 63) :
    toSigned 64 (toUnsigned 64 v) = v := by
  simp only [toSigned, toUnsigned]
  norm_num at h1 h2 ⊢
  split <;> omega

/-! ## Sequence decode into a non-empty target -/

/-- The element loop only appends to the vector it is given. -/
theorem Serializer_vector_GetElements_append {T : Type} (S : Serializer T) (mem : Mem) :
    ∀ (n : Nat) (src : string_view) (v : List T),
      Serializer_vector.GetElements S mem n src v
        = ((Serializer_vector.GetElements S mem n src []).1,
           (Serializer_vector.GetElements S mem n src []).2.1,
           v ++ (Serializer_vector.GetElements S mem n src []).2.2) := by
  intro n
  induction n with
  | zero => intro src v; simp [Serializer_vector.GetElements]
  | succ n ih =>
    intro src v
    simp only [Serializer_vector.GetElements]
    rcases hg : S.GetValue mem src S.init with ⟨b, src2, e⟩
    cases b
    · simp
    · simp only [List.nil_append]
      rw [ih src2 (v ++ [e]), ih src2 [e], List.append_assoc]

/-- The element loop stops at the first element that fails to decode, leaving the elements
decoded so far and the slot appended for the failing element. -/
theorem Serializer_vector_GetElements_fail {T : Type} (S : Serializer T) (P : T → Prop)
    (hS : S.RoundTrips P) (mem : Mem) (tail : List Nat) :
    ∀ (xs : List T) (n : Nat) (src src2 : string_view) (v : List T) (e : T),
      (∀ x ∈ xs, P x) → xs.length < n →
      src.bytes mem = (xs.map (S.PutValue [])).flatten ++ tail →
      S.GetValue mem (src.remove_prefix (xs.map (S.PutValue [])).flatten.length) S.init
        = (false, src2, e) →
      Serializer_vector.GetElements S mem n src v = (false, src2, v ++ xs ++ [e]) := by
  intro xs
  induction xs with
  | nil =>
    intro n src src2 v e _ hn _ hfail
    obtain ⟨n, rfl⟩ : ∃ k, n = k + 1 := ⟨n - 1, by simp at hn; omega⟩
    have hsrc : src.remove_prefix 0 = src := by simp [string_view.remove_prefix]
    simp only [List.map_nil, List.flatten_nil, List.length_nil, hsrc] at hfail
    simp only [Serializer_vector.GetElements]
    rw [hfail]
    simp
  | cons x xs ih =>
    intro n src src2 v e hP hn h hfail
    obtain ⟨n, rfl⟩ : ∃ k, n = k + 1 := ⟨n - 1, by simp at hn; omega⟩
    simp only [List.map_cons, List.flatten_cons, List.append_assoc] at h
    have hx := (hS x (hP x (List.mem_cons_self _ _))).2 _ mem src h
    have hrest := string_view.bytes_remove_prefix mem src _ _ h
    simp only [List.map_cons, List.flatten_cons, List.length_append,
      ← string_view.remove_prefix_add] at hfail
    simp only [Serializer_vector.GetElements]
    rw [hx]
    simp only
    rw [ih n _ src2 (v ++ [x]) e (fun y hy => hP y (List.mem_cons_of_mem _ hy))
      (by simp at hn; omega) hrest hfail]
    simp [List.append_assoc]

/-! ## Encoders only append -/

theorem PutFixed32_eq (dst : List Nat) (v : Nat) : PutFixed32 dst v = dst ++ PutFixed32 [] v := by
  simp [PutFixed32]

theorem PutFixed64_eq (dst : List Nat) (v : Nat) : PutFixed64 dst v = dst ++ PutFixed64 [] v := by
  simp [PutFixed64]

theorem PutVariant32_append (dst : List Nat) (v : Nat) :
    PutVariant32 dst v = dst ++ PutVariant32 [] v := by
  rw [PutVariant32_eq, PutVariant32_eq, List.nil_append]

theorem PutVariant64_append (dst : List Nat) (v : Nat) :
    PutVariant64 dst v = dst ++ PutVariant64 [] v := by
  rw [PutVariant64_eq, PutVariant64_eq, List.nil_append]

theorem Serializer_string_PutValue_append (dst s : List Nat) :
    Serializer_string.PutValue dst s = dst ++ Serializer_string.PutValue [] s := by
  simp only [Serializer_string.PutValue]
  rw [PutVariant32_append, List.append_assoc]

/-- The element loop of the sequence encoder appends the element encodings in order, given
that the element encoder only appends on these elements. -/
theorem Serializer_vector_PutElements_append {T : Type} (S : Serializer T) :
    ∀ (xs : List T) (dst : List Nat),
      (∀ x ∈ xs, ∀ d, S.PutValue d x = d ++ S.PutValue [] x) →
      Serializer_vector.PutElements S dst xs = dst ++ (xs.map (S.PutValue [])).flatten := by
  intro xs
  induction xs with
  | nil => intro dst _; simp [Serializer_vector.PutElements]
  | cons x xs ih =>
    intro dst h
    simp only [Serializer_vector.PutElements, List.map_cons, List.flatten_cons]
    rw [ih _ (fun y hy => h y (List.mem_cons_of_mem _ hy)), h x (List.mem_cons_self _ _) dst,
      List.append_assoc]

theorem Serializer_vector_PutValue_append {T : Type} (S : Serializer T) (xs : List T)
    (dst : List Nat) (h : ∀ x ∈ xs, ∀ d, S.PutValue d x = d ++ S.PutValue [] x) :
    Serializer_vector.PutValue S dst xs
      = dst ++ (PutVariant32 [] (xs.length % 2 ^ 32) ++ (xs.map (S.PutValue [])).flatten) := by
  simp only [Serializer_vector.PutValue]
  rw [Serializer_vector_PutElements_append S xs _ h, PutVariant32_append, List.append_assoc]

/-- The pair loop of the mapping encoder appends key and value encodings pair by pair. -/
theorem Serializer_unordered_map_PutPairs_append {K V : Type} (SK : Serializer K)
    (SV : Serializer V) :
    ∀ (m : unordered_map K V) (dst : List Nat),
      (∀ kv ∈ m, (∀ d, SK.PutValue d kv.1 = d ++ SK.PutValue [] kv.1) ∧
        ∀ d, SV.PutValue d kv.2 = d ++ SV.PutValue [] kv.2) →
      Serializer_unordered_map.PutPairs SK SV dst m
        = dst ++ (m.map (fun kv => SK.PutValue [] kv.1 ++ SV.PutValue [] kv.2)).flatten := by
  intro m
  induction m with
  | nil => intro dst _; simp [Serializer_unordered_map.PutPairs]
  | cons kv kvs ih =>
    intro dst h
    simp only [Serializer_unordered_map.PutPairs, List.map_cons, List.flatten_cons]
    obtain ⟨hk, hv⟩ := h kv (List.mem_cons_self _ _)
    rw [ih _ (fun y hy => h y (List.mem_cons_of_mem _ hy)), hv, hk dst, List.append_assoc,
      List.append_assoc, List.append_assoc]

theorem Serializer_unordered_map_PutValue_append {K V : Type} (SK : Serializer K)
    (SV : Serializer V) (m : unordered_map K V) (dst : List Nat)
    (h : ∀ kv ∈ m, (∀ d, SK.PutValue d kv.1 = d ++ SK.PutValue [] kv.1) ∧
      ∀ d, SV.PutValue d kv.2 = d ++ SV.PutValue [] kv.2) :
    Serializer_unordered_map.PutValue SK SV dst m
      = dst ++ (PutVariant32 [] (m.length % 2 ^ 32)
          ++ (m.map (fun kv => SK.PutValue [] kv.1 ++ SV.PutValue [] kv.2)).flatten) := by
  simp only [Serializer_unordered_map.PutValue]
  rw [Serializer_unordered_map_PutPairs_append SK SV m _ h, PutVariant32_append,
    List.append_assoc]

/-- The member fold of the composite encoder appends the member encodings in list order. -/
theorem Serializer_Class_PutMember_append {O : Type} (o : O) :
    ∀ (ms : List (Member O)) (dst : List Nat),
      (∀ m ∈ ms, ∀ d, m.ser.PutValue d (m.get o) = d ++ m.ser.PutValue [] (m.get o)) →
      Serializer_Class.PutMember dst o ms
        = dst ++ (ms.map (fun m => m.ser.PutValue [] (m.get o))).flatten := by
  intro ms
  induction ms with
  | nil => intro dst _; simp [Serializer_Class.PutMember]
  | cons m ms ih =>
    intro dst h
    simp only [Serializer_Class.PutMember, List.map_cons, List.flatten_cons]
    rw [ih _ (fun y hy => h y (List.mem_cons_of_mem _ hy)), h m (List.mem_cons_self _ _) dst,
      List.append_assoc]

/-- The bytes a composite encoder appends: the ancestor's encoding, if an ancestor is
designated, then the own fields in list order. -/
theorem Serializer_Class_PutValue_append {O : Type} (M : MetaClass O) (obj : O)
    (dst : List Nat)
    (ha : ∀ a, M.SuperClass = some a →
      ∀ d, a.ser.PutValue d (a.get obj) = d ++ a.ser.PutValue [] (a.get obj))
    (hm : ∀ m ∈ M.kMetaClassMember,
      ∀ d, m.ser.PutValue d (m.get obj) = d ++ m.ser.PutValue [] (m.get obj)) :
    Serializer_Class.PutValue M dst obj
      = dst ++ ((match M.SuperClass with
                | some a => a.ser.PutValue [] (a.get obj)
                | none => [])
          ++ (M.kMetaClassMember.map (fun m => m.ser.PutValue [] (m.get obj))).flatten) := by
  simp only [Serializer_Class.PutValue]
  rw [Serializer_Class_PutMember_append obj _ _ hm]
  cases hsup : M.SuperClass with
  | none => simp
  | some a => simp only; rw [ha a hsup dst, List.append_assoc]

/-! ## Mapping facts -/

theorem unordered_map.any_key_eq {K V : Type} [DecidableEq K] (m : unordered_map K V) (k : K) :
    m.any (fun e => decide (e.1 = k)) = (unordered_map.find m k).isSome := by
  induction m with
  | nil => simp [unordered_map.find]
  | cons e es ih =>
    simp only [List.any_cons, unordered_map.find]
    by_cases h : e.1 = k
    · simp [h]
    · simp [h, ih]

theorem unordered_map.find_append {K V : Type} [DecidableEq K] (m l : unordered_map K V)
    (k : K) :
    unordered_map.find (m ++ l) k
      = match unordered_map.find m k with
        | some v => some v
        | none => unordered_map.find l k := by
  induction m with
  | nil => simp [unordered_map.find]
  | cons e es ih =>
    simp only [List.cons_append, unordered_map.find]
    by_cases h : e.1 = k
    · simp [h]
    · simp [h, ih]

/-- What a key maps to after `insert`: its old value if it had one, else the inserted value
if the key is the inserted one. -/
theorem unordered_map.find_insert {K V : Type} [DecidableEq K] (m : unordered_map K V)
    (kv : K × V) (k : K) :
    unordered_map.find (m.insert kv) k
      = match unordered_map.find m k with
        | some v => some v
        | none => if kv.1 = k then some kv.2 else none := by
  simp only [unordered_map.insert]
  rw [unordered_map.any_key_eq]
  cases hkv : unordered_map.find m kv.1 with
  | some w =>
    simp only [Option.isSome_some, if_true]
    cases hk : unordered_map.find m k with
    | some v => rfl
    | none =>
      by_cases h : kv.1 = k
      · rw [h, hk] at hkv; exact absurd hkv (by simp)
      · simp [h]
  | none =>
    simp only [Option.isSome_none, Bool.false_eq_true, if_false]
    rw [unordered_map.find_append]
    simp [unordered_map.find]

/-- What a key maps to after inserting a list of pairs one by one: its old value if it had
one, else the value of its first occurrence in the list. -/
theorem unordered_map.find_foldl_insert {K V : Type} [DecidableEq K] (ps : List (K × V)) :
    ∀ (m : unordered_map K V) (k : K),
      unordered_map.find (ps.foldl unordered_map.insert m) k
        = match unordered_map.find m k with
          | some v => some v
          | none => unordered_map.find ps k := by
  induction ps with
  | nil =>
    intro m k
    simp only [List.foldl_nil]
    cases unordered_map.find m k <;> simp [unordered_map.find]
  | cons p ps ih =>
    intro m k
    simp only [List.foldl_cons]
    rw [ih, unordered_map.find_insert]
    cases unordered_map.find m k with
    | some v => rfl
    | none =>
      simp only [unordered_map.find]
      by_cases h : p.1 = k <;> simp [h]

/-- Inserting pairs with distinct keys into an empty mapping keeps all of them. -/
theorem unordered_map.foldl_insert_of_nodup {K V : Type} [DecidableEq K] (ps : List (K × V)) :
    ∀ (m : unordered_map K V), ((m ++ ps).map Prod.fst).Nodup →
      ps.foldl unordered_map.insert m = m ++ ps := by
  induction ps with
  | nil => intro m _; simp
  | cons p ps ih =>
    intro m h
    have hnot : m.any (fun e => decide (e.1 = p.1)) = false := by
      rw [List.any_eq_false]
      intro e he
      simp only [decide_eq_true_eq]
      intro heq
      rw [List.map_append, List.map_cons, List.nodup_append] at h
      exact h.2.2 (List.mem_map_of_mem Prod.fst he) (by rw [heq]; exact List.mem_cons_self _ _)
    simp only [List.foldl_cons, unordered_map.insert, hnot, Bool.false_eq_true, if_false]
    rw [ih (m ++ [p]) (by simpa [List.append_assoc] using h)]
    simp [List.append_assoc]

/-- With distinct keys, a key maps to `v` exactly when the pair is an entry. -/
theorem unordered_map.find_eq_some_iff {K V : Type} [DecidableEq K] (m : unordered_map K V)
    (h : (m.map Prod.fst).Nodup) (k : K) (v : V) :
    unordered_map.find m k = some v ↔ (k, v) ∈ m := by
  induction m with
  | nil => simp [unordered_map.find]
  | cons e es ih =>
    rw [List.map_cons, List.nodup_cons] at h
    simp only [unordered_map.find, List.mem_cons]
    by_cases hk : e.1 = k
    · simp only [hk, if_true, Option.some.injEq]
      constructor
      · intro hv; left; rw [← hk, ← hv]
      · rintro (heq | hmem)
        · rw [← heq]
        · exact absurd (List.mem_map_of_mem Prod.fst hmem) (by rw [← hk]; exact h.1)
    · simp only [hk, if_false]
      rw [ih h.2]
      constructor
      · intro hmem; right; exact hmem
      · rintro (heq | hmem)
        · exact absurd (by rw [← heq]) hk
        · exact hmem

/-- Two enumerations of the same mapping agree on every lookup. -/
theorem unordered_map.find_perm {K V : Type} [DecidableEq K] (m order : unordered_map K V)
    (h : (m.map Prod.fst).Nodup) (hperm : order.Perm m) (k : K) :
    unordered_map.find order k = unordered_map.find m k := by
  have ho : (order.map Prod.fst).Nodup := (hperm.map Prod.fst).nodup_iff.mpr h
  apply Option.ext
  intro v
  simp only [Option.mem_def]
  rw [unordered_map.find_eq_some_iff order ho, unordered_map.find_eq_some_iff m h]
  exact hperm.mem_iff

theorem unordered_map.length_foldl_insert_le {K V : Type} [DecidableEq K] (ps : List (K × V)) :
    ∀ (m : unordered_map K V),
      (ps.foldl unordered_map.insert m).length ≤ m.length + ps.length := by
  induction ps with
  | nil => intro m; simp
  | cons p ps ih =>
    intro m
    simp only [List.foldl_cons, List.length_cons]
    have h1 := ih (m.insert p)
    have h2 : (m.insert p).length ≤ m.length + 1 := by
      simp only [unordered_map.insert]
      split <;> simp
    omega

/-- The pair loop of the mapping decoder, run on the encodings of the pairs `ps`, inserts
them into the target one by one. -/
theorem Serializer_unordered_map_GetPairs_eq {K V : Type} [DecidableEq K] (SK : Serializer K)
    (SV : Serializer V) (PK : K → Prop) (PV : V → Prop) (hK : SK.RoundTrips PK)
    (hV : SV.RoundTrips PV) (mem : Mem) (rest : List Nat) :
    ∀ (ps : List (K × V)) (src : string_view) (v : unordered_map K V),
      (∀ p ∈ ps, PK p.1 ∧ PV p.2) →
      src.bytes mem
        = (ps.map (fun kv => SK.PutValue [] kv.1 ++ SV.PutValue [] kv.2)).flatten ++ rest →
      Serializer_unordered_map.GetPairs SK SV mem ps.length src v
        = (true,
            src.remove_prefix
              (ps.map (fun kv => SK.PutValue [] kv.1 ++ SV.PutValue [] kv.2)).flatten.length,
            ps.foldl unordered_map.insert v) := by
  intro ps
  induction ps with
  | nil =>
    intro src v _ _
    simp [Serializer_unordered_map.GetPairs, string_view.remove_prefix]
  | cons p ps ih =>
    intro src v hP h
    simp only [List.map_cons, List.flatten_cons, List.append_assoc] at h
    obtain ⟨hpk, hpv⟩ := hP p (List.mem_cons_self _ _)
    have hk := (hK p.1 hpk).2 _ mem src h
    have hrest1 := string_view.bytes_remove_prefix mem src _ _ h
    have hv := (hV p.2 hpv).2 _ mem _ hrest1
    have hrest2 := string_view.bytes_remove_prefix mem _ _ _ hrest1
    simp only [Serializer_unordered_map.GetPairs, List.length_cons]
    rw [hk]
    simp only
    rw [hv]
    simp only
    rw [ih _ (v.insert p) (fun y hy => hP y (List.mem_cons_of_mem _ hy)) hrest2,
      string_view.remove_prefix_add, string_view.remove_prefix_add]
    simp [List.foldl_cons, Nat.add_assoc]

/-- Decoding a view that starts with a count and the encodings of that many pairs. -/
theorem Serializer_unordered_map_GetValue_eq {K V : Type} [DecidableEq K] (SK : Serializer K)
    (SV : Serializer V) (PK : K → Prop) (PV : V → Prop) (hK : SK.RoundTrips PK)
    (hV : SV.RoundTrips PV) (ps : List (K × V)) (hlen : ps.length < 2 ^ 32)
    (hP : ∀ p ∈ ps, PK p.1 ∧ PV p.2) (rest : List Nat) (mem : Mem) (src : string_view)
    (v : unordered_map K V)
    (h : src.bytes mem
      = (varintBytes ps.length
          ++ (ps.map (fun kv => SK.PutValue [] kv.1 ++ SV.PutValue [] kv.2)).flatten) ++ rest) :
    Serializer_unordered_map.GetValue SK SV mem src v
      = (true,
          src.remove_prefix (varintBytes ps.length
            ++ (ps.map (fun kv => SK.PutValue [] kv.1 ++ SV.PutValue [] kv.2)).flatten).length,
          ps.foldl unordered_map.insert v) := by
  rw [List.append_assoc] at h
  have hvar := GetVariant32_varintBytes ps.length _ mem src 0 hlen h
  have hrest := string_view.bytes_remove_prefix mem src _ _ h
  simp only [Serializer_unordered_map.GetValue]
  rw [hvar]
  simp only
  rw [Serializer_unordered_map_GetPairs_eq SK SV PK PV hK hV mem rest ps _ v hP hrest,
    string_view.remove_prefix_add, List.length_append]

theorem Serializer_uint32_t_roundTrips :
    Serializer_uint32_t.serializer.RoundTrips (fun v => v < 2 ^ 32) := by
  intro v hv
  simp only [Serializer_uint32_t.serializer, Serializer_uint32_t.PutValue,
    Serializer_uint32_t.GetValue]
  refine ⟨fun dst => PutVariant32_append dst v, fun rest mem src h => ?_⟩
  rw [PutVariant32_eq, List.nil_append] at h ⊢
  exact GetVariant32_varintBytes v rest mem src 0 hv h

/-! ## Composite types -/

/-- The composite encoder is the member fold over the ancestor followed by the own fields. -/
theorem Serializer_Class_PutValue_eq_PutMember {O : Type} (M : MetaClass O) (dst : List Nat)
    (obj : O) :
    Serializer_Class.PutValue M dst obj = Serializer_Class.PutMember dst obj M.all := by
  simp only [Serializer_Class.PutValue, MetaClass.all]
  cases M.SuperClass with
  | none => rfl
  | some a => rfl

/-- The composite decoder is the member fold over the ancestor followed by the own fields. -/
theorem Serializer_Class_GetValue_eq_GetMember {O : Type} (M : MetaClass O) (mem : Mem)
    (src : string_view) (obj : O) :
    Serializer_Class.GetValue M mem src obj = Serializer_Class.GetMember mem M.all src obj := by
  cases hsup : M.SuperClass with
  | none => simp [Serializer_Class.GetValue, MetaClass.all, hsup]
  | some a =>
    rcases hg : a.ser.GetValue mem src (a.get obj) with ⟨b, src2, x⟩
    cases b <;>
      simp [Serializer_Class.GetValue, MetaClass.all, hsup, Serializer_Class.GetMember, hg]

/-- The member fold over a concatenation: the second list is decoded only when the first
one succeeded, from where it stopped. -/
theorem Serializer_Class_GetMember_append {O : Type} (mem : Mem) :
    ∀ (pre post : List (Member O)) (src : string_view) (o : O),
      Serializer_Class.GetMember mem (pre ++ post) src o
        = match Serializer_Class.GetMember mem pre src o with
          | (true, src1, o1) => Serializer_Class.GetMember mem post src1 o1
          | (false, src1, o1) => (false, src1, o1) := by
  intro pre
  induction pre with
  | nil => intro post src o; rfl
  | cons m ms ih =>
    intro post src o
    simp only [List.cons_append, Serializer_Class.GetMember]
    rcases m.ser.GetValue mem src (m.get o) with ⟨b, src2, x⟩
    cases b
    · rfl
    · exact ih post src2 (m.set o x)

/-- Whatever the member fold does, an observation that no listed member's write can change
is the same before and after. -/
theorem Serializer_Class_GetMember_frame {O : Type} (mem : Mem) {α : Type} (g : O → α) :
    ∀ (ms : List (Member O)) (src : string_view) (o : O),
      (∀ m ∈ ms, ∀ (o : O) (x : m.F), g (m.set o x) = g o) →
      g (Serializer_Class.GetMember mem ms src o).2.2 = g o := by
  intro ms
  induction ms with
  | nil => intro src o _; rfl
  | cons m ms ih =>
    intro src o h
    simp only [Serializer_Class.GetMember]
    rcases m.ser.GetValue mem src (m.get o) with ⟨b, src2, x⟩
    cases b
    · exact h m (List.mem_cons_self _ _) o x
    · simp only
      rw [ih src2 (m.set o x) (fun m' hm' => h m' (List.mem_cons_of_mem _ hm'))]
      exact h m (List.mem_cons_self _ _) o x

/-- The member fold, run on the encodings of the members of `obj`, restores every listed
member to its value in `obj` and consumes exactly these encodings. -/
theorem Serializer_Class_GetMember_eq {O : Type} (mem : Mem) (obj : O) (rest : List Nat) :
    ∀ (ms : List (Member O)) (src : string_view) (o : O),
      ms.Pairwise Member.Independent →
      (∀ m ∈ ms, m.Lawful) →
      (∀ m ∈ ms, m.ser.RoundTripsInto (m.get obj) (m.get o)) →
      src.bytes mem = (ms.map (fun m => m.ser.PutValue [] (m.get obj))).flatten ++ rest →
      (Serializer_Class.GetMember mem ms src o).1 = true ∧
      (Serializer_Class.GetMember mem ms src o).2.1
        = src.remove_prefix (ms.map (fun m => m.ser.PutValue [] (m.get obj))).flatten.length ∧
      ∀ m ∈ ms, m.get (Serializer_Class.GetMember mem ms src o).2.2 = m.get obj := by
  intro ms
  induction ms with
  | nil =>
    intro src o _ _ _ _
    simp [Serializer_Class.GetMember, string_view.remove_prefix]
  | cons m ms ih =>
    intro src o hind hlaw hrt h
    rw [List.pairwise_cons] at hind
    simp only [List.map_cons, List.flatten_cons, List.append_assoc] at h
    have hm := (hrt m (List.mem_cons_self _ _)).2 _ mem src h
    have hrest := string_view.bytes_remove_prefix mem src _ _ h
    have hrt2 : ∀ m' ∈ ms,
        m'.ser.RoundTripsInto (m'.get obj) (m'.get (m.set o (m.get obj))) := by
      intro m' hm'
      rw [(hind.1 m' hm').1 o (m.get obj)]
      exact hrt m' (List.mem_cons_of_mem _ hm')
    obtain ⟨h1, h2, h3⟩ := ih _ (m.set o (m.get obj)) hind.2
      (fun m' hm' => hlaw m' (List.mem_cons_of_mem _ hm')) hrt2 hrest
    have hframe := Serializer_Class_GetMember_frame mem m.get ms
      (src.remove_prefix (m.ser.PutValue [] (m.get obj)).length) (m.set o (m.get obj))
      (fun m' hm' o x => (hind.1 m' hm').2 o x)
    simp only [Serializer_Class.GetMember]
    rw [hm]
    simp only
    refine ⟨h1, ?_, ?_⟩
    · rw [h2, string_view.remove_prefix_add]
      simp [List.length_append]
    · intro m' hm'
      rcases List.mem_cons.mp hm' with rfl | hmem
      · rw [hframe]
        exact hlaw _ (List.mem_cons_self _ _) o _
      · exact h3 m' hmem

theorem Serializer_uint32_t_roundTripsInto (v out : Nat) (hv : v < 2 ^ 32) :
    Serializer_uint32_t.serializer.RoundTripsInto v out := by
  simp only [Serializer.RoundTripsInto, Serializer_uint32_t.serializer,
    Serializer_uint32_t.PutValue, Serializer_uint32_t.GetValue]
  refine ⟨fun dst => PutVariant32_append dst v, fun rest mem src h => ?_⟩
  rw [PutVariant32_eq, List.nil_append] at h ⊢
  exact GetVariant32_varintBytes v rest mem src out hv h

theorem Serializer_string_roundTripsInto (s out : List Nat) (hs : s.length < 2 ^ 32) :
    Serializer_string.serializer.RoundTripsInto s out := by
  simp only [Serializer.RoundTripsInto, Serializer_string.serializer]
  refine ⟨fun dst => Serializer_string_PutValue_append dst s, fun rest mem src h => ?_⟩
  rw [Serializer_string_PutValue_eq [] s hs, List.nil_append] at h ⊢
  exact Serializer_string_GetValue_eq s rest mem src out hs h

/-- Decoding a composite without ancestor from the encodings of its fields. -/
theorem Serializer_Class_GetValue_root {O : Type} (M : MetaClass O)
    (hsup : M.SuperClass = none) (hM : M.Lawful) (mem : Mem) (obj target : O)
    (rest : List Nat) (src : string_view)
    (hrt : ∀ m ∈ M.kMetaClassMember, m.ser.RoundTripsInto (m.get obj) (m.get target))
    (h : src.bytes mem
      = (M.kMetaClassMember.map (fun m => m.ser.PutValue [] (m.get obj))).flatten ++ rest) :
    (Serializer_Class.GetValue M mem src target).1 = true ∧
    (Serializer_Class.GetValue M mem src target).2.1
      = src.remove_prefix
          (M.kMetaClassMember.map (fun m => m.ser.PutValue [] (m.get obj))).flatten.length ∧
    ∀ m ∈ M.kMetaClassMember,
      m.get (Serializer_Class.GetValue M mem src target).2.2 = m.get obj := by
  have hall : M.all = M.kMetaClassMember := by simp [MetaClass.all, hsup]
  rw [Serializer_Class_GetValue_eq_GetMember, hall]
  obtain ⟨hlaw, hind⟩ := hM
  rw [hall] at hlaw hind
  exact Serializer_Class_GetMember_eq mem obj rest _ src target hind hlaw hrt h

/-- Decoding a composite with an ancestor: when the ancestor's decoder, on the ancestor's
encoding, succeeds, consumes it and leaves a subobject satisfying `R`, the composite decoder
succeeds, consumes ancestor and field encodings, leaves an ancestor subobject satisfying `R`
and restores the own fields. -/
theorem Serializer_Class_GetValue_derived {O B : Type} (M : MetaClass O) (up : O → B)
    (put : O → B → O) (ser : Serializer B)
    (hsup : M.SuperClass = some { F := B, get := up, set := put, ser := ser })
    (hM : M.Lawful) (R : B → Prop) (mem : Mem) (obj target : O) (rest : List Nat)
    (src : string_view)
    (hanc : ∀ (rest2 : List Nat) (src2 : string_view),
      src2.bytes mem = ser.PutValue [] (up obj) ++ rest2 →
      (ser.GetValue mem src2 (up target)).1 = true ∧
      (ser.GetValue mem src2 (up target)).2.1
        = src2.remove_prefix (ser.PutValue [] (up obj)).length ∧
      R (ser.GetValue mem src2 (up target)).2.2)
    (hrt : ∀ m ∈ M.kMetaClassMember, m.ser.RoundTripsInto (m.get obj) (m.get target))
    (h : src.bytes mem
      = (ser.PutValue [] (up obj)
          ++ (M.kMetaClassMember.map (fun m => m.ser.PutValue [] (m.get obj))).flatten)
        ++ rest) :
    (Serializer_Class.GetValue M mem src target).1 = true ∧
    (Serializer_Class.GetValue M mem src target).2.1
      = src.remove_prefix (ser.PutValue [] (up obj)
          ++ (M.kMetaClassMember.map (fun m => m.ser.PutValue [] (m.get obj))).flatten).length ∧
    R (up (Serializer_Class.GetValue M mem src target).2.2) ∧
    ∀ m ∈ M.kMetaClassMember,
      m.get (Serializer_Class.GetValue M mem src target).2.2 = m.get obj := by
  have hall : M.all = { F := B, get := up, set := put, ser := ser } :: M.kMetaClassMember := by
    simp [MetaClass.all, hsup]
  obtain ⟨hlaw, hind⟩ := hM
  rw [hall] at hlaw hind
  rw [List.pairwise_cons] at hind
  rw [List.append_assoc] at h
  obtain ⟨ha1, ha2, ha3⟩ := hanc _ src h
  have hrest := string_view.bytes_remove_prefix mem src _ _ h
  rcases hg : ser.GetValue mem src (up target) with ⟨b, src1, x⟩
  rw [hg] at ha1 ha2 ha3
  simp only at ha1 ha2 ha3
  subst ha1 ha2
  have hrt2 : ∀ m ∈ M.kMetaClassMember,
      m.ser.RoundTripsInto (m.get obj) (m.get (put target x)) := by
    intro m hm
    have := (hind.1 m hm).1 target x
    simp only at this
    rw [this]
    exact hrt m hm
  obtain ⟨h1, h2, h3⟩ := Serializer_Class_GetMember_eq mem obj rest M.kMetaClassMember _
    (put target x) hind.2 (fun m hm => hlaw m (List.mem_cons_of_mem _ hm)) hrt2 hrest
  have hframe := Serializer_Class_GetMember_frame mem up M.kMetaClassMember
    (src.remove_prefix (ser.PutValue [] (up obj)).length) (put target x)
    (fun m hm o y => (hind.1 m hm).2 o y)
  have hup : up (put target x) = x := hlaw _ (List.mem_cons_self _ _) target x
  rw [Serializer_Class_GetValue_eq_GetMember, hall]
  simp only [Serializer_Class.GetMember]
  rw [hg]
  simp only
  refine ⟨h1, ?_, ?_, h3⟩
  · rw [h2, string_view.remove_prefix_add, List.length_append]
  · rw [hframe, hup]
    exact ha3

theorem Root_metaClass_lawful : Root.metaClass.Lawful := by
  simp [MetaClass.Lawful, MetaClass.all, Root.metaClass, Root.members, Member.Lawful]

theorem Middle_metaClass_lawful : Middle.metaClass.Lawful := by
  simp [MetaClass.Lawful, MetaClass.all, Middle.metaClass, Middle.super, Middle.members,
    Member.Lawful, Member.Independent]

theorem Leaf_metaClass_lawful : Leaf.metaClass.Lawful := by
  simp [MetaClass.Lawful, MetaClass.all, Leaf.metaClass, Leaf.super, Leaf.members,
    Member.Lawful, Member.Independent]

/-! ## Decoders stay inside the view -/

/-- A successful `GetVariant32` leaves a proper suffix of the view. -/
theorem GetVariant32_within (mem : Mem) (src : string_view) (out : Nat)
    (h : (GetVariant32 mem src out).1 = true) :
    (GetVariant32 mem src out).2.1.Within src ∧
      src.data < (GetVariant32 mem src out).2.1.data := by
  simp only [GetVariant32] at h ⊢
  cases hq : GetVariant32Ptr mem src.data (src.data + src.size) with
  | none => rw [hq] at h; simp at h
  | some r =>
    obtain ⟨q, val⟩ := r
    obtain ⟨h1, h2⟩ := GetVariant32Ptr_bounds mem _ _ q val hq
    simp only [string_view.Within]
    omega

theorem Serializer_uint32_t_local : Serializer_uint32_t.serializer.Local := by
  intro mem src v
  exact ⟨fun h => (GetVariant32_within mem src v h).1,
    fun mem2 h => GetVariant32_congr mem mem2 src v h⟩

theorem Serializer_uint32_t_consumes : Serializer_uint32_t.serializer.Consumes := by
  intro mem src v h
  exact (GetVariant32_within mem src v h).2

theorem Serializer_string_local : Serializer_string.serializer.Local := by
  intro mem src v
  refine ⟨?_, fun mem2 h => Serializer_string_GetValue_congr mem mem2 src v h⟩
  simp only [Serializer_string.serializer, Serializer_string.GetValue, GetVariant32]
  cases hq : GetVariant32Ptr mem src.data (src.data + src.size) with
  | none => simp
  | some r =>
    obtain ⟨q, len⟩ := r
    obtain ⟨h1, h2⟩ := GetVariant32Ptr_bounds mem _ _ q len hq
    simp only
    by_cases hlen : src.data + src.size - q ≥ len
    · rw [if_pos hlen]
      intro _
      simp only [string_view.Within, string_view.remove_prefix]
      omega
    · rw [if_neg hlen]
      simp

theorem Serializer_string_consumes : Serializer_string.serializer.Consumes := by
  intro mem src v
  simp only [Serializer_string.serializer, Serializer_string.GetValue, GetVariant32]
  cases hq : GetVariant32Ptr mem src.data (src.data + src.size) with
  | none => simp
  | some r =>
    obtain ⟨q, len⟩ := r
    obtain ⟨h1, h2⟩ := GetVariant32Ptr_bounds mem _ _ q len hq
    simp only
    by_cases hlen : src.data + src.size - q ≥ len
    · rw [if_pos hlen]
      intro _
      simp only [string_view.remove_prefix]
      omega
    · rw [if_neg hlen]
      simp

/-- The element loop fails when it has to decode more elements than bytes remain, each
successful element decode consuming at least one byte. -/
theorem Serializer_vector_GetElements_truncated {T : Type} (S : Serializer T)
    (hL : S.Local) (hC : S.Consumes) (mem : Mem) :
    ∀ (n : Nat) (src : string_view) (v : List T), src.size < n →
      (Serializer_vector.GetElements S mem n src v).1 = false := by
  intro n
  induction n with
  | zero => intro src v h; omega
  | succ n ih =>
    intro src v h
    simp only [Serializer_vector.GetElements]
    have hw := (hL mem src S.init).1
    have hc := hC mem src S.init
    rcases hg : S.GetValue mem src S.init with ⟨b, src2, e⟩
    rw [hg] at hw hc
    cases b
    · rfl
    · simp only
      have hw2 := hw rfl
      have hc2 := hc rfl
      simp only [string_view.Within] at hw2 hc2
      exact ih src2 (v ++ [e]) (by omega)

/-- The element loop depends on no byte outside the view. -/
theorem Serializer_vector_GetElements_congr {T : Type} (S : Serializer T) (hL : S.Local)
    (mem mem2 : Mem) :
    ∀ (n : Nat) (src : string_view) (v : List T),
      (∀ a, src.data ≤ a → a < src.data + src.size → mem2 a = mem a) →
      Serializer_vector.GetElements S mem2 n src v
        = Serializer_vector.GetElements S mem n src v := by
  intro n
  induction n with
  | zero => intro src v _; rfl
  | succ n ih =>
    intro src v h
    simp only [Serializer_vector.GetElements]
    rw [(hL mem src S.init).2 mem2 h]
    have hw := (hL mem src S.init).1
    rcases hg : S.GetValue mem src S.init with ⟨b, src2, e⟩
    rw [hg] at hw
    cases b
    · rfl
    · simp only
      have hw2 := hw rfl
      simp only [string_view.Within] at hw2
      exact ih src2 (v ++ [e]) (fun a h1 h2 => h a (by omega) (by omega))

/-- The sequence decoder depends on no byte outside the view. -/
theorem Serializer_vector_GetValue_congr {T : Type} (S : Serializer T) (hL : S.Local)
    (mem mem2 : Mem) (src : string_view) (v : List T)
    (h : ∀ a, src.data ≤ a → a < src.data + src.size → mem2 a = mem a) :
    Serializer_vector.GetValue S mem2 src v = Serializer_vector.GetValue S mem src v := by
  simp only [Serializer_vector.GetValue]
  rw [GetVariant32_congr mem mem2 src 0 h]
  have hw := GetVariant32_within mem src 0
  rcases hg : GetVariant32 mem src 0 with ⟨b, src1, n⟩
  rw [hg] at hw
  cases b
  · rfl
  · simp only
    have hw2 := (hw rfl).1
    simp only [string_view.Within] at hw2
    exact Serializer_vector_GetElements_congr S hL mem mem2 n src1 v
      (fun a h1 h2 => h a (by omega) (by omega))

/-- The pair loop fails when it has to decode more pairs than bytes remain, each successful
pair decode consuming at least one byte. -/
theorem Serializer_unordered_map_GetPairs_truncated {K V : Type} [DecidableEq K]
    (SK : Serializer K) (SV : Serializer V) (hLK : SK.Local) (hLV : SV.Local)
    (hC : SK.Consumes ∨ SV.Consumes) (mem : Mem) :
    ∀ (n : Nat) (src : string_view) (v : unordered_map K V), src.size < n →
      (Serializer_unordered_map.GetPairs SK SV mem n src v).1 = false := by
  intro n
  induction n with
  | zero => intro src v h; omega
  | succ n ih =>
    intro src v h
    simp only [Serializer_unordered_map.GetPairs]
    have hwk := (hLK mem src SK.init).1
    have hck : SK.Consumes → _ := fun hc => hc mem src SK.init
    rcases hg : SK.GetValue mem src SK.init with ⟨b, src2, k⟩
    rw [hg] at hwk hck
    cases b
    · rfl
    · simp only
      have hwv := (hLV mem src2 SV.init).1
      have hcv : SV.Consumes → _ := fun hc => hc mem src2 SV.init
      rcases hg2 : SV.GetValue mem src2 SV.init with ⟨b2, src3, x⟩
      rw [hg2] at hwv hcv
      cases b2
      · rfl
      · simp only
        have hk2 := hwk rfl
        have hv2 := hwv rfl
        simp only [string_view.Within] at hk2 hv2
        apply ih src3 (v.insert (k, x))
        rcases hC with hc | hc
        · have := hck hc rfl
          simp only at this
          omega
        · have := hcv hc rfl
          simp only at this
          omega

/-- The pair loop depends on no byte outside the view. -/
theorem Serializer_unordered_map_GetPairs_congr {K V : Type} [DecidableEq K]
    (SK : Serializer K) (SV : Serializer V) (hLK : SK.Local) (hLV : SV.Local)
    (mem mem2 : Mem) :
    ∀ (n : Nat) (src : string_view) (v : unordered_map K V),
      (∀ a, src.data ≤ a → a < src.data + src.size → mem2 a = mem a) →
      Serializer_unordered_map.GetPairs SK SV mem2 n src v
        = Serializer_unordered_map.GetPairs SK SV mem n src v := by
  intro n
  induction n with
  | zero => intro src v _; rfl
  | succ n ih =>
    intro src v h
    simp only [Serializer_unordered_map.GetPairs]
    rw [(hLK mem src SK.init).2 mem2 h]
    have hwk := (hLK mem src SK.init).1
    rcases hg : SK.GetValue mem src SK.init with ⟨b, src2, k⟩
    rw [hg] at hwk
    cases b
    · rfl
    · simp only
      have hk2 := hwk rfl
      simp only [string_view.Within] at hk2
      rw [(hLV mem src2 SV.init).2 mem2 (fun a h1 h2 => h a (by omega) (by omega))]
      have hwv := (hLV mem src2 SV.init).1
      rcases hg2 : SV.GetValue mem src2 SV.init with ⟨b2, src3, x⟩
      rw [hg2] at hwv
      cases b2
      · rfl
      · simp only
        have hv2 := hwv rfl
        simp only [string_view.Within] at hv2
        exact ih src3 (v.insert (k, x)) (fun a h1 h2 => h a (by omega) (by omega))

/-- The mapping decoder depends on no byte outside the view. -/
theorem Serializer_unordered_map_GetValue_congr {K V : Type} [DecidableEq K]
    (SK : Serializer K) (SV : Serializer V) (hLK : SK.Local) (hLV : SV.Local)
    (mem mem2 : Mem) (src : string_view) (v : unordered_map K V)
    (h : ∀ a, src.data ≤ a → a < src.data + src.size → mem2 a = mem a) :
    Serializer_unordered_map.GetValue SK SV mem2 src v
      = Serializer_unordered_map.GetValue SK SV mem src v := by
  simp only [Serializer_unordered_map.GetValue]
  rw [GetVariant32_congr mem mem2 src 0 h]
  have hw := GetVariant32_within mem src 0
  rcases hg : GetVariant32 mem src 0 with ⟨b, src1, n⟩
  rw [hg] at hw
  cases b
  · rfl
  · simp only
    have hw2 := (hw rfl).1
    simp only [string_view.Within] at hw2
    exact Serializer_unordered_map_GetPairs_congr SK SV hLK hLV mem mem2 n src1 v
      (fun a h1 h2 => h a (by omega) (by omega))

/-- A sequence of elements whose decoder stays inside the view has such a decoder. -/
theorem Serializer_vector_local {T : Type} (S : Serializer T) (hL : S.Local) :
    (Serializer_vector.serializer S).Local := by
  intro mem src v
  refine ⟨?_, fun mem2 h => Serializer_vector_GetValue_congr S hL mem mem2 src v h⟩
  simp only [Serializer_vector.serializer, Serializer_vector.GetValue]
  have hw := GetVariant32_within mem src 0
  rcases hg : GetVariant32 mem src 0 with ⟨b, src1, n⟩
  rw [hg] at hw
  cases b
  · simp
  · simp only
    have hw1 := (hw rfl).1
    have key : ∀ (n : Nat) (s : string_view) (w : List T),
        (Serializer_vector.GetElements S mem n s w).1 = true →
        (Serializer_vector.GetElements S mem n s w).2.1.Within s := by
      intro n
      induction n with
      | zero => intro s w _; simp [Serializer_vector.GetElements, string_view.Within]
      | succ n ih =>
        intro s w
        simp only [Serializer_vector.GetElements]
        have hws := (hL mem s S.init).1
        rcases hge : S.GetValue mem s S.init with ⟨b2, s2, e⟩
        rw [hge] at hws
        cases b2
        · simp
        · simp only
          intro hok
          have h1 := ih s2 (w ++ [e]) hok
          have h2 := hws rfl
          simp only [string_view.Within] at h1 h2 ⊢
          omega
    intro hok
    have h1 := key n src1 v hok
    simp only [string_view.Within] at h1 hw1 ⊢
    omega

/-- A successful sequence decode consumes at least the count prefix. -/
theorem Serializer_vector_consumes {T : Type} (S : Serializer T) (hL : S.Local) :
    (Serializer_vector.serializer S).Consumes := by
  intro mem src v h
  simp only [Serializer_vector.serializer, Serializer_vector.GetValue] at h ⊢
  have hw := GetVariant32_within mem src 0
  rcases hg : GetVariant32 mem src 0 with ⟨b, src1, n⟩
  rw [hg] at hw h
  cases b
  · simp at h
  · simp only at h ⊢
    have hw1 := hw rfl
    have key : ∀ (n : Nat) (s : string_view) (w : List T),
        (Serializer_vector.GetElements S mem n s w).1 = true →
        s.data ≤ (Serializer_vector.GetElements S mem n s w).2.1.data := by
      intro n
      induction n with
      | zero => intro s w _; simp [Serializer_vector.GetElements]
      | succ n ih =>
        intro s w
        simp only [Serializer_vector.GetElements]
        have hws := (hL mem s S.init).1
        rcases hge : S.GetValue mem s S.init with ⟨b2, s2, e⟩
        rw [hge] at hws
        cases b2
        · simp
        · simp only
          intro hok
          have h1 := ih s2 (w ++ [e]) hok
          have h2 := hws rfl
          simp only [string_view.Within] at h2
          omega
    have hk := key n src1 v h
    have hw2 := hw1.2
    simp only at hw2
    omega

/-- A successful `GetVariant64` leaves a proper suffix of the view. -/
theorem GetVariant64_within (mem : Mem) (src : string_view) (out : Nat)
    (h : (GetVariant64 mem src out).1 = true) :
    (GetVariant64 mem src out).2.1.Within src ∧
      src.data < (GetVariant64 mem src out).2.1.data := by
  simp only [GetVariant64] at h ⊢
  cases hq : GetVariant64Ptr mem src.data (src.data + src.size) with
  | none => rw [hq] at h; simp at h
  | some r =>
    obtain ⟨q, val⟩ := r
    rw [GetVariant64Ptr_eq_loop] at hq
    obtain ⟨h1, h2⟩ := GetVariantLoop_bounds 64 mem _ 10 0 _ 0 q val hq
    simp only [string_view.Within]
    omega

/-- A successful `GetByte` leaves a proper suffix of the view. -/
theorem GetByte_within (mem : Mem) (src : string_view) (out : Nat)
    (h : (GetByte mem src out).1 = true) :
    (GetByte mem src out).2.1.Within src ∧ src.data < (GetByte mem src out).2.1.data := by
  simp only [GetByte] at h ⊢
  by_cases hs : src.size = 0
  · rw [if_pos hs] at h; simp at h
  · rw [if_neg hs]
    simp only [string_view.Within, string_view.remove_prefix]
    omega

/-- The outcome of `GetByte` depends on no byte outside the view. -/
theorem GetByte_congr (mem mem2 : Mem) (src : string_view) (out : Nat)
    (h : ∀ a, src.data ≤ a → a < src.data + src.size → mem2 a = mem a) :
    GetByte mem2 src out = GetByte mem src out := by
  simp only [GetByte]
  by_cases hs : src.size = 0
  · rw [if_pos hs, if_pos hs]
  · rw [if_neg hs, if_neg hs, h src.data (le_refl _) (by omega)]

/-- The value `DecodeFixed32` depends on the four bytes at `ptr` only. -/
theorem DecodeFixed32_congr (le : Bool) (mem mem2 : Mem) (ptr : Nat)
    (h : ∀ a, ptr ≤ a → a < ptr + 4 → mem2 a = mem a) :
    DecodeFixed32 le mem2 ptr = DecodeFixed32 le mem ptr := by
  rw [DecodeFixed32_eq_load, DecodeFixed32_eq_load]
  simp only [loadLittleEndian]
  rw [h ptr (by omega) (by omega), h (ptr + 1) (by omega) (by omega),
    h (ptr + 1 + 1) (by omega) (by omega), h (ptr + 1 + 1 + 1) (by omega) (by omega)]

/-- The value `DecodeFixed64` depends on the eight bytes at `ptr` only. -/
theorem DecodeFixed64_congr (le : Bool) (mem mem2 : Mem) (ptr : Nat)
    (h : ∀ a, ptr ≤ a → a < ptr + 8 → mem2 a = mem a) :
    DecodeFixed64 le mem2 ptr = DecodeFixed64 le mem ptr := by
  rw [DecodeFixed64_eq_load, DecodeFixed64_eq_load]
  simp only [loadLittleEndian]
  rw [h ptr (by omega) (by omega), h (ptr + 1) (by omega) (by omega),
    h (ptr + 1 + 1) (by omega) (by omega), h (ptr + 1 + 1 + 1) (by omega) (by omega),
    h (ptr + 1 + 1 + 1 + 1) (by omega) (by omega),
    h (ptr + 1 + 1 + 1 + 1 + 1) (by omega) (by omega),
    h (ptr + 1 + 1 + 1 + 1 + 1 + 1) (by omega) (by omega),
    h (ptr + 1 + 1 + 1 + 1 + 1 + 1 + 1) (by omega) (by omega)]

theorem Serializer_uint64_t_local : Serializer_uint64_t.serializer.Local := by
  intro mem src v
  exact ⟨fun h => (GetVariant64_within mem src v h).1,
    fun mem2 h => GetVariant64_congr mem mem2 src v h⟩

theorem Serializer_uint64_t_consumes : Serializer_uint64_t.serializer.Consumes := by
  intro mem src v h
  exact (GetVariant64_within mem src v h).2

theorem Serializer_int64_t_local : Serializer_int64_t.serializer.Local := by
  intro mem src v
  refine ⟨fun h => (GetVariant64_within mem src (toUnsigned 64 v) h).1, fun mem2 h => ?_⟩
  simp only [Serializer_int64_t.serializer, Serializer_int64_t.GetValue]
  rw [GetVariant64_congr mem mem2 src _ h]

theorem Serializer_int64_t_consumes : Serializer_int64_t.serializer.Consumes := by
  intro mem src v h
  exact (GetVariant64_within mem src (toUnsigned 64 v) h).2

theorem Serializer_int_local : Serializer_int.serializer.Local := by
  intro mem src v
  refine ⟨fun h => (GetVariant32_within mem src (toUnsigned 32 v) h).1, fun mem2 h => ?_⟩
  simp only [Serializer_int.serializer, Serializer_int.GetValue]
  rw [GetVariant32_congr mem mem2 src _ h]

theorem Serializer_int_consumes : Serializer_int.serializer.Consumes := by
  intro mem src v h
  exact (GetVariant32_within mem src (toUnsigned 32 v) h).2

/-- A decoder that reads a varint32 and converts the value stays inside the view and
consumes at least one byte. -/
theorem narrowing_local_consumes {T : Type} (S : Serializer T) (conv : Nat → T)
    (hS : ∀ mem src v, S.GetValue mem src v =
      match GetVariant32 mem src 0 with
      | (true, src, u) => (true, src, conv u)
      | (false, src, _) => (false, src, v)) :
    S.Local ∧ S.Consumes := by
  constructor
  · intro mem src v
    refine ⟨?_, fun mem2 h => ?_⟩
    · rw [hS]
      have hw := GetVariant32_within mem src 0
      rcases hg : GetVariant32 mem src 0 with ⟨b, s, u⟩
      rw [hg] at hw
      cases b
      · simp
      · intro _; exact (hw rfl).1
    · rw [hS, hS, GetVariant32_congr mem mem2 src 0 h]
  · intro mem src v
    rw [hS]
    have hw := GetVariant32_within mem src 0
    rcases hg : GetVariant32 mem src 0 with ⟨b, s, u⟩
    rw [hg] at hw
    cases b
    · simp
    · intro _; exact (hw rfl).2

theorem Serializer_int16_t_local_consumes :
    Serializer_int16_t.serializer.Local ∧ Serializer_int16_t.serializer.Consumes :=
  narrowing_local_consumes _ (toSigned 16) (fun _ _ _ => rfl)

theorem Serializer_uint16_t_local_consumes :
    Serializer_uint16_t.serializer.Local ∧ Serializer_uint16_t.serializer.Consumes :=
  narrowing_local_consumes _ (fun u => u % 2 ^ 16) (fun _ _ _ => rfl)

theorem Serializer_Enum_local_consumes {T : Type} (toUInt32 : T → Nat) (ofUInt32 : Nat → T) :
    (Serializer_Enum.serializer toUInt32 ofUInt32).Local ∧
      (Serializer_Enum.serializer toUInt32 ofUInt32).Consumes :=
  narrowing_local_consumes _ ofUInt32 (fun _ _ _ => rfl)

theorem Serializer_char_local_consumes :
    Serializer_char.serializer.Local ∧ Serializer_char.serializer.Consumes :=
  ⟨fun mem src v => ⟨fun h => (GetByte_within mem src v h).1,
      fun mem2 h => GetByte_congr mem mem2 src v h⟩,
    fun mem src v h => (GetByte_within mem src v h).2⟩

theorem Serializer_uint8_t_local_consumes :
    Serializer_uint8_t.serializer.Local ∧ Serializer_uint8_t.serializer.Consumes :=
  ⟨fun mem src v => ⟨fun h => (GetByte_within mem src v h).1,
      fun mem2 h => GetByte_congr mem mem2 src v h⟩,
    fun mem src v h => (GetByte_within mem src v h).2⟩

theorem Serializer_int8_t_local_consumes :
    Serializer_int8_t.serializer.Local ∧ Serializer_int8_t.serializer.Consumes := by
  refine ⟨fun mem src v => ⟨fun h => (GetByte_within mem src (toUnsigned 8 v) h).1,
      fun mem2 h => ?_⟩,
    fun mem src v h => (GetByte_within mem src (toUnsigned 8 v) h).2⟩
  simp only [Serializer_int8_t.serializer, Serializer_int8_t.GetValue]
  rw [GetByte_congr mem mem2 src _ h]

theorem Serializer_float_local_consumes :
    Serializer_float.serializer.Local ∧ Serializer_float.serializer.Consumes := by
  constructor
  · intro mem src v
    simp only [Serializer_float.serializer, Serializer_float.GetValue, GetFixed32]
    by_cases hs : src.size < 4
    · simp [hs]
    · simp only [if_neg hs]
      refine ⟨fun _ => ?_, fun mem2 h => ?_⟩
      · simp only [string_view.Within, string_view.remove_prefix]; omega
      · rw [DecodeFixed32_congr _ mem mem2 src.data (fun a h1 h2 => h a h1 (by omega))]
  · intro mem src v
    simp only [Serializer_float.serializer, Serializer_float.GetValue, GetFixed32]
    by_cases hs : src.size < 4
    · simp [hs]
    · simp only [if_neg hs, string_view.remove_prefix]
      intro _; omega

theorem Serializer_double_local_consumes :
    Serializer_double.serializer.Local ∧ Serializer_double.serializer.Consumes := by
  constructor
  · intro mem src v
    simp only [Serializer_double.serializer, Serializer_double.GetValue, GetFixed64]
    by_cases hs : src.size < 8
    · simp [hs]
    · simp only [if_neg hs]
      refine ⟨fun _ => ?_, fun mem2 h => ?_⟩
      · simp only [string_view.Within, string_view.remove_prefix]; omega
      · rw [DecodeFixed64_congr _ mem mem2 src.data (fun a h1 h2 => h a h1 (by omega))]
  · intro mem src v
    simp only [Serializer_double.serializer, Serializer_double.GetValue, GetFixed64]
    by_cases hs : src.size < 8
    · simp [hs]
    · simp only [if_neg hs, string_view.remove_prefix]
      intro _; omega

/-- A successful run of the pair loop leaves a suffix of the view. -/
theorem Serializer_unordered_map_GetPairs_within {K V : Type} [DecidableEq K]
    (SK : Serializer K) (SV : Serializer V) (hLK : SK.Local) (hLV : SV.Local) (mem : Mem) :
    ∀ (n : Nat) (s : string_view) (w : unordered_map K V),
      (Serializer_unordered_map.GetPairs SK SV mem n s w).1 = true →
      (Serializer_unordered_map.GetPairs SK SV mem n s w).2.1.Within s := by
  intro n
  induction n with
  | zero => intro s w _; simp [Serializer_unordered_map.GetPairs, string_view.Within]
  | succ n ih =>
    intro s w
    simp only [Serializer_unordered_map.GetPairs]
    have hwk := (hLK mem s SK.init).1
    rcases hg : SK.GetValue mem s SK.init with ⟨b, s2, k⟩
    rw [hg] at hwk
    cases b
    · simp
    · simp only
      have hwv := (hLV mem s2 SV.init).1
      rcases hg2 : SV.GetValue mem s2 SV.init with ⟨b2, s3, x⟩
      rw [hg2] at hwv
      cases b2
      · simp
      · simp only
        intro hok
        have h1 := ih s3 (w.insert (k, x)) hok
        have h2 := hwk rfl
        have h3 := hwv rfl
        simp only [string_view.Within] at h1 h2 h3 ⊢
        omega

/-- A mapping whose key and value decoders stay inside the view has such a decoder, and a
successful mapping decode consumes at least the count prefix. -/
theorem Serializer_unordered_map_local_consumes {K V : Type} [DecidableEq K]
    (SK : Serializer K) (SV : Serializer V) (hLK : SK.Local) (hLV : SV.Local) :
    (Serializer_unordered_map.serializer SK SV).Local ∧
      (Serializer_unordered_map.serializer SK SV).Consumes := by
  have main : ∀ (mem : Mem) (src : string_view) (v : unordered_map K V),
      (Serializer_unordered_map.GetValue SK SV mem src v).1 = true →
      (Serializer_unordered_map.GetValue SK SV mem src v).2.1.Within src ∧
        src.data < (Serializer_unordered_map.GetValue SK SV mem src v).2.1.data := by
    intro mem src v
    simp only [Serializer_unordered_map.GetValue]
    have hw := GetVariant32_within mem src 0
    rcases hg : GetVariant32 mem src 0 with ⟨b, src1, n⟩
    rw [hg] at hw
    cases b
    · simp
    · simp only
      intro hok
      have h1 := Serializer_unordered_map_GetPairs_within SK SV hLK hLV mem n src1 v hok
      have h2 := hw rfl
      simp only [string_view.Within] at h1 h2 ⊢
      omega
  exact ⟨fun mem src v => ⟨fun h => (main mem src v h).1,
      fun mem2 h => Serializer_unordered_map_GetValue_congr SK SV hLK hLV mem mem2 src v h⟩,
    fun mem src v h => (main mem src v h).2⟩

/-- A successful member fold whose members stay inside the view leaves a suffix of the view,
and a proper one when some member consumes. -/
theorem Serializer_Class_GetMember_within {O : Type} (mem : Mem) :
    ∀ (ms : List (Member O)), (∀ m ∈ ms, m.ser.Local) →
    ∀ (src : string_view) (o : O),
      (Serializer_Class.GetMember mem ms src o).1 = true →
      (Serializer_Class.GetMember mem ms src o).2.1.Within src ∧
        ((∃ m ∈ ms, m.ser.Consumes) →
          src.data < (Serializer_Class.GetMember mem ms src o).2.1.data) := by
  intro ms
  induction ms with
  | nil =>
    intro _ src o _
    simp [Serializer_Class.GetMember, string_view.Within]
  | cons m ms ih =>
    intro hL src o
    simp only [Serializer_Class.GetMember]
    have hw := (hL m (List.mem_cons_self _ _) mem src (m.get o)).1
    have hc : m.ser.Consumes → _ := fun hc => hc mem src (m.get o)
    rcases hg : m.ser.GetValue mem src (m.get o) with ⟨b, s2, x⟩
    rw [hg] at hw hc
    cases b
    · simp
    · simp only
      intro hok
      obtain ⟨h1, h2⟩ := ih (fun m2 h2 => hL m2 (List.mem_cons_of_mem _ h2)) s2 (m.set o x) hok
      have h3 := hw rfl
      simp only [string_view.Within] at h1 h3 ⊢
      refine ⟨by omega, ?_⟩
      rintro ⟨m2, hm2, hc2⟩
      rcases List.mem_cons.1 hm2 with e | hin
      · subst e
        have := hc hc2 rfl
        simp only at this
        omega
      · have := h2 ⟨m2, hin, hc2⟩
        omega

/-- The member fold depends on no byte outside the view. -/
theorem Serializer_Class_GetMember_congr {O : Type} (mem mem2 : Mem) :
    ∀ (ms : List (Member O)), (∀ m ∈ ms, m.ser.Local) →
    ∀ (src : string_view) (o : O),
      (∀ a, src.data ≤ a → a < src.data + src.size → mem2 a = mem a) →
      Serializer_Class.GetMember mem2 ms src o = Serializer_Class.GetMember mem ms src o := by
  intro ms
  induction ms with
  | nil => intro _ src o _; rfl
  | cons m ms ih =>
    intro hL src o h
    simp only [Serializer_Class.GetMember]
    rw [(hL m (List.mem_cons_self _ _) mem src (m.get o)).2 mem2 h]
    have hw := (hL m (List.mem_cons_self _ _) mem src (m.get o)).1
    rcases hg : m.ser.GetValue mem src (m.get o) with ⟨b, s2, x⟩
    rw [hg] at hw
    cases b
    · rfl
    · simp only
      have h3 := hw rfl
      simp only [string_view.Within] at h3
      exact ih (fun m2 h2 => hL m2 (List.mem_cons_of_mem _ h2)) s2 (m.set o x)
        (fun a h1 h2 => h a (by omega) (by omega))

/-- A composite whose ancestor and fields have decoders that stay inside the view has such a
decoder; a successful decode consumes at least one byte when the ancestor or some field
does. -/
theorem Serializer_Class_local_consumes {O : Type} (M : MetaClass O) (init : O)
    (hL : ∀ m ∈ M.all, m.ser.Local) :
    (Serializer_Class.serializer M init).Local ∧
      ((∃ m ∈ M.all, m.ser.Consumes) → (Serializer_Class.serializer M init).Consumes) := by
  constructor
  · intro mem src v
    simp only [Serializer_Class.serializer, Serializer_Class_GetValue_eq_GetMember]
    exact ⟨fun h => (Serializer_Class_GetMember_within mem M.all hL src v h).1,
      fun mem2 h => Serializer_Class_GetMember_congr mem mem2 M.all hL src v h⟩
  · intro hc mem src v
    simp only [Serializer_Class.serializer, Serializer_Class_GetValue_eq_GetMember]
    exact fun h => (Serializer_Class_GetMember_within mem M.all hL src v h).2 hc

/-- The decoder of the field-less composite `Marker` stays inside the view. -/
theorem Marker_serializer_local : Marker.serializer.Local :=
  (Serializer_Class_local_consumes Marker.metaClass {}
    (by simp [MetaClass.all, Marker.metaClass])).1

/-! ## Claims -/

/-- C1. Varint round trip with exact consumption: for every 32-bit unsigned `v` and every
byte string `rest`, `GetVariant32` on a view over the `PutVariant32` bytes of `v` followed by
`rest` returns true, stores `v`, and leaves the view advanced by exactly the encoded bytes,
so that it denotes `rest`; the same for every 64-bit unsigned `v` with `PutVariant64` and
`GetVariant64`. -/
theorem C1_varint_round_trip :
    (∀ (v : Nat) (rest : List Nat) (mem : Mem) (input : string_view) (out : Nat),
      v < 2 ^ 32 → input.bytes mem = PutVariant32 [] v ++ rest →
      GetVariant32 mem input out
          = (true, input.remove_prefix (PutVariant32 [] v).length, v) ∧
        (input.remove_prefix (PutVariant32 [] v).length).bytes mem = rest) ∧
    (∀ (v : Nat) (rest : List Nat) (mem : Mem) (input : string_view) (out : Nat),
      v < 2 ^ 64 → input.bytes mem = PutVariant64 [] v ++ rest →
      GetVariant64 mem input out
          = (true, input.remove_prefix (PutVariant64 [] v).length, v) ∧
        (input.remove_prefix (PutVariant64 [] v).length).bytes mem = rest) := by
  constructor
  · intro v rest mem input out hv h
    rw [PutVariant32_eq, List.nil_append] at h ⊢
    exact ⟨GetVariant32_varintBytes v rest mem input out hv h,
      string_view.bytes_remove_prefix mem input _ _ h⟩
  · intro v rest mem input out hv h
    rw [PutVariant64_eq, List.nil_append] at h ⊢
    exact ⟨GetVariant64_varintBytes v rest mem input out hv h,
      string_view.bytes_remove_prefix mem input _ _ h⟩

/-- Witness of C1: the bytes `0xAC 0x02` decode to 300 and exactly 2 bytes are consumed; the
ten bytes of `UINT64_MAX` decode to `UINT64_MAX`. -/
theorem C1_varint_round_trip_witness :
    GetVariant32 (Mem.ofBytes [0xAC, 0x02]) (string_view.ofBytes [0xAC, 0x02]) 0
        = (true, { data := 2, size := 0 }, 300) ∧
    GetVariant64 (Mem.ofBytes [255, 255, 255, 255, 255, 255, 255, 255, 255, 1])
        (string_view.ofBytes [255, 255, 255, 255, 255, 255, 255, 255, 255, 1]) 0
        = (true, { data := 10, size := 0 }, 2 ^ 64 - 1) := by
  have e32 : PutVariant32 [] 300 = [0xAC, 0x02] := by
    simp [PutVariant32_eq, varintBytes]
  have e64 : PutVariant64 [] (2 ^ 64 - 1) = [255, 255, 255, 255, 255, 255, 255, 255, 255, 1] := by
    simp [PutVariant64_eq, varintBytes]
  constructor
  · have h := (C1_varint_round_trip.1 300 [] (Mem.ofBytes [0xAC, 0x02])
      (string_view.ofBytes [0xAC, 0x02]) 0 (by norm_num)
      (by rw [e32, List.append_nil]; exact string_view.ofBytes_bytes _)).1
    rw [e32] at h
    exact h
  · have h := (C1_varint_round_trip.2 (2 ^ 64 - 1) []
      (Mem.ofBytes [255, 255, 255, 255, 255, 255, 255, 255, 255, 1])
      (string_view.ofBytes [255, 255, 255, 255, 255, 255, 255, 255, 255, 1]) 0 (by norm_num)
      (by rw [e64, List.append_nil]; exact string_view.ofBytes_bytes _)).1
    rw [e64] at h
    exact h

/-- C2. Varint wire format: for every 32-bit unsigned `v`, `EncodeVariant32` writes `n`
bytes at `buf` with `1 <= n <= 5` (for every 64-bit `v`, `EncodeVariant64` writes
`1 <= n <= 10` bytes), byte `i < n - 1` being `((v >> 7i) & 0x7F) | 0x80` and byte `n - 1`
being `v >> 7(n-1)`, which is below `0x80`; it returns the position right after the written
bytes and changes no other address.  Encoding the 32-bit value 300 writes exactly the two
bytes `0xAC 0x02`. -/
theorem C2_varint_wire_format :
    (∀ (v : Nat) (mem : Mem) (buf : Nat), v < 2 ^ 32 →
      ∃ n, 1 ≤ n ∧ n ≤ 5 ∧ (EncodeVariant32 mem buf v).2 = buf + n ∧
        (∀ i, i < n - 1 →
          (EncodeVariant32 mem buf v).1 (buf + i) = ((v >>> (7 * i)) &&& 0x7F) ||| 0x80) ∧
        (EncodeVariant32 mem buf v).1 (buf + (n - 1)) = v >>> (7 * (n - 1)) ∧
        v >>> (7 * (n - 1)) < 0x80 ∧
        (∀ a, (a < buf ∨ buf + n ≤ a) → (EncodeVariant32 mem buf v).1 a = mem a)) ∧
    (∀ (v : Nat) (mem : Mem) (dst : Nat), v < 2 ^ 64 →
      ∃ n, 1 ≤ n ∧ n ≤ 10 ∧ (EncodeVariant64 mem dst v).2 = dst + n ∧
        (∀ i, i < n - 1 →
          (EncodeVariant64 mem dst v).1 (dst + i) = ((v >>> (7 * i)) &&& 0x7F) ||| 0x80) ∧
        (EncodeVariant64 mem dst v).1 (dst + (n - 1)) = v >>> (7 * (n - 1)) ∧
        v >>> (7 * (n - 1)) < 0x80 ∧
        (∀ a, (a < dst ∨ dst + n ≤ a) → (EncodeVariant64 mem dst v).1 a = mem a)) ∧
    (∀ (mem : Mem) (buf : Nat), (EncodeVariant32 mem buf 300).2 = buf + 2 ∧
      (EncodeVariant32 mem buf 300).1.read buf 2 = [0xAC, 0x02]) := by
  refine ⟨?_, ?_, ?_⟩
  · intro v mem buf hv
    exact EncodeVariant_wire 5 v mem buf
      (varintBytes_length_le 4 v (lt_of_lt_of_le hv (by norm_num)))
  · intro v mem dst hv
    exact EncodeVariant_wire 10 v mem dst
      (varintBytes_length_le 9 v (lt_of_lt_of_le hv (by norm_num)))
  · intro mem buf
    have e : varintBytes 300 = [0xAC, 0x02] := by simp [varintBytes]
    obtain ⟨h1, h2, _⟩ := EncodeVariant_eq 300 mem buf
    rw [e] at h1 h2
    exact ⟨h1, h2⟩

/-- Witness of C2: the wire format at the 32-bit value 300 and the 64-bit value
`UINT64_MAX`, and the two bytes `0xAC 0x02` written for 300. -/
theorem C2_varint_wire_format_witness :
    ((300 : Nat) < 2 ^ 32 ∧
      ∃ n, 1 ≤ n ∧ n ≤ 5 ∧ (EncodeVariant32 (fun _ => 0) 0 300).2 = 0 + n ∧
        (∀ i, i < n - 1 →
          (EncodeVariant32 (fun _ => 0) 0 300).1 (0 + i) = ((300 >>> (7 * i)) &&& 0x7F) ||| 0x80) ∧
        (EncodeVariant32 (fun _ => 0) 0 300).1 (0 + (n - 1)) = 300 >>> (7 * (n - 1)) ∧
        300 >>> (7 * (n - 1)) < 0x80 ∧
        (∀ a, (a < 0 ∨ 0 + n ≤ a) → (EncodeVariant32 (fun _ => 0) 0 300).1 a = 0)) ∧
    ((2 ^ 64 - 1 : Nat) < 2 ^ 64 ∧
      ∃ n, 1 ≤ n ∧ n ≤ 10 ∧ (EncodeVariant64 (fun _ => 0) 0 (2 ^ 64 - 1)).2 = 0 + n) ∧
    ∀ (mem : Mem) (buf : Nat), (EncodeVariant32 mem buf 300).2 = buf + 2 ∧
      (EncodeVariant32 mem buf 300).1.read buf 2 = [0xAC, 0x02] := by
  refine ⟨⟨by norm_num, C2_varint_wire_format.1 300 (fun _ => 0) 0 (by norm_num)⟩,
    ⟨by norm_num, ?_⟩, C2_varint_wire_format.2.2⟩
  obtain ⟨n, h1, h2, h3, _⟩ := C2_varint_wire_format.2.1 (2 ^ 64 - 1) (fun _ => 0) 0 (by norm_num)
  exact ⟨n, h1, h2, h3⟩

/-- C3. Varint minimality: for every 64-bit unsigned `v`, `VariantLength v` is the number of
bytes `EncodeVariant64` writes for `v`: the encoder returns the position `VariantLength v`
bytes after the start, changes no address outside these bytes, and `PutVariant64` appends
`VariantLength v` bytes; for `v < 2^32` the same holds for `EncodeVariant32` and
`PutVariant32`; and `VariantLength v` is 1 when `v < 2^7`, 2 when `2^7 <= v < 2^14`, and 10
when `v >= 2^63`. -/
theorem C3_varint_minimality (v : Nat) (mem : Mem) (buf : Nat) (hv : v < 2 ^ 64) :
    ((EncodeVariant64 mem buf v).2 = buf + VariantLength v ∧
      (∀ a, (a < buf ∨ buf + VariantLength v ≤ a) → (EncodeVariant64 mem buf v).1 a = mem a) ∧
      (PutVariant64 [] v).length = VariantLength v) ∧
    (v < 2 ^ 32 → (EncodeVariant32 mem buf v).2 = buf + VariantLength v ∧
      (∀ a, (a < buf ∨ buf + VariantLength v ≤ a) → (EncodeVariant32 mem buf v).1 a = mem a) ∧
      (PutVariant32 [] v).length = VariantLength v) ∧
    (v < 2 ^ 7 → VariantLength v = 1) ∧
    (2 ^ 7 ≤ v → v < 2 ^ 14 → VariantLength v = 2) ∧
    (2 ^ 63 ≤ v → VariantLength v = 10) := by
  obtain ⟨h1, _, h3⟩ := EncodeVariant_eq v mem buf
  rw [← VariantLength_eq] at h1 h3
  have h64 : (PutVariant64 [] v).length = VariantLength v := by
    rw [PutVariant64_eq, List.nil_append, VariantLength_eq]
  have h32 : (PutVariant32 [] v).length = VariantLength v := by
    rw [PutVariant32_eq, List.nil_append, VariantLength_eq]
  refine ⟨⟨h1, h3, h64⟩, fun _ => ⟨h1, h3, h32⟩, ?_, ?_, ?_⟩
  · intro h
    have := varintBytes_length_le 0 v (by simpa using h)
    have := varintBytes_length_pos v
    rw [VariantLength_eq]; omega
  · intro hlo hhi
    have := varintBytes_length_le 1 v (by simpa using hhi)
    have := varintBytes_length_ge 1 v (by simpa using hlo)
    rw [VariantLength_eq]; omega
  · intro hlo
    have := varintBytes_length_le 9 v (lt_of_lt_of_le hv (by norm_num))
    have := varintBytes_length_ge 9 v (by simpa using hlo)
    rw [VariantLength_eq]; omega

/-- Witness of C3: `VariantLength` of 300 is 2, as many bytes as both encoders write for it,
and `VariantLength` of `UINT64_MAX` is 10. -/
theorem C3_varint_minimality_witness :
    (300 : Nat) < 2 ^ 64 ∧ VariantLength 300 = 2 ∧
    (EncodeVariant64 (fun _ => 0) 0 300).2 = 0 + VariantLength 300 ∧
    (EncodeVariant32 (fun _ => 0) 0 300).2 = 0 + VariantLength 300 ∧
    VariantLength (2 ^ 64 - 1) = 10 :=
  ⟨by norm_num,
    (C3_varint_minimality 300 (fun _ => 0) 0 (by norm_num)).2.2.2.1 (by norm_num) (by norm_num),
    (C3_varint_minimality 300 (fun _ => 0) 0 (by norm_num)).1.1,
    ((C3_varint_minimality 300 (fun _ => 0) 0 (by norm_num)).2.1 (by norm_num)).1,
    (C3_varint_minimality (2 ^ 64 - 1) (fun _ => 0) 0 (by norm_num)).2.2.2.2 (by norm_num)⟩

/-- C4. Malformed and truncated varints are rejected: when every byte among the first
`min (limit - p) 5` bytes of the region `[p, limit)` (32-bit; 10 for 64-bit) carries the
continuation bit `0x80`, the empty region included, `GetVariant32Ptr`,
`GetVariant32PtrFallback` and `GetVariant64Ptr` return the null pointer and `GetVariant32`,
`GetVariant64` return false; and no byte at or beyond `limit` is read: the outcome is the
same in every memory that agrees with the given one on `[p, limit)`. -/
theorem C4_malformed_varint_rejected :
    (∀ (mem : Mem) (p limit : Nat),
      (∀ i, i < min (limit - p) 5 → mem (p + i) &&& 0x80 ≠ 0) →
      ∀ mem2 : Mem, (∀ a, p ≤ a → a < limit → mem2 a = mem a) →
        GetVariant32Ptr mem2 p limit = none ∧ GetVariant32PtrFallback mem2 p limit = none ∧
        ∀ out, (GetVariant32 mem2 { data := p, size := limit - p } out).1 = false) ∧
    (∀ (mem : Mem) (p limit : Nat),
      (∀ i, i < min (limit - p) 10 → mem (p + i) &&& 0x80 ≠ 0) →
      ∀ mem2 : Mem, (∀ a, p ≤ a → a < limit → mem2 a = mem a) →
        GetVariant64Ptr mem2 p limit = none ∧
        ∀ out, (GetVariant64 mem2 { data := p, size := limit - p } out).1 = false) := by
  constructor
  · intro mem p limit h mem2 hagree
    have h2 : ∀ i, i < min (limit - p) 5 → mem2 (p + i) &&& 0x80 ≠ 0 := by
      intro i hi
      rw [hagree (p + i) (by omega) (by omega)]
      exact h i hi
    exact ⟨(GetVariant32_none mem2 p limit 0 h2).1, (GetVariant32_none mem2 p limit 0 h2).2.1,
      fun out => (GetVariant32_none mem2 p limit out h2).2.2⟩
  · intro mem p limit h mem2 hagree
    have h2 : ∀ i, i < min (limit - p) 10 → mem2 (p + i) &&& 0x80 ≠ 0 := by
      intro i hi
      rw [hagree (p + i) (by omega) (by omega)]
      exact h i hi
    exact ⟨(GetVariant64_none mem2 p limit 0 h2).1,
      fun out => (GetVariant64_none mem2 p limit out h2).2⟩

/-- Witness of C4: five continuation-flagged bytes followed by a terminator are rejected by
the 32-bit decoders, and so is the empty region; ten continuation-flagged bytes followed by
a terminator are rejected by the 64-bit decoders, and so is a single continuation-flagged
byte at the end of the region even when a terminator lies right beyond `limit`. -/
theorem C4_malformed_varint_rejected_witness :
    (GetVariant32Ptr (Mem.ofBytes [0x80, 0x80, 0x80, 0x80, 0x80, 0x00]) 0 6 = none ∧
      GetVariant32PtrFallback (Mem.ofBytes [0x80, 0x80, 0x80, 0x80, 0x80, 0x00]) 0 6 = none ∧
      (GetVariant32 (Mem.ofBytes [0x80, 0x80, 0x80, 0x80, 0x80, 0x00])
        { data := 0, size := 6 } 7).1 = false) ∧
    GetVariant32Ptr (Mem.ofBytes [0x01]) 1 1 = none ∧
    GetVariant64Ptr
      (Mem.ofBytes [0xFF, 0xFF, 0xFF, 0xFF, 0xFF, 0xFF, 0xFF, 0xFF, 0xFF, 0xFF, 0x01]) 0 11
      = none ∧
    (GetVariant64Ptr (Mem.ofBytes [0xFF, 0x01]) 0 1 = none ∧
      (GetVariant64 (Mem.ofBytes [0xFF, 0x01]) { data := 0, size := 1 } 7).1 = false) := by
  have h32 := C4_malformed_varint_rejected.1
    (Mem.ofBytes [0x80, 0x80, 0x80, 0x80, 0x80, 0x00]) 0 6
    (by intro i hi; have : i < 5 := by simpa using hi
        interval_cases i <;> decide)
    (Mem.ofBytes [0x80, 0x80, 0x80, 0x80, 0x80, 0x00]) (fun _ _ _ => rfl)
  have hempty := C4_malformed_varint_rejected.1 (Mem.ofBytes [0x01]) 1 1
    (by intro i hi; simp at hi)
    (Mem.ofBytes [0x01]) (fun _ _ _ => rfl)
  have hlong := C4_malformed_varint_rejected.2
    (Mem.ofBytes [0xFF, 0xFF, 0xFF, 0xFF, 0xFF, 0xFF, 0xFF, 0xFF, 0xFF, 0xFF, 0x01]) 0 11
    (by intro i hi; have : i < 10 := by simpa using hi
        interval_cases i <;> decide)
    (Mem.ofBytes [0xFF, 0xFF, 0xFF, 0xFF, 0xFF, 0xFF, 0xFF, 0xFF, 0xFF, 0xFF, 0x01])
    (fun _ _ _ => rfl)
  have h64 := C4_malformed_varint_rejected.2
    (Mem.ofBytes [0xFF, 0x00]) 0 1
    (by intro i hi; have : i < 1 := by simpa using hi
        interval_cases i; decide)
    (Mem.ofBytes [0xFF, 0x01])
    (by intro a _ ha; obtain rfl : a = 0 := by omega
        rfl)
  exact ⟨⟨h32.1, h32.2.1, h32.2.2 7⟩, hempty.1, hlong.1, ⟨h64.1, h64.2 7⟩⟩

/-- C5. The fast path and the fallback path agree: for every region `[p, limit)` with at
least one byte available, `GetVariant32Ptr` and `GetVariant32PtrFallback` return the same
result: both the null pointer, or both the same next position and the same decoded value. -/
theorem C5_fast_path_agrees_with_fallback (mem : Mem) (p limit : Nat) :
    p < limit → GetVariant32Ptr mem p limit = GetVariant32PtrFallback mem p limit :=
  fun _ => GetVariant32Ptr_eq_fallback mem p limit

/-- Witness of C5: on the two bytes `0xAC 0x02` both paths return position 2 and value 300. -/
theorem C5_fast_path_agrees_with_fallback_witness :
    (0 : Nat) < 2 ∧
    GetVariant32Ptr (Mem.ofBytes [0xAC, 0x02]) 0 2
      = GetVariant32PtrFallback (Mem.ofBytes [0xAC, 0x02]) 0 2 ∧
    GetVariant32PtrFallback (Mem.ofBytes [0xAC, 0x02]) 0 2 = some (2, 300) :=
  ⟨by decide, C5_fast_path_agrees_with_fallback (Mem.ofBytes [0xAC, 0x02]) 0 2 (by decide),
    by decide⟩

/-- C6. Fixed-width decode is little-endian on both code paths: for every 4 bytes
`b0..b3` at `ptr`, `DecodeFixed32` returns `b0 | b1<<8 | b2<<16 | b3<<24` on the
little-endian branch and on the byte-shift branch; for every 8 bytes `b0..b7`, `DecodeFixed64`
returns the sum of `b_i << 8i` on both branches, the shift branch being
`DecodeFixed32(ptr) | DecodeFixed32(ptr+4) << 32`; and `DecodeFixed32/64` applied to the bytes
written by `EncodeFixed32/64` for `v` returns `v`. -/
theorem C6_fixed_decode_little_endian :
    (∀ (le : Bool) (mem : Mem) (ptr b0 b1 b2 b3 : Nat),
      mem.read ptr 4 = [b0, b1, b2, b3] → b0 < 256 → b1 < 256 → b2 < 256 → b3 < 256 →
      DecodeFixed32 le mem ptr = b0 ||| (b1 <<< 8) ||| (b2 <<< 16) ||| (b3 <<< 24)) ∧
    (∀ (le : Bool) (mem : Mem) (ptr b0 b1 b2 b3 b4 b5 b6 b7 : Nat),
      mem.read ptr 8 = [b0, b1, b2, b3, b4, b5, b6, b7] →
      b0 < 256 → b1 < 256 → b2 < 256 → b3 < 256 → b4 < 256 → b5 < 256 → b6 < 256 → b7 < 256 →
      DecodeFixed64 le mem ptr
          = b0 + (b1 <<< 8) + (b2 <<< 16) + (b3 <<< 24) + (b4 <<< 32) + (b5 <<< 40)
            + (b6 <<< 48) + (b7 <<< 56) ∧
        DecodeFixed64 false mem ptr
          = DecodeFixed32 false mem ptr ||| (DecodeFixed32 false mem (ptr + 4) <<< 32)) ∧
    (∀ (le : Bool) (mem : Mem) (buf v : Nat), v < 2 ^ 32 →
      DecodeFixed32 le (EncodeFixed32 mem buf v) buf = v) ∧
    (∀ (le : Bool) (mem : Mem) (buf v : Nat), v < 2 ^ 64 →
      DecodeFixed64 le (EncodeFixed64 mem buf v) buf = v) := by
  refine ⟨?_, ?_, ?_, ?_⟩
  · intro le mem ptr b0 b1 b2 b3 hread h0 h1 h2 h3
    simp only [Mem.read_succ, Mem.read_zero, List.cons.injEq, and_true] at hread
    obtain ⟨e0, e1, e2, e3⟩ := hread
    rw [DecodeFixed32_eq_load, or4_eq_sum b0 b1 b2 b3 h0 h1 h2]
    simp only [loadLittleEndian]
    rw [e0, e1, e2, e3, Nat.mod_eq_of_lt h0, Nat.mod_eq_of_lt h1, Nat.mod_eq_of_lt h2,
      Nat.mod_eq_of_lt h3]
  · intro le mem ptr b0 b1 b2 b3 b4 b5 b6 b7 hread h0 h1 h2 h3 h4 h5 h6 h7
    simp only [Mem.read_succ, Mem.read_zero, List.cons.injEq, and_true] at hread
    obtain ⟨e0, e1, e2, e3, e4, e5, e6, e7⟩ := hread
    constructor
    · rw [DecodeFixed64_eq_load]
      simp only [loadLittleEndian, Nat.shiftLeft_eq]
      rw [e0, e1, e2, e3, e4, e5, e6, e7, Nat.mod_eq_of_lt h0, Nat.mod_eq_of_lt h1,
        Nat.mod_eq_of_lt h2, Nat.mod_eq_of_lt h3, Nat.mod_eq_of_lt h4, Nat.mod_eq_of_lt h5,
        Nat.mod_eq_of_lt h6, Nat.mod_eq_of_lt h7]
      omega
    · have hhi := loadLittleEndian_lt mem 4 (ptr + 4)
      have e : ((DecodeFixed32 false mem (ptr + 4)) <<< 32) % 2 ^ 64
          = (DecodeFixed32 false mem (ptr + 4)) <<< 32 := by
        rw [DecodeFixed32_eq_load]
        apply Nat.mod_eq_of_lt; rw [Nat.shiftLeft_eq]; omega
      simp only [DecodeFixed64, Bool.false_eq_true, if_false]
      rw [e, Nat.or_comm]
  · intro le mem buf v hv
    rw [DecodeFixed32_eq_load, EncodeFixed32, (EncodeFixed_eq 4 mem buf v).1]
    exact Nat.mod_eq_of_lt (by simpa using hv)
  · intro le mem buf v hv
    rw [DecodeFixed64_eq_load, EncodeFixed64, (EncodeFixed_eq 8 mem buf v).1]
    exact Nat.mod_eq_of_lt (by simpa using hv)

/-- Witness of C6: the bytes `04 03 02 01` decode to `0x01020304` on both branches, the bytes
`08 07 .. 01` to `0x0102030405060708`, and `0xDEADBEEF` survives encode then decode. -/
theorem C6_fixed_decode_little_endian_witness :
    DecodeFixed32 true (Mem.ofBytes [4, 3, 2, 1]) 0 = 0x01020304 ∧
    DecodeFixed32 false (Mem.ofBytes [4, 3, 2, 1]) 0 = 0x01020304 ∧
    DecodeFixed64 true (Mem.ofBytes [8, 7, 6, 5, 4, 3, 2, 1]) 0 = 0x0102030405060708 ∧
    DecodeFixed64 false (Mem.ofBytes [8, 7, 6, 5, 4, 3, 2, 1]) 0 = 0x0102030405060708 ∧
    DecodeFixed32 false (EncodeFixed32 (fun _ => 0) 0 0xDEADBEEF) 0 = 0xDEADBEEF ∧
    DecodeFixed64 false (EncodeFixed64 (fun _ => 0) 0 (2 ^ 64 - 1)) 0 = 2 ^ 64 - 1 := by
  have h32 := fun le => C6_fixed_decode_little_endian.1 le (Mem.ofBytes [4, 3, 2, 1]) 0 4 3 2 1
    (by decide) (by decide) (by decide) (by decide) (by decide)
  have h64 := fun le => (C6_fixed_decode_little_endian.2.1 le
    (Mem.ofBytes [8, 7, 6, 5, 4, 3, 2, 1]) 0 8 7 6 5 4 3 2 1
    (by decide) (by decide) (by decide) (by decide) (by decide) (by decide) (by decide)
    (by decide) (by decide)).1
  exact ⟨h32 true, h32 false, h64 true, h64 false,
    C6_fixed_decode_little_endian.2.2.1 false (fun _ => 0) 0 0xDEADBEEF (by norm_num),
    C6_fixed_decode_little_endian.2.2.2 false (fun _ => 0) 0 (2 ^ 64 - 1) (by norm_num)⟩

/-- C7. Float and double bit-exact round trip with exact cursor advance: for every 32-bit
pattern `u` and every byte string `rest`, `Serializer<float>::GetValue` on a view over the
`PutValue` bytes of the float with bits `u` followed by `rest` returns true, yields the
pattern `u`, and leaves the view advanced by exactly 4 bytes, denoting `rest`, while
`GetFixed32` itself returns the view as it was; `Serializer<float>::GetValue` returns false
when fewer than 4 bytes remain.  The same holds for double with 64-bit patterns and 8
bytes. -/
theorem C7_float_double_round_trip :
    (∀ (u : Nat) (rest : List Nat) (mem : Mem) (src : string_view) (out : Nat),
      u < 2 ^ 32 → src.bytes mem = Serializer_float.PutValue [] u ++ rest →
      Serializer_float.GetValue mem src out = (true, src.remove_prefix 4, u) ∧
        (src.remove_prefix 4).bytes mem = rest ∧
        (Serializer_float.PutValue [] u).length = 4 ∧
        GetFixed32 mem src out = (true, src, u)) ∧
    (∀ (mem : Mem) (src : string_view) (out : Nat), src.size < 4 →
      (Serializer_float.GetValue mem src out).1 = false) ∧
    (∀ (u : Nat) (rest : List Nat) (mem : Mem) (src : string_view) (out : Nat),
      u < 2 ^ 64 → src.bytes mem = Serializer_double.PutValue [] u ++ rest →
      Serializer_double.GetValue mem src out = (true, src.remove_prefix 8, u) ∧
        (src.remove_prefix 8).bytes mem = rest ∧
        (Serializer_double.PutValue [] u).length = 8 ∧
        GetFixed64 mem src out = (true, src, u)) ∧
    (∀ (mem : Mem) (src : string_view) (out : Nat), src.size < 8 →
      (Serializer_double.GetValue mem src out).1 = false) := by
  refine ⟨?_, ?_, ?_, ?_⟩
  · intro u rest mem src out hu h
    have hlen : (Serializer_float.PutValue [] u).length = 4 := by
      simp [Serializer_float.PutValue, PutFixed32_length]
    have hrest := string_view.bytes_remove_prefix mem src _ _ h
    rw [hlen] at hrest
    simp only [Serializer_float.PutValue] at h
    obtain ⟨hsz, hdec⟩ := DecodeFixed32_PutFixed32 port.kLittleEndian u rest mem src hu h
    have hfix : ∀ o, GetFixed32 mem src o = (true, src, u) := by
      intro o
      simp only [GetFixed32]
      rw [if_neg (by omega), hdec]
    refine ⟨?_, hrest, hlen, hfix out⟩
    simp only [Serializer_float.GetValue]
    rw [hfix 0]
  · intro mem src out h
    simp only [Serializer_float.GetValue, GetFixed32]
    rw [if_pos h]
  · intro u rest mem src out hu h
    have hlen : (Serializer_double.PutValue [] u).length = 8 := by
      simp [Serializer_double.PutValue, PutFixed64_length]
    have hrest := string_view.bytes_remove_prefix mem src _ _ h
    rw [hlen] at hrest
    simp only [Serializer_double.PutValue] at h
    obtain ⟨hsz, hdec⟩ := DecodeFixed64_PutFixed64 port.kLittleEndian u rest mem src hu h
    have hfix : ∀ o, GetFixed64 mem src o = (true, src, u) := by
      intro o
      simp only [GetFixed64]
      rw [if_neg (by omega), hdec]
    refine ⟨?_, hrest, hlen, hfix out⟩
    simp only [Serializer_double.GetValue]
    rw [hfix 0]
  · intro mem src out h
    simp only [Serializer_double.GetValue, GetFixed64]
    rw [if_pos h]

/-- Witness of C7: the float with the NaN pattern `0x7FC00001` is encoded as
`01 00 C0 7F`; decoding these bytes followed by `2A` yields that pattern and leaves the one
byte `2A`; three bytes are rejected; negative zero as a double round-trips. -/
theorem C7_float_double_round_trip_witness :
    Serializer_float.PutValue [] 0x7FC00001 = [0x01, 0x00, 0xC0, 0x7F] ∧
    Serializer_float.GetValue (Mem.ofBytes [0x01, 0x00, 0xC0, 0x7F, 0x2A])
        (string_view.ofBytes [0x01, 0x00, 0xC0, 0x7F, 0x2A]) 0
      = (true, { data := 4, size := 1 }, 0x7FC00001) ∧
    (Serializer_float.GetValue (Mem.ofBytes [0x01, 0x00, 0xC0])
        (string_view.ofBytes [0x01, 0x00, 0xC0]) 0).1 = false ∧
    Serializer_double.GetValue (Mem.ofBytes [0, 0, 0, 0, 0, 0, 0, 0x80])
        (string_view.ofBytes [0, 0, 0, 0, 0, 0, 0, 0x80]) 0
      = (true, { data := 8, size := 0 }, 0x8000000000000000) ∧
    (Serializer_double.GetValue (Mem.ofBytes [0, 0, 0, 0, 0, 0, 0])
        (string_view.ofBytes [0, 0, 0, 0, 0, 0, 0]) 0).1 = false :=
  ⟨by decide,
    (C7_float_double_round_trip.1 0x7FC00001 [0x2A] (Mem.ofBytes [0x01, 0x00, 0xC0, 0x7F, 0x2A])
      (string_view.ofBytes [0x01, 0x00, 0xC0, 0x7F, 0x2A]) 0 (by norm_num) (by decide)).1,
    C7_float_double_round_trip.2.1 (Mem.ofBytes [0x01, 0x00, 0xC0])
      (string_view.ofBytes [0x01, 0x00, 0xC0]) 0 (by decide),
    (C7_float_double_round_trip.2.2.1 0x8000000000000000 []
      (Mem.ofBytes [0, 0, 0, 0, 0, 0, 0, 0x80])
      (string_view.ofBytes [0, 0, 0, 0, 0, 0, 0, 0x80]) 0 (by norm_num) (by decide)).1,
    C7_float_double_round_trip.2.2.2 (Mem.ofBytes [0, 0, 0, 0, 0, 0, 0])
      (string_view.ofBytes [0, 0, 0, 0, 0, 0, 0]) 0 (by decide)⟩

/-- C8. String wire format and round trip: for every byte string `s` of length below
`2^32` (any bytes, zero included), `Serializer<std::string>::PutValue` appends exactly the
varint32 of the length followed by the raw bytes of `s`, nothing after them; and for every
byte string `rest`, `GetValue` on a view over that encoding followed by `rest` returns true,
sets the output to `s` whatever it held before, and leaves the view denoting `rest`. -/
theorem C8_string_round_trip (s : List Nat) (hs : s.length < 2 ^ 32) :
    (∀ dst : List Nat,
      Serializer_string.PutValue dst s = dst ++ (PutVariant32 [] s.length ++ s)) ∧
    ∀ (rest : List Nat) (mem : Mem) (src : string_view) (out : List Nat),
      src.bytes mem = Serializer_string.PutValue [] s ++ rest →
      Serializer_string.GetValue mem src out
          = (true, src.remove_prefix (Serializer_string.PutValue [] s).length, s) ∧
        (src.remove_prefix (Serializer_string.PutValue [] s).length).bytes mem = rest := by
  constructor
  · intro dst
    rw [Serializer_string_PutValue_eq dst s hs, PutVariant32_eq, List.nil_append]
  · intro rest mem src out h
    rw [Serializer_string_PutValue_eq [] s hs, List.nil_append] at h ⊢
    exact ⟨Serializer_string_GetValue_eq s rest mem src out hs h,
      string_view.bytes_remove_prefix mem src _ _ h⟩

/-- Witness of C8: the string `a \0 b` is encoded as `03 61 00 62`; decoding these bytes
followed by `FF` into a string holding other content yields `a \0 b` and leaves `FF`. -/
theorem C8_string_round_trip_witness :
    ([0x61, 0x00, 0x62] : List Nat).length < 2 ^ 32 ∧
    Serializer_string.PutValue [] [0x61, 0x00, 0x62] = [0x03, 0x61, 0x00, 0x62] ∧
    Serializer_string.GetValue (Mem.ofBytes [0x03, 0x61, 0x00, 0x62, 0xFF])
        (string_view.ofBytes [0x03, 0x61, 0x00, 0x62, 0xFF]) [0x7A, 0x7A]
      = (true, { data := 4, size := 1 }, [0x61, 0x00, 0x62]) := by
  have e : Serializer_string.PutValue [] [0x61, 0x00, 0x62] = [0x03, 0x61, 0x00, 0x62] := by
    simp [Serializer_string.PutValue, PutVariant32_eq, varintBytes]
  have h := (C8_string_round_trip [0x61, 0x00, 0x62] (by norm_num)).2 [0xFF]
    (Mem.ofBytes [0x03, 0x61, 0x00, 0x62, 0xFF])
    (string_view.ofBytes [0x03, 0x61, 0x00, 0x62, 0xFF]) [0x7A, 0x7A]
    (by rw [e]; exact string_view.ofBytes_bytes _)
  rw [e] at h
  exact ⟨by norm_num, e, h.1⟩

/-- C9. String truncation rejection: when the varint32 length prefix of the view decodes to
`len` and fewer than `len` bytes remain in the view after the prefix,
`Serializer<std::string>::GetValue` returns false and leaves the output string as it was; it
also returns false, output untouched, when the length prefix itself fails to decode; and it
reads no byte beyond the view: its outcome is the same in every memory that agrees with the
given one on the bytes of the view. -/
theorem C9_string_truncation_rejected :
    (∀ (mem : Mem) (src : string_view) (out : List Nat) (q len : Nat),
      GetVariant32Ptr mem src.data (src.data + src.size) = some (q, len) →
      src.data + src.size - q < len →
      (Serializer_string.GetValue mem src out).1 = false ∧
        (Serializer_string.GetValue mem src out).2.2 = out) ∧
    (∀ (mem : Mem) (src : string_view) (out : List Nat),
      GetVariant32Ptr mem src.data (src.data + src.size) = none →
      (Serializer_string.GetValue mem src out).1 = false ∧
        (Serializer_string.GetValue mem src out).2.2 = out) ∧
    (∀ (mem mem2 : Mem) (src : string_view) (out : List Nat),
      (∀ a, src.data ≤ a → a < src.data + src.size → mem2 a = mem a) →
      Serializer_string.GetValue mem2 src out = Serializer_string.GetValue mem src out) := by
  refine ⟨?_, ?_, ?_⟩
  · intro mem src out q len hq hlen
    simp only [Serializer_string.GetValue, GetVariant32]
    rw [hq]
    simp only
    rw [if_neg (by omega)]
    exact ⟨rfl, rfl⟩
  · intro mem src out hq
    simp only [Serializer_string.GetValue, GetVariant32]
    rw [hq]
    exact ⟨rfl, rfl⟩
  · intro mem mem2 src out h
    exact Serializer_string_GetValue_congr mem mem2 src out h

/-- Witness of C9: the view `05 61 62` declares 5 bytes and holds 2, the view `80` holds an
unterminated prefix; both are rejected with the output unchanged, also when the memory right
after the view holds the missing bytes. -/
theorem C9_string_truncation_rejected_witness :
    ((Serializer_string.GetValue (Mem.ofBytes [0x05, 0x61, 0x62, 0x63, 0x64, 0x65])
        { data := 0, size := 3 } [0x7A]).1 = false ∧
      (Serializer_string.GetValue (Mem.ofBytes [0x05, 0x61, 0x62, 0x63, 0x64, 0x65])
        { data := 0, size := 3 } [0x7A]).2.2 = [0x7A]) ∧
    ((Serializer_string.GetValue (Mem.ofBytes [0x80, 0x01]) { data := 0, size := 1 } [0x7A]).1
        = false ∧
      (Serializer_string.GetValue (Mem.ofBytes [0x80, 0x01]) { data := 0, size := 1 } [0x7A]).2.2
        = [0x7A]) ∧
    Serializer_string.GetValue (Mem.ofBytes [0x05, 0x61, 0x62, 0x63, 0x64, 0x65])
        { data := 0, size := 3 } [0x7A]
      = Serializer_string.GetValue (Mem.ofBytes [0x05, 0x61, 0x62]) { data := 0, size := 3 } [0x7A] := by
  have h1 := C9_string_truncation_rejected.1 (Mem.ofBytes [0x05, 0x61, 0x62, 0x63, 0x64, 0x65])
    { data := 0, size := 3 } [0x7A] 1 5 (by decide) (by decide)
  have h2 := C9_string_truncation_rejected.2.1 (Mem.ofBytes [0x80, 0x01])
    { data := 0, size := 1 } [0x7A] (by decide)
  have h3 := C9_string_truncation_rejected.2.2 (Mem.ofBytes [0x05, 0x61, 0x62])
    (Mem.ofBytes [0x05, 0x61, 0x62, 0x63, 0x64, 0x65]) { data := 0, size := 3 } [0x7A]
    (by intro a _ ha
        have : a < 3 := by simpa using ha
        interval_cases a <;> rfl)
  exact ⟨h1, h2, h3⟩

/-- C10. Sequence wire format and round trip: for every sequence `xs` of fewer than `2^32`
elements whose element type round-trips, `Serializer<std::vector<T>>::PutValue` appends the
varint32 of the count followed by the encodings of the elements in order, and `GetValue` on
that encoding followed by any `rest`, into an initially empty vector, returns true, yields
exactly `xs` in the same order, and leaves the view denoting `rest`. -/
theorem C10_sequence_round_trip {T : Type} (S : Serializer T) (P : T → Prop) (xs : List T)
    (hS : S.RoundTrips P) (hlen : xs.length < 2 ^ 32) (hP : ∀ x ∈ xs, P x) :
    (∀ dst : List Nat,
      Serializer_vector.PutValue S dst xs
        = dst ++ (PutVariant32 [] xs.length ++ (xs.map (S.PutValue [])).flatten)) ∧
    ∀ (rest : List Nat) (mem : Mem) (src : string_view),
      src.bytes mem = Serializer_vector.PutValue S [] xs ++ rest →
      Serializer_vector.GetValue S mem src []
          = (true, src.remove_prefix (Serializer_vector.PutValue S [] xs).length, xs) ∧
        (src.remove_prefix (Serializer_vector.PutValue S [] xs).length).bytes mem = rest := by
  constructor
  · intro dst
    rw [Serializer_vector_PutValue_eq S P hS xs dst hlen hP, PutVariant32_eq, List.nil_append]
  · intro rest mem src h
    rw [Serializer_vector_PutValue_eq S P hS xs [] hlen hP, List.nil_append] at h ⊢
    refine ⟨?_, string_view.bytes_remove_prefix mem src _ _ h⟩
    rw [Serializer_vector_GetValue_eq S P hS xs hlen hP rest mem src [] h, List.nil_append]

/-- Witness of C10: the sequence of strings `a`, `bb`, `ccc` encodes to
`03 01 61 02 62 62 03 63 63 63` and these bytes decode back to the same ordered sequence,
all ten bytes being consumed. -/
theorem C10_sequence_round_trip_witness :
    Serializer_vector.PutValue Serializer_string.serializer []
        [[0x61], [0x62, 0x62], [0x63, 0x63, 0x63]]
      = [0x03, 0x01, 0x61, 0x02, 0x62, 0x62, 0x03, 0x63, 0x63, 0x63] ∧
    Serializer_vector.GetValue Serializer_string.serializer
        (Mem.ofBytes [0x03, 0x01, 0x61, 0x02, 0x62, 0x62, 0x03, 0x63, 0x63, 0x63])
        (string_view.ofBytes [0x03, 0x01, 0x61, 0x02, 0x62, 0x62, 0x03, 0x63, 0x63, 0x63]) []
      = (true, { data := 10, size := 0 }, [[0x61], [0x62, 0x62], [0x63, 0x63, 0x63]]) := by
  have hP : ∀ x ∈ ([[0x61], [0x62, 0x62], [0x63, 0x63, 0x63]] : List (List Nat)),
      x.length < 2 ^ 32 := by
    intro x hx
    simp only [List.mem_cons, List.mem_singleton, List.not_mem_nil, or_false] at hx
    rcases hx with rfl | rfl | rfl <;> norm_num
  have hthm := C10_sequence_round_trip Serializer_string.serializer (fun s => s.length < 2 ^ 32)
    [[0x61], [0x62, 0x62], [0x63, 0x63, 0x63]] Serializer_string_roundTrips (by norm_num) hP
  have e : Serializer_vector.PutValue Serializer_string.serializer []
      [[0x61], [0x62, 0x62], [0x63, 0x63, 0x63]]
      = [0x03, 0x01, 0x61, 0x02, 0x62, 0x62, 0x03, 0x63, 0x63, 0x63] := by
    rw [hthm.1 []]
    simp [Serializer_string.serializer, Serializer_string.PutValue, PutVariant32_eq, varintBytes]
  have h := (hthm.2 []
    (Mem.ofBytes [0x03, 0x01, 0x61, 0x02, 0x62, 0x62, 0x03, 0x63, 0x63, 0x63])
    (string_view.ofBytes [0x03, 0x01, 0x61, 0x02, 0x62, 0x62, 0x03, 0x63, 0x63, 0x63])
    (by rw [e]; exact string_view.ofBytes_bytes _)).1
  rw [e] at h
  exact ⟨e, h⟩

/-- C11. Sequence and mapping truncation rejection.  For every supported element
type `T` (and key/value types `K`, `V`): `Serializer<std::vector<T>>::GetValue` and
`Serializer<std::unordered_map<K,V>>::GetValue` never read past the end of the view (their
outcome is the same in every memory that agrees with the given one on the bytes of the
view); and on every input whose varint32 count prefix decodes to a count greater than the
number of bytes remaining in the view after the prefix they return false, provided a
successful decode of an element (for a mapping: of a key or of a value) consumes at least
one byte of the view.  A supported type is one whose decoder stays inside its view; the
last four groups of conjuncts show which types these are: every integer, character, float,
double, string and enumeration decoder stays inside its view and consumes at least one
byte, so does every sequence and every mapping decoder over supported types, and a
composite decoder over supported parts stays inside its view and consumes at least one
byte as soon as its ancestor or one of its fields does. -/
theorem C11_truncation_rejected :
    (∀ (T : Type) (S : Serializer T), S.Local →
      ∀ (mem : Mem) (src : string_view) (v : List T),
        (S.Consumes → ∀ (q count : Nat),
          GetVariant32Ptr mem src.data (src.data + src.size) = some (q, count) →
          src.data + src.size - q < count →
          (Serializer_vector.GetValue S mem src v).1 = false) ∧
        ∀ mem2 : Mem, (∀ a, src.data ≤ a → a < src.data + src.size → mem2 a = mem a) →
          Serializer_vector.GetValue S mem2 src v = Serializer_vector.GetValue S mem src v) ∧
    (∀ (K V : Type) [DecidableEq K] (SK : Serializer K) (SV : Serializer V),
      SK.Local → SV.Local →
      ∀ (mem : Mem) (src : string_view) (v : unordered_map K V),
        (SK.Consumes ∨ SV.Consumes → ∀ (q count : Nat),
          GetVariant32Ptr mem src.data (src.data + src.size) = some (q, count) →
          src.data + src.size - q < count →
          (Serializer_unordered_map.GetValue SK SV mem src v).1 = false) ∧
        ∀ mem2 : Mem, (∀ a, src.data ≤ a → a < src.data + src.size → mem2 a = mem a) →
          Serializer_unordered_map.GetValue SK SV mem2 src v
            = Serializer_unordered_map.GetValue SK SV mem src v) ∧
    ((Serializer_int64_t.serializer.Local ∧ Serializer_int64_t.serializer.Consumes) ∧
      (Serializer_uint64_t.serializer.Local ∧ Serializer_uint64_t.serializer.Consumes) ∧
      (Serializer_int.serializer.Local ∧ Serializer_int.serializer.Consumes) ∧
      (Serializer_uint32_t.serializer.Local ∧ Serializer_uint32_t.serializer.Consumes) ∧
      (Serializer_int16_t.serializer.Local ∧ Serializer_int16_t.serializer.Consumes) ∧
      (Serializer_uint16_t.serializer.Local ∧ Serializer_uint16_t.serializer.Consumes) ∧
      (Serializer_char.serializer.Local ∧ Serializer_char.serializer.Consumes) ∧
      (Serializer_int8_t.serializer.Local ∧ Serializer_int8_t.serializer.Consumes) ∧
      (Serializer_uint8_t.serializer.Local ∧ Serializer_uint8_t.serializer.Consumes) ∧
      (Serializer_float.serializer.Local ∧ Serializer_float.serializer.Consumes) ∧
      (Serializer_double.serializer.Local ∧ Serializer_double.serializer.Consumes) ∧
      (Serializer_string.serializer.Local ∧ Serializer_string.serializer.Consumes) ∧
      ∀ (T : Type) (toUInt32 : T → Nat) (ofUInt32 : Nat → T),
        (Serializer_Enum.serializer toUInt32 ofUInt32).Local ∧
          (Serializer_Enum.serializer toUInt32 ofUInt32).Consumes) ∧
    (∀ (T : Type) (S : Serializer T), S.Local →
      (Serializer_vector.serializer S).Local ∧ (Serializer_vector.serializer S).Consumes) ∧
    (∀ (K V : Type) [DecidableEq K] (SK : Serializer K) (SV : Serializer V),
      SK.Local → SV.Local →
      (Serializer_unordered_map.serializer SK SV).Local ∧
        (Serializer_unordered_map.serializer SK SV).Consumes) ∧
    (∀ (O : Type) (M : MetaClass O) (init : O), (∀ m ∈ M.all, m.ser.Local) →
      (Serializer_Class.serializer M init).Local ∧
        ((∃ m ∈ M.all, m.ser.Consumes) → (Serializer_Class.serializer M init).Consumes)) := by
  refine ⟨?_, ?_, ?_, ?_, ?_, ?_⟩
  · intro T S hL mem src v
    refine ⟨?_, fun mem2 h => Serializer_vector_GetValue_congr S hL mem mem2 src v h⟩
    intro hC q count hq hlt
    simp only [Serializer_vector.GetValue, GetVariant32]
    rw [hq]
    exact Serializer_vector_GetElements_truncated S hL hC mem count _ v hlt
  · intro K V _ SK SV hLK hLV mem src v
    refine ⟨?_, fun mem2 h =>
      Serializer_unordered_map_GetValue_congr SK SV hLK hLV mem mem2 src v h⟩
    intro hC q count hq hlt
    simp only [Serializer_unordered_map.GetValue, GetVariant32]
    rw [hq]
    exact Serializer_unordered_map_GetPairs_truncated SK SV hLK hLV hC mem count _ v hlt
  · exact ⟨⟨Serializer_int64_t_local, Serializer_int64_t_consumes⟩,
      ⟨Serializer_uint64_t_local, Serializer_uint64_t_consumes⟩,
      ⟨Serializer_int_local, Serializer_int_consumes⟩,
      ⟨Serializer_uint32_t_local, Serializer_uint32_t_consumes⟩,
      Serializer_int16_t_local_consumes, Serializer_uint16_t_local_consumes,
      Serializer_char_local_consumes, Serializer_int8_t_local_consumes,
      Serializer_uint8_t_local_consumes, Serializer_float_local_consumes,
      Serializer_double_local_consumes,
      ⟨Serializer_string_local, Serializer_string_consumes⟩,
      fun _ toUInt32 ofUInt32 => Serializer_Enum_local_consumes toUInt32 ofUInt32⟩
  · exact fun _ S hL => ⟨Serializer_vector_local S hL, Serializer_vector_consumes S hL⟩
  · intro K V _ SK SV hLK hLV
    exact Serializer_unordered_map_local_consumes SK SV hLK hLV
  · exact fun _ M init hL => Serializer_Class_local_consumes M init hL

/-- Witness of C11: the view `05 01 61` announces 5 strings and holds 2 bytes after the
prefix, the view `05 00 00 00 00` announces 5 floats and holds 4 bytes, the view `03 01 00`
announces 3 pairs and holds 2 bytes: the decodes fail, also for a sequence of sequences of
strings.  For the field-less composite `Marker`, whose decoder consumes nothing, the decode
of the one-byte view `03` is the same whatever byte follows the view in memory. -/
theorem C11_truncation_rejected_witness :
    (Serializer_vector.GetValue Serializer_string.serializer (Mem.ofBytes [0x05, 0x01, 0x61])
      (string_view.ofBytes [0x05, 0x01, 0x61]) []).1 = false ∧
    (Serializer_vector.GetValue Serializer_float.serializer
      (Mem.ofBytes [0x05, 0x00, 0x00, 0x00, 0x00])
      (string_view.ofBytes [0x05, 0x00, 0x00, 0x00, 0x00]) []).1 = false ∧
    (Serializer_vector.GetValue (Serializer_vector.serializer Serializer_string.serializer)
      (Mem.ofBytes [0x05, 0x01, 0x01, 0x61]) (string_view.ofBytes [0x05, 0x01, 0x01, 0x61])
      []).1 = false ∧
    (Serializer_unordered_map.GetValue Serializer_uint32_t.serializer
      Serializer_string.serializer (Mem.ofBytes [0x03, 0x01, 0x00])
      (string_view.ofBytes [0x03, 0x01, 0x00]) []).1 = false ∧
    Serializer_vector.GetValue Marker.serializer (Mem.ofBytes [0x03, 0xFF])
        (string_view.ofBytes [0x03]) []
      = Serializer_vector.GetValue Marker.serializer (Mem.ofBytes [0x03])
        (string_view.ofBytes [0x03]) [] :=
  ⟨(C11_truncation_rejected.1 _ Serializer_string.serializer Serializer_string_local
      (Mem.ofBytes [0x05, 0x01, 0x61]) (string_view.ofBytes [0x05, 0x01, 0x61]) []).1
      Serializer_string_consumes 1 5 (by decide) (by decide),
    (C11_truncation_rejected.1 _ Serializer_float.serializer
      Serializer_float_local_consumes.1 (Mem.ofBytes [0x05, 0x00, 0x00, 0x00, 0x00])
      (string_view.ofBytes [0x05, 0x00, 0x00, 0x00, 0x00]) []).1
      Serializer_float_local_consumes.2 1 5 (by decide) (by decide),
    (C11_truncation_rejected.1 _ (Serializer_vector.serializer Serializer_string.serializer)
      (Serializer_vector_local _ Serializer_string_local)
      (Mem.ofBytes [0x05, 0x01, 0x01, 0x61]) (string_view.ofBytes [0x05, 0x01, 0x01, 0x61])
      []).1 (Serializer_vector_consumes _ Serializer_string_local) 1 5 (by decide) (by decide),
    (C11_truncation_rejected.2.1 Nat (List Nat) Serializer_uint32_t.serializer
      Serializer_string.serializer Serializer_uint32_t_local Serializer_string_local
      (Mem.ofBytes [0x03, 0x01, 0x00]) (string_view.ofBytes [0x03, 0x01, 0x00]) []).1
      (Or.inl Serializer_uint32_t_consumes) 1 3 (by decide) (by decide),
    (C11_truncation_rejected.1 _ Marker.serializer Marker_serializer_local
      (Mem.ofBytes [0x03]) (string_view.ofBytes [0x03]) []).2 (Mem.ofBytes [0x03, 0xFF])
      (fun a _ h => by
        have ha : a = 0 := by simp [string_view.ofBytes] at h; omega
        subst ha; rfl)⟩

/-- Counterexample to C11 as stated: `Marker` is a composite without fields, so its decoder
succeeds without consuming a byte; on the one-byte view `03` the count prefix decodes to 3,
no byte remains after it, and the sequence decoder still returns true with three elements
(and the mapping decoder returns true). -/
theorem C11_truncation_counterexample :
    GetVariant32Ptr (Mem.ofBytes [0x03]) 0 1 = some (1, 3) ∧
    (0 + 1 - 1 < 3) ∧
    Serializer_vector.GetValue Marker.serializer (Mem.ofBytes [0x03])
        (string_view.ofBytes [0x03]) []
      = (true, { data := 1, size := 0 }, [{}, {}, {}]) ∧
    (Serializer_unordered_map.GetValue Marker.serializer Marker.serializer
      (Mem.ofBytes [0x03]) (string_view.ofBytes [0x03]) []).1 = true := by
  decide

/-- C12. Mapping round trip independent of iteration order: for every mapping `m` (distinct
keys) with fewer than `2^32` entries whose key and value types round-trip, and for every
order `order` in which the container enumerates its pairs, `PutValue` appends the varint32 of
the count followed by each pair's key encoding then value encoding in that order, and
`GetValue` on those bytes followed by any `rest`, into an initially empty mapping, returns
true, consumes exactly the encoded bytes, and yields a mapping with the same number of
entries in which every key maps to what it maps to in `m`. -/
theorem C12_mapping_round_trip {K V : Type} [DecidableEq K] (SK : Serializer K)
    (SV : Serializer V) (PK : K → Prop) (PV : V → Prop) (m order : unordered_map K V)
    (hK : SK.RoundTrips PK) (hV : SV.RoundTrips PV) (hkeys : (m.map Prod.fst).Nodup)
    (horder : order.Perm m) (hlen : m.length < 2 ^ 32) (hP : ∀ p ∈ m, PK p.1 ∧ PV p.2) :
    (∀ dst : List Nat,
      Serializer_unordered_map.PutValue SK SV dst order
        = dst ++ (PutVariant32 [] m.length
            ++ (order.map (fun kv => SK.PutValue [] kv.1 ++ SV.PutValue [] kv.2)).flatten)) ∧
    ∀ (rest : List Nat) (mem : Mem) (src : string_view),
      src.bytes mem = Serializer_unordered_map.PutValue SK SV [] order ++ rest →
      ∃ result : unordered_map K V,
        Serializer_unordered_map.GetValue SK SV mem src []
          = (true,
              src.remove_prefix (Serializer_unordered_map.PutValue SK SV [] order).length,
              result) ∧
        (src.remove_prefix (Serializer_unordered_map.PutValue SK SV [] order).length).bytes mem
          = rest ∧
        (∀ k : K, unordered_map.find result k = unordered_map.find m k) ∧
        result.length = m.length := by
  have hol : order.length = m.length := horder.length_eq
  have hPo : ∀ p ∈ order, PK p.1 ∧ PV p.2 := fun p hp => hP p (horder.mem_iff.mp hp)
  have hko : (order.map Prod.fst).Nodup := (horder.map Prod.fst).nodup_iff.mpr hkeys
  have hput : ∀ dst : List Nat,
      Serializer_unordered_map.PutValue SK SV dst order
        = dst ++ (varintBytes order.length
            ++ (order.map (fun kv => SK.PutValue [] kv.1 ++ SV.PutValue [] kv.2)).flatten) := by
    intro dst
    rw [Serializer_unordered_map_PutValue_append SK SV order dst
      (fun kv hkv => ⟨(hK kv.1 (hPo kv hkv).1).1, (hV kv.2 (hPo kv hkv).2).1⟩),
      Nat.mod_eq_of_lt (by omega), PutVariant32_eq, List.nil_append]
  constructor
  · intro dst
    rw [hput dst, PutVariant32_eq, List.nil_append, hol]
  · intro rest mem src h
    rw [hput [], List.nil_append] at h ⊢
    refine ⟨order.foldl unordered_map.insert [], ?_,
      string_view.bytes_remove_prefix mem src _ _ h, ?_, ?_⟩
    · exact Serializer_unordered_map_GetValue_eq SK SV PK PV hK hV order (by omega) hPo rest
        mem src [] h
    · intro k
      rw [unordered_map.find_foldl_insert]
      simp only [unordered_map.find]
      exact unordered_map.find_perm m order hkeys horder k
    · rw [unordered_map.foldl_insert_of_nodup order [] (by simpa using hko)]
      simpa using hol

/-- Witness of C12: the mapping `{300 -> "a", 1 -> ""}` enumerated as `1, 300` is encoded as
`02 01 00 AC 02 01 61` and these bytes decode into an empty mapping to a mapping with the
same two associations. -/
theorem C12_mapping_round_trip_witness :
    Serializer_unordered_map.PutValue Serializer_uint32_t.serializer
        Serializer_string.serializer [] [(1, []), (300, [0x61])]
      = [0x02, 0x01, 0x00, 0xAC, 0x02, 0x01, 0x61] ∧
    ∃ result : unordered_map Nat (List Nat),
      Serializer_unordered_map.GetValue Serializer_uint32_t.serializer
          Serializer_string.serializer (Mem.ofBytes [0x02, 0x01, 0x00, 0xAC, 0x02, 0x01, 0x61])
          (string_view.ofBytes [0x02, 0x01, 0x00, 0xAC, 0x02, 0x01, 0x61]) []
        = (true, { data := 7, size := 0 }, result) ∧
      (∀ k : Nat, unordered_map.find result k
        = unordered_map.find [(300, [0x61]), (1, [])] k) ∧
      result.length = 2 := by
  have hthm := C12_mapping_round_trip Serializer_uint32_t.serializer
    Serializer_string.serializer (fun v => v < 2 ^ 32) (fun s => s.length < 2 ^ 32)
    [(300, [0x61]), (1, [])] [(1, []), (300, [0x61])]
    Serializer_uint32_t_roundTrips Serializer_string_roundTrips (by decide)
    (List.Perm.swap _ _ _) (by norm_num)
    (by intro p hp
        simp only [List.mem_cons, List.mem_singleton, List.not_mem_nil, or_false] at hp
        rcases hp with rfl | rfl <;> norm_num)
  have e : Serializer_unordered_map.PutValue Serializer_uint32_t.serializer
        Serializer_string.serializer [] [(1, []), (300, [0x61])]
      = [0x02, 0x01, 0x00, 0xAC, 0x02, 0x01, 0x61] := by
    rw [hthm.1 []]
    simp only [Serializer_uint32_t.serializer, Serializer_uint32_t.PutValue,
      Serializer_string.serializer, Serializer_string.PutValue, PutVariant32_eq,
      List.length_cons, List.length_nil, List.map_cons, List.map_nil, List.flatten_cons,
      List.flatten_nil, List.nil_append, List.append_nil]
    norm_num
    simp [varintBytes]
  obtain ⟨result, h1, _, h3, h4⟩ := hthm.2 []
    (Mem.ofBytes [0x02, 0x01, 0x00, 0xAC, 0x02, 0x01, 0x61])
    (string_view.ofBytes [0x02, 0x01, 0x00, 0xAC, 0x02, 0x01, 0x61])
    (by rw [e]; exact string_view.ofBytes_bytes _)
  rw [e] at h1
  exact ⟨e, result, h1, h3, h4⟩

/-- C13. Composite wire layout: for every composite value `obj` of a type with a designated
ancestor, `Serializer_Class<T>::PutValue` appends exactly the encoding of `obj` viewed as the
ancestor followed by the encodings of the own fields in field-list order, nothing before,
between or after them; when the ancestor is itself a composite its encoding follows the same
rule, so the outermost ancestor's part comes first; when no ancestor is designated
(`SuperClass` is `void`) the output is the concatenation of the own-field encodings in list
order.  The field and ancestor encoders are taken to only append, as every supported type's
encoder does. -/
theorem C13_composite_wire_layout {O : Type} (M : MetaClass O) (obj : O)
    (hm : ∀ m ∈ M.kMetaClassMember,
      ∀ d, m.ser.PutValue d (m.get obj) = d ++ m.ser.PutValue [] (m.get obj)) :
    (M.SuperClass = none → ∀ dst : List Nat,
      Serializer_Class.PutValue M dst obj
        = dst ++ (M.kMetaClassMember.map (fun m => m.ser.PutValue [] (m.get obj))).flatten) ∧
    (∀ a : Member O, M.SuperClass = some a →
      (∀ d, a.ser.PutValue d (a.get obj) = d ++ a.ser.PutValue [] (a.get obj)) →
      ∀ dst : List Nat,
        Serializer_Class.PutValue M dst obj
          = dst ++ (a.ser.PutValue [] (a.get obj)
              ++ (M.kMetaClassMember.map (fun m => m.ser.PutValue [] (m.get obj))).flatten)) ∧
    (∀ (B : Type) (up : O → B) (put : O → B → O) (MB : MetaClass B) (initB : B),
      M.SuperClass
        = some { F := B, get := up, set := put, ser := Serializer_Class.serializer MB initB } →
      (∀ a, MB.SuperClass = some a →
        ∀ d, a.ser.PutValue d (a.get (up obj)) = d ++ a.ser.PutValue [] (a.get (up obj))) →
      (∀ m ∈ MB.kMetaClassMember,
        ∀ d, m.ser.PutValue d (m.get (up obj)) = d ++ m.ser.PutValue [] (m.get (up obj))) →
      ∀ dst : List Nat,
        Serializer_Class.PutValue M dst obj
          = dst ++ (((match MB.SuperClass with
                      | some a => a.ser.PutValue [] (a.get (up obj))
                      | none => [])
                ++ (MB.kMetaClassMember.map (fun m => m.ser.PutValue [] (m.get (up obj)))).flatten)
              ++ (M.kMetaClassMember.map (fun m => m.ser.PutValue [] (m.get obj))).flatten)) := by
  refine ⟨?_, ?_, ?_⟩
  · intro hsup dst
    rw [Serializer_Class_PutValue_append M obj dst (by intro a h; rw [hsup] at h; cases h) hm,
      hsup]
    simp
  · intro a hsup ha dst
    rw [Serializer_Class_PutValue_append M obj dst
      (by intro a2 h; rw [hsup] at h; cases h; exact ha) hm, hsup]
  · intro B up put MB initB hsup haB hmB dst
    have hanc : ∀ d, Serializer_Class.PutValue MB d (up obj)
        = d ++ Serializer_Class.PutValue MB [] (up obj) := by
      intro d
      rw [Serializer_Class_PutValue_append MB (up obj) d haB hmB,
        Serializer_Class_PutValue_append MB (up obj) [] haB hmB, List.nil_append]
    rw [Serializer_Class_PutValue_append M obj dst
      (by intro a2 h; rw [hsup] at h; cases h; exact hanc) hm, hsup]
    simp only [Serializer_Class.serializer]
    rw [Serializer_Class_PutValue_append MB (up obj) [] haB hmB, List.nil_append]

/-- Witness of C13: a `Leaf` (ancestor `Middle`, whose ancestor is `Root`) with `id` 300,
`name` "a", `count` 7 and `tag` "bc" is encoded as `AC 02`, `01 61`, `07`, `02 62 63`: the
fields of `Root`, then of `Middle`, then its own, with nothing in between; a `Root` alone is
encoded as its single field. -/
theorem C13_composite_wire_layout_witness :
    Serializer_Class.PutValue Leaf.metaClass [0x09]
        { toMiddle := { toRoot := { id := 300 }, name := [0x61] }, count := 7,
          tag := [0x62, 0x63] }
      = [0x09, 0xAC, 0x02, 0x01, 0x61, 0x07, 0x02, 0x62, 0x63] ∧
    Serializer_Class.PutValue Root.metaClass [] { id := 300 } = [0xAC, 0x02] := by
  have hu : ∀ (v : Nat) (d : List Nat), Serializer_uint32_t.serializer.PutValue d v
      = d ++ Serializer_uint32_t.serializer.PutValue [] v :=
    fun v d => PutVariant32_append d v
  have hs : ∀ (v d : List Nat), Serializer_string.serializer.PutValue d v
      = d ++ Serializer_string.serializer.PutValue [] v :=
    fun v d => Serializer_string_PutValue_append d v
  have hr : ∀ (v : Root) (d : List Nat), Root.serializer.PutValue d v
      = d ++ Root.serializer.PutValue [] v := by
    intro v d
    simp [Root.serializer, Serializer_Class.serializer, Serializer_Class.PutValue,
      Root.metaClass, Root.members, Serializer_Class.PutMember, Serializer_uint32_t.serializer,
      Serializer_uint32_t.PutValue, PutVariant32_eq]
  have hleaf := (C13_composite_wire_layout Leaf.metaClass
    { toMiddle := { toRoot := { id := 300 }, name := [0x61] }, count := 7,
      tag := [0x62, 0x63] }
    (by intro m h
        simp only [Leaf.metaClass, Leaf.members, List.mem_cons, List.mem_singleton,
          List.not_mem_nil, or_false] at h
        rcases h with rfl | rfl
        · exact hu _
        · exact hs _)).2.2 Middle (fun o => o.toMiddle) (fun o b => { o with toMiddle := b })
    Middle.metaClass { toRoot := { id := 0 }, name := [] } rfl
    (by intro a h
        simp only [Middle.metaClass, Option.some.injEq] at h
        subst h
        exact hr _)
    (by intro m h
        simp only [Middle.metaClass, Middle.members, List.mem_singleton] at h
        subst h
        exact hs _) [0x09]
  have hroot := (C13_composite_wire_layout Root.metaClass { id := 300 }
    (by intro m h
        simp only [Root.metaClass, Root.members, List.mem_singleton] at h
        subst h
        exact hu _)).1 rfl []
  constructor
  · rw [hleaf]
    simp only [Middle.metaClass, Middle.super, Middle.members, Leaf.metaClass, Leaf.members,
      Root.serializer, Serializer_Class.serializer, Serializer_Class.PutValue,
      Serializer_Class.PutMember, Root.metaClass, Root.members,
      Serializer_uint32_t.serializer, Serializer_uint32_t.PutValue,
      Serializer_string.serializer, Serializer_string.PutValue, PutVariant32_eq,
      List.length_cons, List.length_nil, List.map_cons, List.map_nil, List.flatten_cons,
      List.flatten_nil, List.nil_append, List.append_nil]
    norm_num
    simp [varintBytes]
  · rw [hroot]
    simp only [Root.metaClass, Root.members, Serializer_uint32_t.serializer,
      Serializer_uint32_t.PutValue, PutVariant32_eq, List.map_cons, List.map_nil,
      List.flatten_cons, List.flatten_nil, List.nil_append, List.append_nil]
    simp [varintBytes]

/-- C14. Composite round trip through an ancestor chain: for every composite type `T` whose
ancestor is `S` whose ancestor is `R`, all field types round-tripping into the fields of the
target object, and every value `obj` of `T`, `Serializer_Class<T>::GetValue` applied to the
bytes of `PutValue(obj)` followed by any `rest` returns true, restores every field of `R`, of
`S` and of `T` to its value in `obj`, and leaves the view denoting `rest`; the bytes are the
fields of `R`, then of `S`, then of `T`, so the ancestors' fields are decoded before the own
fields. -/
theorem C14_composite_chain_round_trip {OR OS OT : Type} (MR : MetaClass OR)
    (MS : MetaClass OS) (MT : MetaClass OT) (upR : OS → OR) (putR : OS → OR → OS) (initR : OR)
    (upS : OT → OS) (putS : OT → OS → OT) (initS : OS)
    (hR : MR.SuperClass = none)
    (hS : MS.SuperClass
      = some { F := OR, get := upR, set := putR, ser := Serializer_Class.serializer MR initR })
    (hT : MT.SuperClass
      = some { F := OS, get := upS, set := putS, ser := Serializer_Class.serializer MS initS })
    (hlawR : MR.Lawful) (hlawS : MS.Lawful) (hlawT : MT.Lawful) (obj target : OT)
    (hfR : ∀ m ∈ MR.kMetaClassMember,
      m.ser.RoundTripsInto (m.get (upR (upS obj))) (m.get (upR (upS target))))
    (hfS : ∀ m ∈ MS.kMetaClassMember,
      m.ser.RoundTripsInto (m.get (upS obj)) (m.get (upS target)))
    (hfT : ∀ m ∈ MT.kMetaClassMember, m.ser.RoundTripsInto (m.get obj) (m.get target))
    (rest : List Nat) (mem : Mem) (src : string_view)
    (h : src.bytes mem = Serializer_Class.PutValue MT [] obj ++ rest) :
    Serializer_Class.PutValue MT [] obj
      = (MR.kMetaClassMember.map (fun m => m.ser.PutValue [] (m.get (upR (upS obj))))).flatten
        ++ (MS.kMetaClassMember.map (fun m => m.ser.PutValue [] (m.get (upS obj)))).flatten
        ++ (MT.kMetaClassMember.map (fun m => m.ser.PutValue [] (m.get obj))).flatten ∧
    ∃ result : OT,
      Serializer_Class.GetValue MT mem src target
        = (true, src.remove_prefix (Serializer_Class.PutValue MT [] obj).length, result) ∧
      (src.remove_prefix (Serializer_Class.PutValue MT [] obj).length).bytes mem = rest ∧
      (∀ m ∈ MR.kMetaClassMember, m.get (upR (upS result)) = m.get (upR (upS obj))) ∧
      (∀ m ∈ MS.kMetaClassMember, m.get (upS result) = m.get (upS obj)) ∧
      (∀ m ∈ MT.kMetaClassMember, m.get result = m.get obj) := by
  -- the bytes, level by level
  have hputR : ∀ d, Serializer_Class.PutValue MR d (upR (upS obj))
      = d ++ (MR.kMetaClassMember.map
          (fun m => m.ser.PutValue [] (m.get (upR (upS obj))))).flatten := by
    intro d
    rw [Serializer_Class_PutValue_append MR _ d (by intro a ha; rw [hR] at ha; cases ha)
      (fun m hm => (hfR m hm).1), hR]
    simp
  have hputS : ∀ d, Serializer_Class.PutValue MS d (upS obj)
      = d ++ (Serializer_Class.PutValue MR [] (upR (upS obj))
          ++ (MS.kMetaClassMember.map (fun m => m.ser.PutValue [] (m.get (upS obj)))).flatten) := by
    intro d
    rw [Serializer_Class_PutValue_append MS _ d
      (by intro a ha; rw [hS] at ha; cases ha
          intro d2
          simp only [Serializer_Class.serializer]
          rw [hputR d2, hputR [], List.nil_append])
      (fun m hm => (hfS m hm).1), hS]
    rfl
  have hputT : ∀ d, Serializer_Class.PutValue MT d obj
      = d ++ (Serializer_Class.PutValue MS [] (upS obj)
          ++ (MT.kMetaClassMember.map (fun m => m.ser.PutValue [] (m.get obj))).flatten) := by
    intro d
    rw [Serializer_Class_PutValue_append MT _ d
      (by intro a ha; rw [hT] at ha; cases ha
          intro d2
          simp only [Serializer_Class.serializer]
          rw [hputS d2, hputS [], List.nil_append])
      (fun m hm => (hfT m hm).1), hT]
    rfl
  -- decoding, level by level
  have hdecR : ∀ (rest2 : List Nat) (src2 : string_view),
      src2.bytes mem = Serializer_Class.PutValue MR [] (upR (upS obj)) ++ rest2 →
      (Serializer_Class.GetValue MR mem src2 (upR (upS target))).1 = true ∧
      (Serializer_Class.GetValue MR mem src2 (upR (upS target))).2.1
        = src2.remove_prefix (Serializer_Class.PutValue MR [] (upR (upS obj))).length ∧
      ∀ m ∈ MR.kMetaClassMember,
        m.get (Serializer_Class.GetValue MR mem src2 (upR (upS target))).2.2
          = m.get (upR (upS obj)) := by
    intro rest2 src2 h2
    rw [hputR [], List.nil_append] at h2 ⊢
    exact Serializer_Class_GetValue_root MR hR hlawR mem _ _ rest2 src2 hfR h2
  have hdecS : ∀ (rest2 : List Nat) (src2 : string_view),
      src2.bytes mem = Serializer_Class.PutValue MS [] (upS obj) ++ rest2 →
      (Serializer_Class.GetValue MS mem src2 (upS target)).1 = true ∧
      (Serializer_Class.GetValue MS mem src2 (upS target)).2.1
        = src2.remove_prefix (Serializer_Class.PutValue MS [] (upS obj)).length ∧
      ((∀ m ∈ MR.kMetaClassMember,
          m.get (upR (Serializer_Class.GetValue MS mem src2 (upS target)).2.2)
            = m.get (upR (upS obj))) ∧
        ∀ m ∈ MS.kMetaClassMember,
          m.get (Serializer_Class.GetValue MS mem src2 (upS target)).2.2
            = m.get (upS obj)) := by
    intro rest2 src2 h2
    rw [hputS [], List.nil_append] at h2 ⊢
    obtain ⟨h1, h3, h4, h5⟩ := Serializer_Class_GetValue_derived MS upR putR
      (Serializer_Class.serializer MR initR) hS hlawS
      (fun b => ∀ m ∈ MR.kMetaClassMember, m.get b = m.get (upR (upS obj)))
      mem (upS obj) (upS target) rest2 src2 hdecR hfS h2
    exact ⟨h1, h3, h4, h5⟩
  refine ⟨by rw [hputT [], hputS [], hputR []]; simp, ?_⟩
  have h' := h
  rw [hputT [], List.nil_append] at h'
  obtain ⟨h1, h3, h4, h5⟩ := Serializer_Class_GetValue_derived MT upS putS
    (Serializer_Class.serializer MS initS) hT hlawT
    (fun b => (∀ m ∈ MR.kMetaClassMember, m.get (upR b) = m.get (upR (upS obj))) ∧
      ∀ m ∈ MS.kMetaClassMember, m.get b = m.get (upS obj))
    mem obj target rest src hdecS hfT h'
  refine ⟨(Serializer_Class.GetValue MT mem src target).2.2, ?_,
    string_view.bytes_remove_prefix mem src _ _ h, h4.1, h4.2, h5⟩
  rw [hputT [], List.nil_append]
  exact Prod.ext h1 (Prod.ext h3 rfl)

/-- Witness of C14: the bytes `AC 02 01 61 07 02 62 63` of a `Leaf` followed by `FF`, decoded
into a `Leaf` that holds other values, restore `id` 300 (field of `Root`), `name` "a" (field
of `Middle`), `count` 7 and `tag` "bc" (own fields) and leave the byte `FF`. -/
theorem C14_composite_chain_round_trip_witness :
    ∃ result : Leaf,
      Serializer_Class.GetValue Leaf.metaClass
          (Mem.ofBytes [0xAC, 0x02, 0x01, 0x61, 0x07, 0x02, 0x62, 0x63, 0xFF])
          (string_view.ofBytes [0xAC, 0x02, 0x01, 0x61, 0x07, 0x02, 0x62, 0x63, 0xFF])
          { toMiddle := { toRoot := { id := 9 }, name := [0x7A, 0x7A] }, count := 1,
            tag := [0x71] }
        = (true, { data := 8, size := 1 }, result) ∧
      result.toMiddle.toRoot.id = 300 ∧ result.toMiddle.name = [0x61] ∧
      result.count = 7 ∧ result.tag = [0x62, 0x63] := by
  have e : Serializer_Class.PutValue Leaf.metaClass []
      { toMiddle := { toRoot := { id := 300 }, name := [0x61] }, count := 7,
        tag := [0x62, 0x63] }
      = [0xAC, 0x02, 0x01, 0x61, 0x07, 0x02, 0x62, 0x63] := by
    simp only [Middle.metaClass, Middle.super, Middle.members, Leaf.metaClass, Leaf.members,
      Leaf.super, Middle.serializer, Root.serializer, Serializer_Class.serializer,
      Serializer_Class.PutValue, Serializer_Class.PutMember, Root.metaClass, Root.members,
      Serializer_uint32_t.serializer, Serializer_uint32_t.PutValue,
      Serializer_string.serializer, Serializer_string.PutValue, PutVariant32_eq,
      List.length_cons, List.length_nil, List.nil_append, List.append_nil]
    norm_num
    simp [varintBytes]
  obtain ⟨_, result, h1, _, hR, hS, hT⟩ := C14_composite_chain_round_trip Root.metaClass
    Middle.metaClass Leaf.metaClass (fun o => o.toRoot) (fun o b => { o with toRoot := b })
    { id := 0 } (fun o => o.toMiddle) (fun o b => { o with toMiddle := b })
    { toRoot := { id := 0 }, name := [] } rfl rfl rfl Root_metaClass_lawful
    Middle_metaClass_lawful Leaf_metaClass_lawful
    { toMiddle := { toRoot := { id := 300 }, name := [0x61] }, count := 7,
      tag := [0x62, 0x63] }
    { toMiddle := { toRoot := { id := 9 }, name := [0x7A, 0x7A] }, count := 1, tag := [0x71] }
    (by intro m h
        simp only [Root.metaClass, Root.members, List.mem_singleton] at h
        subst h
        exact Serializer_uint32_t_roundTripsInto _ _ (by norm_num))
    (by intro m h
        simp only [Middle.metaClass, Middle.members, List.mem_singleton] at h
        subst h
        exact Serializer_string_roundTripsInto _ _ (by norm_num))
    (by intro m h
        simp only [Leaf.metaClass, Leaf.members, List.mem_cons, List.mem_singleton,
          List.not_mem_nil, or_false] at h
        rcases h with rfl | rfl
        · exact Serializer_uint32_t_roundTripsInto _ _ (by norm_num)
        · exact Serializer_string_roundTripsInto _ _ (by norm_num))
    [0xFF] (Mem.ofBytes [0xAC, 0x02, 0x01, 0x61, 0x07, 0x02, 0x62, 0x63, 0xFF])
    (string_view.ofBytes [0xAC, 0x02, 0x01, 0x61, 0x07, 0x02, 0x62, 0x63, 0xFF])
    (by rw [e]; exact string_view.ofBytes_bytes _)
  rw [e] at h1
  refine ⟨result, h1, ?_, ?_, ?_, ?_⟩
  · exact hR _ (List.mem_cons_self _ _)
  · exact hS _ (List.mem_cons_self _ _)
  · exact hT _ (List.mem_cons_self _ _)
  · exact hT _ (List.mem_cons_of_mem _ (List.mem_cons_self _ _))

/-- C15. Composite decode short-circuits: when the ancestor segment fails to decode,
`Serializer_Class<T>::GetValue` returns false, leaves the view where the ancestor's decoder
left it and decodes no own field: every own field keeps its value; when the ancestor segment
(if any) and the own fields before the k-th decode and the k-th own field fails,
`GetValue` returns false, leaves the view exactly where the failing field's decoder left it,
and every later own field keeps the value it had before the call. -/
theorem C15_composite_decode_short_circuits {O : Type} (M : MetaClass O)
    (hM : M.all.Pairwise Member.Independent) (mem : Mem) (src : string_view) (obj : O) :
    (∀ (a : Member O) (src2 : string_view) (b : a.F),
      M.SuperClass = some a →
      a.ser.GetValue mem src (a.get obj) = (false, src2, b) →
      Serializer_Class.GetValue M mem src obj = (false, src2, a.set obj b) ∧
      ∀ m ∈ M.kMetaClassMember, m.get (a.set obj b) = m.get obj) ∧
    (∀ (pre post : List (Member O)) (m : Member O) (src1 src2 : string_view) (o1 : O)
      (x : m.F),
      M.kMetaClassMember = pre ++ m :: post →
      Serializer_Class.GetValue { SuperClass := M.SuperClass, kMetaClassMember := pre }
          mem src obj = (true, src1, o1) →
      m.ser.GetValue mem src1 (m.get o1) = (false, src2, x) →
      Serializer_Class.GetValue M mem src obj = (false, src2, m.set o1 x) ∧
      ∀ m2 ∈ post, m2.get (m.set o1 x) = m2.get obj) := by
  constructor
  · intro a src2 b hsup hfail
    have hall : M.all = a :: M.kMetaClassMember := by simp [MetaClass.all, hsup]
    rw [hall, List.pairwise_cons] at hM
    constructor
    · rw [Serializer_Class_GetValue_eq_GetMember, hall]
      simp only [Serializer_Class.GetMember]
      rw [hfail]
    · intro m hm
      exact (hM.1 m hm).1 obj b
  · intro pre post m src1 src2 o1 x hsplit hpre hfail
    have hall : M.all = (M.SuperClass.toList ++ pre) ++ (m :: post) := by
      simp [MetaClass.all, hsplit]
    rw [Serializer_Class_GetValue_eq_GetMember] at hpre
    simp only [MetaClass.all] at hpre
    rw [hall, List.pairwise_append] at hM
    obtain ⟨_, hpost, hcross⟩ := hM
    rw [List.pairwise_cons] at hpost
    constructor
    · rw [Serializer_Class_GetValue_eq_GetMember, hall, Serializer_Class_GetMember_append,
        hpre]
      simp only [Serializer_Class.GetMember]
      rw [hfail]
    · intro m2 hm2
      have h1 : m2.get (m.set o1 x) = m2.get o1 := (hpost.1 m2 hm2).1 o1 x
      have hframe := Serializer_Class_GetMember_frame mem m2.get (M.SuperClass.toList ++ pre)
        src obj (fun m3 hm3 o y => (hcross m3 hm3 m2 (List.mem_cons_of_mem _ hm2)).1 o y)
      rw [hpre] at hframe
      rw [h1]
      exact hframe

/-- Witness of C15: for `Leaf`, when the field `name` of the ancestor `Middle` is truncated
the call fails at position 3 and `count` and `tag` keep their values; when the own field
`count` fails (an unterminated varint) the call fails and `tag` keeps its value. -/
theorem C15_composite_decode_short_circuits_witness :
    (Serializer_Class.GetValue Leaf.metaClass (Mem.ofBytes [0xAC, 0x02, 0x05, 0x61])
        { data := 0, size := 4 }
        { toMiddle := { toRoot := { id := 9 }, name := [0x7A] }, count := 1, tag := [0x71] }
      = (false, { data := 3, size := 1 },
          { toMiddle := { toRoot := { id := 300 }, name := [0x7A] }, count := 1,
            tag := [0x71] })) ∧
    (Serializer_Class.GetValue Leaf.metaClass (Mem.ofBytes [0xAC, 0x02, 0x01, 0x61, 0x80])
        { data := 0, size := 5 }
        { toMiddle := { toRoot := { id := 9 }, name := [0x7A] }, count := 1, tag := [0x71] }
      = (false, { data := 4, size := 1 },
          { toMiddle := { toRoot := { id := 300 }, name := [0x61] }, count := 1,
            tag := [0x71] })) := by
  have hM : Leaf.metaClass.all.Pairwise Member.Independent := Leaf_metaClass_lawful.2
  have hanc := ((C15_composite_decode_short_circuits Leaf.metaClass hM
    (Mem.ofBytes [0xAC, 0x02, 0x05, 0x61]) { data := 0, size := 4 }
    { toMiddle := { toRoot := { id := 9 }, name := [0x7A] }, count := 1, tag := [0x71] }).1
    Leaf.super { data := 3, size := 1 } { toRoot := { id := 300 }, name := [0x7A] } rfl
    rfl).1
  have hfield := ((C15_composite_decode_short_circuits Leaf.metaClass hM
    (Mem.ofBytes [0xAC, 0x02, 0x01, 0x61, 0x80]) { data := 0, size := 5 }
    { toMiddle := { toRoot := { id := 9 }, name := [0x7A] }, count := 1, tag := [0x71] }).2
    [] _ _ { data := 4, size := 1 } { data := 4, size := 1 }
    { toMiddle := { toRoot := { id := 300 }, name := [0x61] }, count := 1, tag := [0x71] }
    1 rfl rfl rfl).1
  exact ⟨hanc, hfield⟩

/-- C16. Silent narrowing on 16-bit decode: for every 32-bit unsigned `u`, decoding the
varint32 encoding of `u` with `Serializer<uint16_t>::GetValue` or
`Serializer<int16_t>::GetValue` returns true, with no range check (also when `u >= 2^16`),
and yields the low 16 bits of `u`, read as two's complement for `int16_t`; the whole varint,
at most 5 bytes, is consumed. -/
theorem C16_silent_narrowing (u : Nat) (rest : List Nat) (mem : Mem) (src : string_view)
    (hu : u < 2 ^ 32) (h : src.bytes mem = PutVariant32 [] u ++ rest) :
    (∀ out : Nat, Serializer_uint16_t.GetValue mem src out
      = (true, src.remove_prefix (PutVariant32 [] u).length, u % 2 ^ 16)) ∧
    (∀ out : Int, Serializer_int16_t.GetValue mem src out
      = (true, src.remove_prefix (PutVariant32 [] u).length,
          if u % 2 ^ 16 < 2 ^ 15 then ((u % 2 ^ 16 : Nat) : Int)
          else ((u % 2 ^ 16 : Nat) : Int) - 2 ^ 16)) ∧
    (src.remove_prefix (PutVariant32 [] u).length).bytes mem = rest ∧
    (PutVariant32 [] u).length ≤ 5 := by
  rw [PutVariant32_eq, List.nil_append] at h ⊢
  have hvar := GetVariant32_varintBytes u rest mem src 0 hu h
  refine ⟨?_, ?_, string_view.bytes_remove_prefix mem src _ _ h,
    varintBytes_length_le 4 u (lt_of_lt_of_le hu (by norm_num))⟩
  · intro out
    simp only [Serializer_uint16_t.GetValue]
    rw [hvar]
  · intro out
    simp only [Serializer_int16_t.GetValue]
    rw [hvar]
    rfl

/-- Witness of C16: `0x12345` decodes to `0x2345` as `uint16_t` with its 3 bytes consumed,
`0xFFFFFFFF` decodes to -1 and `0x18000` to -32768 as `int16_t`. -/
theorem C16_silent_narrowing_witness :
    (0x12345 : Nat) < 2 ^ 32 ∧
    Serializer_uint16_t.GetValue (Mem.ofBytes [0xC5, 0xC6, 0x04, 0x07])
        (string_view.ofBytes [0xC5, 0xC6, 0x04, 0x07]) 0
      = (true, { data := 3, size := 1 }, 0x2345) ∧
    Serializer_int16_t.GetValue (Mem.ofBytes [0xFF, 0xFF, 0xFF, 0xFF, 0x0F])
        (string_view.ofBytes [0xFF, 0xFF, 0xFF, 0xFF, 0x0F]) 0
      = (true, { data := 5, size := 0 }, -1) ∧
    Serializer_int16_t.GetValue (Mem.ofBytes [0x80, 0x80, 0x06])
        (string_view.ofBytes [0x80, 0x80, 0x06]) 0
      = (true, { data := 3, size := 0 }, -32768) := by
  have e1 : PutVariant32 [] 0x12345 = [0xC5, 0xC6, 0x04] := by
    simp [PutVariant32_eq, varintBytes]
  have e2 : PutVariant32 [] 0xFFFFFFFF = [0xFF, 0xFF, 0xFF, 0xFF, 0x0F] := by
    simp [PutVariant32_eq, varintBytes]
  have e3 : PutVariant32 [] 0x18000 = [0x80, 0x80, 0x06] := by
    simp [PutVariant32_eq, varintBytes]
  have h1 := (C16_silent_narrowing 0x12345 [0x07] (Mem.ofBytes [0xC5, 0xC6, 0x04, 0x07])
    (string_view.ofBytes [0xC5, 0xC6, 0x04, 0x07]) (by norm_num)
    (by rw [e1]; exact string_view.ofBytes_bytes _)).1 0
  have h2 := (C16_silent_narrowing 0xFFFFFFFF [] (Mem.ofBytes [0xFF, 0xFF, 0xFF, 0xFF, 0x0F])
    (string_view.ofBytes [0xFF, 0xFF, 0xFF, 0xFF, 0x0F]) (by norm_num)
    (by rw [e2]; exact string_view.ofBytes_bytes _)).2.1 0
  have h3 := (C16_silent_narrowing 0x18000 [] (Mem.ofBytes [0x80, 0x80, 0x06])
    (string_view.ofBytes [0x80, 0x80, 0x06]) (by norm_num)
    (by rw [e3]; exact string_view.ofBytes_bytes _)).2.1 0
  rw [e1] at h1
  rw [e2] at h2
  rw [e3] at h3
  exact ⟨by norm_num, h1, h2, h3⟩

/-- C17. Signed integers travel as unsigned bit patterns and round-trip at every width: for
every `int16_t`, `int` (32-bit) and `int64_t` value `v`, the minimum of each width and -1
included, `PutValue` appends the varint of `v mod 2^32` (16- and 32-bit types) or of
`v mod 2^64` (`int64_t`), and `GetValue` on those bytes followed by any `rest` returns true,
yields `v` and leaves the view denoting `rest`.  An `int16_t` or `int` value of -1 is encoded
as the 5-byte varint of `0xFFFFFFFF`, an `int64_t` value of -1 as a 10-byte varint. -/
theorem C17_signed_round_trip :
    (∀ v : Int, -2 ^ 15 ≤ v → v < 2 ^ 15 →
      (∀ dst, Serializer_int16_t.PutValue dst v = dst ++ PutVariant32 [] (v % 2 ^ 32).toNat) ∧
      ∀ (rest : List Nat) (mem : Mem) (src : string_view) (out : Int),
        src.bytes mem = Serializer_int16_t.PutValue [] v ++ rest →
        Serializer_int16_t.GetValue mem src out
            = (true, src.remove_prefix (Serializer_int16_t.PutValue [] v).length, v) ∧
          (src.remove_prefix (Serializer_int16_t.PutValue [] v).length).bytes mem = rest) ∧
    (∀ v : Int, -2 ^ 31 ≤ v → v < 2 ^ 31 →
      (∀ dst, Serializer_int.PutValue dst v = dst ++ PutVariant32 [] (v % 2 ^ 32).toNat) ∧
      ∀ (rest : List Nat) (mem : Mem) (src : string_view) (out : Int),
        src.bytes mem = Serializer_int.PutValue [] v ++ rest →
        Serializer_int.GetValue mem src out
            = (true, src.remove_prefix (Serializer_int.PutValue [] v).length, v) ∧
          (src.remove_prefix (Serializer_int.PutValue [] v).length).bytes mem = rest) ∧
    (∀ v : Int, -2 ^ 63 ≤ v → v < 2 ^ 63 →
      (∀ dst, Serializer_int64_t.PutValue dst v = dst ++ PutVariant64 [] (v % 2 ^ 64).toNat) ∧
      ∀ (rest : List Nat) (mem : Mem) (src : string_view) (out : Int),
        src.bytes mem = Serializer_int64_t.PutValue [] v ++ rest →
        Serializer_int64_t.GetValue mem src out
            = (true, src.remove_prefix (Serializer_int64_t.PutValue [] v).length, v) ∧
          (src.remove_prefix (Serializer_int64_t.PutValue [] v).length).bytes mem = rest) ∧
    Serializer_int16_t.PutValue [] (-1) = [0xFF, 0xFF, 0xFF, 0xFF, 0x0F] ∧
    Serializer_int.PutValue [] (-1) = [0xFF, 0xFF, 0xFF, 0xFF, 0x0F] ∧
    PutVariant32 [] 0xFFFFFFFF = [0xFF, 0xFF, 0xFF, 0xFF, 0x0F] ∧
    Serializer_int64_t.PutValue [] (-1)
      = [0xFF, 0xFF, 0xFF, 0xFF, 0xFF, 0xFF, 0xFF, 0xFF, 0xFF, 0x01] := by
  refine ⟨?_, ?_, ?_, ?_, ?_, ?_, ?_⟩
  · intro v h1 h2
    refine ⟨fun dst => ?_, fun rest mem src out h => ?_⟩
    · simp only [Serializer_int16_t.PutValue, toUnsigned]
      rw [PutVariant32_eq, PutVariant32_eq, List.nil_append]
    · simp only [Serializer_int16_t.PutValue] at h ⊢
      rw [PutVariant32_eq, List.nil_append] at h ⊢
      refine ⟨?_, string_view.bytes_remove_prefix mem src _ _ h⟩
      simp only [Serializer_int16_t.GetValue]
      rw [GetVariant32_varintBytes _ rest mem src 0 (toUnsigned32_lt v) h]
      simp only
      rw [toSigned16_toUnsigned32 v h1 h2]
  · intro v h1 h2
    refine ⟨fun dst => ?_, fun rest mem src out h => ?_⟩
    · simp only [Serializer_int.PutValue, toUnsigned]
      rw [PutVariant32_eq, PutVariant32_eq, List.nil_append]
    · simp only [Serializer_int.PutValue] at h ⊢
      rw [PutVariant32_eq, List.nil_append] at h ⊢
      refine ⟨?_, string_view.bytes_remove_prefix mem src _ _ h⟩
      simp only [Serializer_int.GetValue]
      rw [GetVariant32_varintBytes _ rest mem src _ (toUnsigned32_lt v) h]
      simp only
      rw [toSigned32_toUnsigned32 v h1 h2]
  · intro v h1 h2
    refine ⟨fun dst => ?_, fun rest mem src out h => ?_⟩
    · simp only [Serializer_int64_t.PutValue, toUnsigned]
      rw [PutVariant64_eq, PutVariant64_eq, List.nil_append]
    · simp only [Serializer_int64_t.PutValue] at h ⊢
      rw [PutVariant64_eq, List.nil_append] at h ⊢
      refine ⟨?_, string_view.bytes_remove_prefix mem src _ _ h⟩
      simp only [Serializer_int64_t.GetValue]
      rw [GetVariant64_varintBytes _ rest mem src _ (toUnsigned64_lt v) h]
      simp only
      rw [toSigned64_toUnsigned64 v h1 h2]
  · simp [Serializer_int16_t.PutValue, toUnsigned, PutVariant32_eq, varintBytes]
  · simp [Serializer_int.PutValue, toUnsigned, PutVariant32_eq, varintBytes]
  · simp [PutVariant32_eq, varintBytes]
  · simp [Serializer_int64_t.PutValue, toUnsigned, PutVariant64_eq, varintBytes]

/-- Witness of C17: the minimum values of `int16_t`, `int` and `int64_t` are decoded from
their encodings. -/
theorem C17_signed_round_trip_witness :
    Serializer_int16_t.GetValue (Mem.ofBytes [0x80, 0x80, 0xFE, 0xFF, 0x0F])
        (string_view.ofBytes [0x80, 0x80, 0xFE, 0xFF, 0x0F]) 7
      = (true, { data := 5, size := 0 }, -32768) ∧
    Serializer_int.GetValue (Mem.ofBytes [0x80, 0x80, 0x80, 0x80, 0x08])
        (string_view.ofBytes [0x80, 0x80, 0x80, 0x80, 0x08]) 7
      = (true, { data := 5, size := 0 }, -2147483648) ∧
    Serializer_int64_t.GetValue
        (Mem.ofBytes [0x80, 0x80, 0x80, 0x80, 0x80, 0x80, 0x80, 0x80, 0x80, 0x01])
        (string_view.ofBytes [0x80, 0x80, 0x80, 0x80, 0x80, 0x80, 0x80, 0x80, 0x80, 0x01]) 7
      = (true, { data := 10, size := 0 }, -9223372036854775808) := by
  have e16 : Serializer_int16_t.PutValue [] (-32768) = [0x80, 0x80, 0xFE, 0xFF, 0x0F] := by
    simp [Serializer_int16_t.PutValue, toUnsigned, PutVariant32_eq, varintBytes]
  have e32 : Serializer_int.PutValue [] (-2147483648) = [0x80, 0x80, 0x80, 0x80, 0x08] := by
    simp [Serializer_int.PutValue, toUnsigned, PutVariant32_eq, varintBytes]
  have e64 : Serializer_int64_t.PutValue [] (-9223372036854775808)
      = [0x80, 0x80, 0x80, 0x80, 0x80, 0x80, 0x80, 0x80, 0x80, 0x01] := by
    simp [Serializer_int64_t.PutValue, toUnsigned, PutVariant64_eq, varintBytes]
  have h16 := ((C17_signed_round_trip.1 (-32768) (by norm_num) (by norm_num)).2 []
    (Mem.ofBytes [0x80, 0x80, 0xFE, 0xFF, 0x0F])
    (string_view.ofBytes [0x80, 0x80, 0xFE, 0xFF, 0x0F]) 7
    (by rw [e16]; exact string_view.ofBytes_bytes _)).1
  have h32 := ((C17_signed_round_trip.2.1 (-2147483648) (by norm_num) (by norm_num)).2 []
    (Mem.ofBytes [0x80, 0x80, 0x80, 0x80, 0x08])
    (string_view.ofBytes [0x80, 0x80, 0x80, 0x80, 0x08]) 7
    (by rw [e32]; exact string_view.ofBytes_bytes _)).1
  have h64 := ((C17_signed_round_trip.2.2.1 (-9223372036854775808) (by norm_num)
    (by norm_num)).2 []
    (Mem.ofBytes [0x80, 0x80, 0x80, 0x80, 0x80, 0x80, 0x80, 0x80, 0x80, 0x01])
    (string_view.ofBytes [0x80, 0x80, 0x80, 0x80, 0x80, 0x80, 0x80, 0x80, 0x80, 0x01]) 7
    (by rw [e64]; exact string_view.ofBytes_bytes _)).1
  rw [e16] at h16
  rw [e32] at h32
  rw [e64] at h64
  exact ⟨h16, h32, h64⟩

/-- C18. Encoding only appends and does not depend on the buffer: for every supported value
`v` and every prior buffer content `d`, `PutValue(d, v)` is `d` followed by the bytes
`PutValue` produces for `v` on an empty buffer; this holds for every primitive
specialisation, for enumerations, strings, for sequences and mappings (in the iteration order
of the container) of element types for which it holds, and for composites whose ancestor and
field types have the property.  `PutValue` is a total function: it has no failure outcome. -/
theorem C18_encoding_only_appends :
    ((∀ (d : List Nat) (v : Nat), Serializer_uint8_t.PutValue d v
        = d ++ Serializer_uint8_t.PutValue [] v) ∧
      (∀ (d : List Nat) (v : Int), Serializer_int8_t.PutValue d v
        = d ++ Serializer_int8_t.PutValue [] v) ∧
      (∀ (d : List Nat) (v : Nat), Serializer_char.PutValue d v
        = d ++ Serializer_char.PutValue [] v) ∧
      (∀ (d : List Nat) (v : Nat), Serializer_uint16_t.PutValue d v
        = d ++ Serializer_uint16_t.PutValue [] v) ∧
      (∀ (d : List Nat) (v : Int), Serializer_int16_t.PutValue d v
        = d ++ Serializer_int16_t.PutValue [] v) ∧
      (∀ (d : List Nat) (v : Nat), Serializer_uint32_t.PutValue d v
        = d ++ Serializer_uint32_t.PutValue [] v) ∧
      (∀ (d : List Nat) (v : Int), Serializer_int.PutValue d v
        = d ++ Serializer_int.PutValue [] v) ∧
      (∀ (d : List Nat) (v : Nat), Serializer_uint64_t.PutValue d v
        = d ++ Serializer_uint64_t.PutValue [] v) ∧
      (∀ (d : List Nat) (v : Int), Serializer_int64_t.PutValue d v
        = d ++ Serializer_int64_t.PutValue [] v) ∧
      (∀ (d : List Nat) (v : Nat), Serializer_float.PutValue d v
        = d ++ Serializer_float.PutValue [] v) ∧
      (∀ (d : List Nat) (v : Nat), Serializer_double.PutValue d v
        = d ++ Serializer_double.PutValue [] v) ∧
      (∀ (d : List Nat) (v : List Nat), Serializer_string.PutValue d v
        = d ++ Serializer_string.PutValue [] v)) ∧
    (∀ (T : Type) (toUInt32 : T → Nat) (d : List Nat) (v : T),
      Serializer_Enum.PutValue toUInt32 d v = d ++ Serializer_Enum.PutValue toUInt32 [] v) ∧
    (∀ (T : Type) (S : Serializer T), S.AppendOnly → ∀ (d : List Nat) (v : List T),
      Serializer_vector.PutValue S d v = d ++ Serializer_vector.PutValue S [] v) ∧
    (∀ (K V : Type) (SK : Serializer K) (SV : Serializer V), SK.AppendOnly → SV.AppendOnly →
      ∀ (d : List Nat) (v : unordered_map K V),
        Serializer_unordered_map.PutValue SK SV d v
          = d ++ Serializer_unordered_map.PutValue SK SV [] v) ∧
    (∀ (O : Type) (M : MetaClass O),
      (∀ a, M.SuperClass = some a → a.ser.AppendOnly) →
      (∀ m ∈ M.kMetaClassMember, m.ser.AppendOnly) →
      ∀ (d : List Nat) (obj : O),
        Serializer_Class.PutValue M d obj = d ++ Serializer_Class.PutValue M [] obj) := by
  refine ⟨⟨?_, ?_, ?_, ?_, ?_, ?_, ?_, ?_, ?_, ?_, ?_, ?_⟩, ?_, ?_, ?_, ?_⟩
  · intro d v; simp [Serializer_uint8_t.PutValue, PutByte]
  · intro d v; simp [Serializer_int8_t.PutValue, PutByte]
  · intro d v; simp [Serializer_char.PutValue, PutByte]
  · intro d v; exact PutVariant32_append d _
  · intro d v; exact PutVariant32_append d _
  · intro d v; exact PutVariant32_append d _
  · intro d v; exact PutVariant32_append d _
  · intro d v; exact PutVariant64_append d _
  · intro d v; exact PutVariant64_append d _
  · intro d v; exact PutFixed32_eq d _
  · intro d v; exact PutFixed64_eq d _
  · intro d v; exact Serializer_string_PutValue_append d v
  · intro T toUInt32 d v; exact PutVariant32_append d _
  · intro T S hS d v
    rw [Serializer_vector_PutValue_append S v d (fun x _ dd => hS dd x),
      Serializer_vector_PutValue_append S v [] (fun x _ dd => hS dd x), List.nil_append]
  · intro K V SK SV hK hV d v
    rw [Serializer_unordered_map_PutValue_append SK SV v d
        (fun kv _ => ⟨fun dd => hK dd kv.1, fun dd => hV dd kv.2⟩),
      Serializer_unordered_map_PutValue_append SK SV v []
        (fun kv _ => ⟨fun dd => hK dd kv.1, fun dd => hV dd kv.2⟩), List.nil_append]
  · intro O M ha hm d obj
    rw [Serializer_Class_PutValue_append M obj d (fun a h dd => ha a h dd (a.get obj))
        (fun m h dd => hm m h dd (m.get obj)),
      Serializer_Class_PutValue_append M obj [] (fun a h dd => ha a h dd (a.get obj))
        (fun m h dd => hm m h dd (m.get obj)), List.nil_append]

/-- Witness of C18: a sequence of strings, a mapping from `uint32_t` to strings and the
composite `Leaf` with its two ancestors, each encoded behind the buffer content `09`. -/
theorem C18_encoding_only_appends_witness :
    Serializer_vector.PutValue Serializer_string.serializer [0x09] [[0x61], []]
      = [0x09] ++ Serializer_vector.PutValue Serializer_string.serializer [] [[0x61], []] ∧
    Serializer_unordered_map.PutValue Serializer_uint32_t.serializer
        Serializer_string.serializer [0x09] [(300, [0x61]), (1, [])]
      = [0x09] ++ Serializer_unordered_map.PutValue Serializer_uint32_t.serializer
          Serializer_string.serializer [] [(300, [0x61]), (1, [])] ∧
    Serializer_Class.PutValue Leaf.metaClass [0x09]
        { toMiddle := { toRoot := { id := 300 }, name := [0x61] }, count := 7,
          tag := [0x62, 0x63] }
      = [0x09] ++ Serializer_Class.PutValue Leaf.metaClass []
        { toMiddle := { toRoot := { id := 300 }, name := [0x61] }, count := 7,
          tag := [0x62, 0x63] } := by
  have hstr : Serializer_string.serializer.AppendOnly :=
    fun d v => C18_encoding_only_appends.1.2.2.2.2.2.2.2.2.2.2.2 d v
  have hu32 : Serializer_uint32_t.serializer.AppendOnly :=
    fun d v => C18_encoding_only_appends.1.2.2.2.2.2.1 d v
  have hroot : Root.serializer.AppendOnly :=
    fun d v => C18_encoding_only_appends.2.2.2.2 Root Root.metaClass
      (by intro a h; simp [Root.metaClass] at h)
      (by intro m h
          simp only [Root.metaClass, Root.members, List.mem_singleton] at h
          subst h
          exact hu32) d v
  have hmiddle : Middle.serializer.AppendOnly :=
    fun d v => C18_encoding_only_appends.2.2.2.2 Middle Middle.metaClass
      (by intro a h
          simp only [Middle.metaClass, Option.some.injEq] at h
          subst h
          exact hroot)
      (by intro m h
          simp only [Middle.metaClass, Middle.members, List.mem_singleton] at h
          subst h
          exact hstr) d v
  refine ⟨C18_encoding_only_appends.2.2.1 _ _ hstr _ _,
    C18_encoding_only_appends.2.2.2.1 _ _ _ _ hu32 hstr _ _,
    C18_encoding_only_appends.2.2.2.2 Leaf Leaf.metaClass ?_ ?_ _ _⟩
  · intro a h
    simp only [Leaf.metaClass, Option.some.injEq] at h
    subst h
    exact hmiddle
  · intro m h
    simp only [Leaf.metaClass, Leaf.members, List.mem_cons, List.mem_singleton,
      List.not_mem_nil, or_false] at h
    rcases h with rfl | rfl
    · exact hu32
    · exact hstr

/-- C19. Sequence decode appends to the target instead of replacing it: whatever vector `v0`
the output argument holds, `Serializer<std::vector<T>>::GetValue` returns the flag and the
view it returns for an empty target and leaves `v0` followed by what it leaves in an empty
target; on the encoding of `xs` the output is `v0 ++ xs`, so that decoding restores `xs`
only when the target starts empty; and when the count prefix announces more elements than
decode and the element after the decoded ones `xs` fails, the call returns false with the
output holding `v0`, then `xs`, then the one slot that was appended for the failing element. -/
theorem C19_sequence_decode_appends {T : Type} (S : Serializer T) (P : T → Prop)
    (hS : S.RoundTrips P) (xs : List T) (hP : ∀ x ∈ xs, P x) (v0 : List T) :
    (∀ (mem : Mem) (src : string_view),
      Serializer_vector.GetValue S mem src v0
        = ((Serializer_vector.GetValue S mem src []).1,
           (Serializer_vector.GetValue S mem src []).2.1,
           v0 ++ (Serializer_vector.GetValue S mem src []).2.2)) ∧
    (xs.length < 2 ^ 32 → ∀ (rest : List Nat) (mem : Mem) (src : string_view),
      src.bytes mem = Serializer_vector.PutValue S [] xs ++ rest →
      Serializer_vector.GetValue S mem src v0
        = (true, src.remove_prefix (Serializer_vector.PutValue S [] xs).length, v0 ++ xs)) ∧
    (∀ (n : Nat) (tail : List Nat) (mem : Mem) (src src2 : string_view) (e : T),
      xs.length < n → n < 2 ^ 32 →
      src.bytes mem = (PutVariant32 [] n ++ (xs.map (S.PutValue [])).flatten) ++ tail →
      S.GetValue mem
          (src.remove_prefix (PutVariant32 [] n ++ (xs.map (S.PutValue [])).flatten).length)
          S.init = (false, src2, e) →
      Serializer_vector.GetValue S mem src v0 = (false, src2, v0 ++ xs ++ [e]) ∧
        (v0 ++ xs ++ [e]).length = v0.length + xs.length + 1) := by
  refine ⟨?_, ?_, ?_⟩
  · intro mem src
    simp only [Serializer_vector.GetValue]
    rcases hg : GetVariant32 mem src 0 with ⟨b, src1, vSize⟩
    cases b
    · simp
    · simp only
      rw [Serializer_vector_GetElements_append S mem vSize src1 v0]
  · intro hlen rest mem src h
    rw [Serializer_vector_PutValue_eq S P hS xs [] hlen hP, List.nil_append] at h ⊢
    exact Serializer_vector_GetValue_eq S P hS xs hlen hP rest mem src v0 h
  · intro n tail mem src src2 e hn hn32 h hfail
    rw [PutVariant32_eq, List.nil_append] at h hfail
    rw [List.append_assoc] at h
    have hvar := GetVariant32_varintBytes n _ mem src 0 hn32 h
    have hrest := string_view.bytes_remove_prefix mem src _ _ h
    rw [List.length_append, ← string_view.remove_prefix_add] at hfail
    refine ⟨?_, by simp [Nat.add_assoc]⟩
    simp only [Serializer_vector.GetValue]
    rw [hvar]
    simp only
    exact Serializer_vector_GetElements_fail S P hS mem tail xs n _ src2 v0 e hP hn hrest hfail

/-- Witness of C19: decoding the strings `a`, `b` into a vector that holds `z` leaves
`z`, `a`, `b`; when the second string is truncated the call fails and leaves `z`, `a` and an
empty slot. -/
theorem C19_sequence_decode_appends_witness :
    Serializer_vector.GetValue Serializer_string.serializer
        (Mem.ofBytes [0x02, 0x01, 0x61, 0x01, 0x62])
        (string_view.ofBytes [0x02, 0x01, 0x61, 0x01, 0x62]) [[0x7A]]
      = (true, { data := 5, size := 0 }, [[0x7A], [0x61], [0x62]]) ∧
    Serializer_vector.GetValue Serializer_string.serializer
        (Mem.ofBytes [0x02, 0x01, 0x61, 0x05, 0x62])
        (string_view.ofBytes [0x02, 0x01, 0x61, 0x05, 0x62]) [[0x7A]]
      = (false, { data := 4, size := 1 }, [[0x7A], [0x61], []]) := by
  have hP2 : ∀ x ∈ ([[0x61], [0x62]] : List (List Nat)), x.length < 2 ^ 32 := by
    intro x hx
    simp only [List.mem_cons, List.mem_singleton, List.not_mem_nil, or_false] at hx
    rcases hx with rfl | rfl <;> norm_num
  have hP1 : ∀ x ∈ ([[0x61]] : List (List Nat)), x.length < 2 ^ 32 := by
    intro x hx
    simp only [List.mem_singleton] at hx
    subst hx
    norm_num
  have e2 : Serializer_vector.PutValue Serializer_string.serializer [] [[0x61], [0x62]]
      = [0x02, 0x01, 0x61, 0x01, 0x62] := by
    simp [Serializer_vector.PutValue, Serializer_vector.PutElements,
      Serializer_string.serializer, Serializer_string.PutValue, PutVariant32_eq, varintBytes]
  have e1 : PutVariant32 [] 2
      ++ (([[0x61]] : List (List Nat)).map (Serializer_string.serializer.PutValue [])).flatten
      = [0x02, 0x01, 0x61] := by
    simp [Serializer_string.serializer, Serializer_string.PutValue, PutVariant32_eq, varintBytes]
  have hok := (C19_sequence_decode_appends Serializer_string.serializer
    (fun s => s.length < 2 ^ 32) Serializer_string_roundTrips [[0x61], [0x62]] hP2 [[0x7A]]).2.1
    (by norm_num) [] (Mem.ofBytes [0x02, 0x01, 0x61, 0x01, 0x62])
    (string_view.ofBytes [0x02, 0x01, 0x61, 0x01, 0x62])
    (by rw [e2]; exact string_view.ofBytes_bytes _)
  have hfail := ((C19_sequence_decode_appends Serializer_string.serializer
    (fun s => s.length < 2 ^ 32) Serializer_string_roundTrips [[0x61]] hP1 [[0x7A]]).2.2
    2 [0x05, 0x62] (Mem.ofBytes [0x02, 0x01, 0x61, 0x05, 0x62])
    (string_view.ofBytes [0x02, 0x01, 0x61, 0x05, 0x62]) { data := 4, size := 1 } []
    (by norm_num) (by norm_num)
    (by rw [e1]; exact string_view.ofBytes_bytes _)
    (by rw [e1]; decide)).1
  rw [e2] at hok
  exact ⟨hok, hfail⟩

/-- C20. Mapping decode with repeated keys keeps the first occurrence: for every input whose
count prefix is `n` and whose `n` key/value pairs `ps` all decode,
`Serializer<std::unordered_map<K,V>>::GetValue` returns true and consumes all `n` pairs, also
when keys repeat or are present in the target; every key then maps to the value it had in the
target before the call if it had one, otherwise to the value of its first occurrence in `ps`;
the mapping gains at most `n` entries.  It can gain fewer, and re-encoding the result need
not reproduce the input: the input `02 01 0A 01 14` decodes to the single entry `1 -> 10`,
which is encoded as `01 01 0A`. -/
theorem C20_mapping_keeps_first_occurrence :
    (∀ (K V : Type) [DecidableEq K] (SK : Serializer K) (SV : Serializer V) (PK : K → Prop)
      (PV : V → Prop) (ps : List (K × V)) (target : unordered_map K V) (rest : List Nat)
      (mem : Mem) (src : string_view),
      SK.RoundTrips PK → SV.RoundTrips PV → (∀ p ∈ ps, PK p.1 ∧ PV p.2) →
      ps.length < 2 ^ 32 →
      src.bytes mem
        = (PutVariant32 [] ps.length
            ++ (ps.map (fun kv => SK.PutValue [] kv.1 ++ SV.PutValue [] kv.2)).flatten)
          ++ rest →
      ∃ result : unordered_map K V,
        Serializer_unordered_map.GetValue SK SV mem src target
          = (true,
              src.remove_prefix (PutVariant32 [] ps.length
                ++ (ps.map (fun kv => SK.PutValue [] kv.1 ++ SV.PutValue [] kv.2)).flatten).length,
              result) ∧
        (src.remove_prefix (PutVariant32 [] ps.length
          ++ (ps.map (fun kv => SK.PutValue [] kv.1 ++ SV.PutValue [] kv.2)).flatten).length).bytes
            mem = rest ∧
        (∀ k : K, unordered_map.find result k
          = match unordered_map.find target k with
            | some v => some v
            | none => unordered_map.find ps k) ∧
        result.length ≤ target.length + ps.length) ∧
    (Serializer_unordered_map.GetValue Serializer_uint32_t.serializer
        Serializer_uint32_t.serializer (Mem.ofBytes [0x02, 0x01, 0x0A, 0x01, 0x14])
        (string_view.ofBytes [0x02, 0x01, 0x0A, 0x01, 0x14]) []
      = (true, { data := 5, size := 0 }, [(1, 10)]) ∧
     Serializer_unordered_map.PutValue Serializer_uint32_t.serializer
        Serializer_uint32_t.serializer [] [(1, 10)] = [0x01, 0x01, 0x0A]) := by
  constructor
  · intro K V _ SK SV PK PV ps target rest mem src hK hV hP hlen h
    rw [PutVariant32_eq, List.nil_append] at h ⊢
    exact ⟨ps.foldl unordered_map.insert target,
      Serializer_unordered_map_GetValue_eq SK SV PK PV hK hV ps hlen hP rest mem src target h,
      string_view.bytes_remove_prefix mem src _ _ h,
      fun k => unordered_map.find_foldl_insert ps target k,
      unordered_map.length_foldl_insert_le ps target⟩
  · constructor
    · decide
    · simp [Serializer_unordered_map.PutValue, Serializer_unordered_map.PutPairs,
        Serializer_uint32_t.serializer, Serializer_uint32_t.PutValue, PutVariant32_eq,
        varintBytes]

/-- Witness of C20: the pairs `1 -> 10`, `2 -> 30`, `1 -> 20` decoded into a target that
holds `2 -> 99`: key 1 takes the value of its first occurrence, key 2 keeps the value of
the target, and the mapping gains one entry for three pairs. -/
theorem C20_mapping_keeps_first_occurrence_witness :
    ∃ result : unordered_map Nat Nat,
      Serializer_unordered_map.GetValue Serializer_uint32_t.serializer
          Serializer_uint32_t.serializer
          (Mem.ofBytes [0x03, 0x01, 0x0A, 0x02, 0x1E, 0x01, 0x14, 0xFF])
          (string_view.ofBytes [0x03, 0x01, 0x0A, 0x02, 0x1E, 0x01, 0x14, 0xFF]) [(2, 99)]
        = (true, { data := 7, size := 1 }, result) ∧
      unordered_map.find result 1 = some 10 ∧ unordered_map.find result 2 = some 99 ∧
      result.length ≤ 1 + 3 := by
  have e : PutVariant32 [] ([(1, 10), (2, 30), (1, 20)] : List (Nat × Nat)).length
      ++ (([(1, 10), (2, 30), (1, 20)] : List (Nat × Nat)).map
          (fun kv => Serializer_uint32_t.serializer.PutValue [] kv.1
            ++ Serializer_uint32_t.serializer.PutValue [] kv.2)).flatten
      = [0x03, 0x01, 0x0A, 0x02, 0x1E, 0x01, 0x14] := by
    simp only [Serializer_uint32_t.serializer, Serializer_uint32_t.PutValue, PutVariant32_eq,
      List.length_cons, List.length_nil, List.map_cons, List.map_nil, List.flatten_cons,
      List.flatten_nil, List.nil_append, List.append_nil]
    norm_num
    simp [varintBytes]
  obtain ⟨result, h1, _, h3, h4⟩ := C20_mapping_keeps_first_occurrence.1 Nat Nat
    Serializer_uint32_t.serializer Serializer_uint32_t.serializer (fun v => v < 2 ^ 32)
    (fun v => v < 2 ^ 32) [(1, 10), (2, 30), (1, 20)] [(2, 99)] [0xFF]
    (Mem.ofBytes [0x03, 0x01, 0x0A, 0x02, 0x1E, 0x01, 0x14, 0xFF])
    (string_view.ofBytes [0x03, 0x01, 0x0A, 0x02, 0x1E, 0x01, 0x14, 0xFF])
    Serializer_uint32_t_roundTrips Serializer_uint32_t_roundTrips
    (by intro p hp
        simp only [List.mem_cons, List.mem_singleton, List.not_mem_nil, or_false] at hp
        rcases hp with rfl | rfl | rfl <;> norm_num)
    (by norm_num)
    (by rw [e]; exact string_view.ofBytes_bytes _)
  rw [e] at h1
  exact ⟨result, h1, by rw [h3 1]; rfl, by rw [h3 2]; rfl, h4⟩

end SerializerCpp
